import Mathlib

/-
Verification of the terraflow state patcher, completion engine, watcher,
persistent-evaluator read loop, multiline comma normalizer and scratch
synchronizer, as shallow Lean embeddings of the Go sources in src/.

Modelling conventions, used throughout:

- Go dynamic values of type `any` produced by `encoding/json.Unmarshal`,
  `convertCtyToGo` and the state patcher are embedded as the inductive
  `GoVal`.  The constructors mirror the Go dynamic types `nil`, `bool`,
  `int`, `float64`, `string`, `[]any` and `map[string]any`.
- Go `float64` is modelled exactly as a decimal `m * 10^e` (structure
  `Dec`).  Every numeric literal exercised by the claims is a small
  decimal, far inside the range where `float64` is exact, so binary
  rounding is not modelled.
- Go `map[string]any` is embedded as an association list with distinct
  keys.  Map iteration order (which Go randomizes) is determinized to
  list order; all merged results proved about are order-insensitive.
  `encoding/json.Marshal` sorts map keys, which the embedded `marshal`
  reproduces.
- Filesystem state files are embedded as their byte content (a `String`);
  reading is `jsonParse`, writing is `marshal`.
-/

namespace Terraflow

/-- Left brace character, kept abstract so no brace appears inside a literal. -/
def lbrace : Char := Char.ofNat 123

/-- Right brace character. -/
def rbrace : Char := Char.ofNat 125

/-- Exact decimal model of a Go `float64`: the value `m * 10^e`. -/
structure Dec where
  m : Int
  e : Int
deriving DecidableEq, Repr

/-- Embedding of a Go `any` value as produced by `encoding/json`,
`convertCtyToGo` and the state patcher: `nil`, `bool`, `int`, `float64`,
`string`, `[]any`, `map[string]any`. -/
inductive GoVal where
  | vnil
  | vbool (b : Bool)
  | vint (n : Int)
  | vfloat (d : Dec)
  | vstr (s : String)
  | varr (xs : List GoVal)
  | vobj (kvs : List (String × GoVal))

namespace Dec

/-- Strip trailing factors of ten from the mantissa (serves `norm`).
The fuel is decremented on every division; `|m|` units always suffice,
since `|m / 10| < |m|` whenever ten divides a non-zero `m`. -/
def stripF : Nat → Int → Int → Dec
  | 0, m, e => ⟨m, e⟩
  | f + 1, m, e =>
      if m ≠ 0 ∧ m % 10 = 0 then stripF f (m / 10) (e + 1) else ⟨m, e⟩

/-- Strip trailing factors of ten from the mantissa. -/
def strip (m : Int) (e : Int) : Dec := stripF m.natAbs m e

/-- Canonical form of a decimal: zero is `0 * 10^0`, otherwise the mantissa
carries no factor of ten.  A Go `float64` printed by `strconv` in shortest
form corresponds to this normal form. -/
def norm (d : Dec) : Dec :=
  if d.m = 0 then ⟨0, 0⟩ else strip d.m d.e

/-- Value equality of two decimals, the model of Go `==` on `float64`. -/
def deq (a b : Dec) : Bool :=
  if a.e ≤ b.e then a.m == b.m * 10 ^ (b.e - a.e).toNat
  else a.m * 10 ^ (a.e - b.e).toNat == b.m

/-- The model of Go `s <= 0` on a `float64` value: the sign lives in the
mantissa since `10^e > 0`. -/
def nonpos (d : Dec) : Bool := d.m ≤ 0

/-- The model of Go `int(s)` on a `float64`: truncation toward zero. -/
def toInt (d : Dec) : Int :=
  if 0 ≤ d.e then d.m * 10 ^ d.e.toNat else Int.tdiv d.m (10 ^ (-d.e).toNat)

end Dec

/-- The character of the decimal digit `k` (`k < 10`). -/
def digitChar (k : Nat) : Char := Char.ofNat (48 + k)

/-- Decimal digit characters of `n`, most significant first (fuel-stepped;
`n` units of fuel always suffice since `n / 10 < n` for `n ≥ 10`). -/
def natDigitsF : Nat → Nat → List Char
  | 0, n => [digitChar (n % 10)]
  | f + 1, n =>
      if n < 10 then [digitChar n]
      else natDigitsF f (n / 10) ++ [digitChar (n % 10)]

/-- Decimal digit characters of `n`, most significant first, no leading
zero except for `n = 0` itself. -/
def natDigits (n : Nat) : List Char := natDigitsF n n

/-- Characters of an integer: optional sign, then decimal digits. -/
def intChars (i : Int) : List Char :=
  (if i < 0 then ['-'] else []) ++ natDigits i.natAbs

/-- Characters of a canonical decimal, in the plain (point) notation that
Go prints for the `float64` magnitudes exercised here: an integer when the
exponent is non-negative, otherwise digits with a decimal point. -/
def decChars (d : Dec) : List Char :=
  if 0 ≤ d.e then intChars d.m ++ List.replicate d.e.toNat '0'
  else
    let k := (-d.e).toNat
    let ds := natDigits d.m.natAbs
    let pad := List.replicate (k + 1 - ds.length) '0' ++ ds
    (if d.m < 0 then ['-'] else []) ++
      (pad.take (pad.length - k) ++ '.' :: pad.drop (pad.length - k))

/-- Rendering of a `float64`, normalizing first (Go prints the shortest
decimal, which is the canonical form). -/
def floatChars (d : Dec) : List Char := decChars d.norm

/-- Association-list lookup, the model of reading a Go `map[string]any`. -/
def lookupKV : List (String × GoVal) → String → Option GoVal
  | [], _ => none
  | (k, v) :: t, q => if k = q then some v else lookupKV t q

/-- Association-list update, the model of `m[k] = v` on a Go map (replace
the binding if present, add it otherwise). -/
def setKV : List (String × GoVal) → String → GoVal → List (String × GoVal)
  | [], q, w => [(q, w)]
  | (k, v) :: t, q, w => if k = q then (k, w) :: t else (k, v) :: setKV t q w

/-- Code-point lexicographic order on character lists; on Unicode scalar
sequences this equals Go's byte-wise string order (UTF-8 preserves
code-point order). -/
def charListLe : List Char → List Char → Bool
  | [], _ => true
  | _ :: _, [] => false
  | a :: as, b :: bs =>
      if a.toNat < b.toNat then true
      else if b.toNat < a.toNat then false
      else charListLe as bs

/-- Go string order. -/
def strLe (a b : String) : Bool := charListLe a.toList b.toList

/-- Stable insert for the key-ordered insertion sort of map entries. -/
def insertKV (kv : String × GoVal) : List (String × GoVal) → List (String × GoVal)
  | [] => [kv]
  | h :: t => if strLe kv.1 h.1 then kv :: h :: t else h :: insertKV kv t

/-- Key sort used when rendering a Go map (`fmt` and `encoding/json` both
print map keys in sorted order); a stable insertion sort. -/
def sortKV (kvs : List (String × GoVal)) : List (String × GoVal) :=
  kvs.foldr insertKV []

/-- Stable string insertion (for `sort.Strings`). -/
def insertStr (s : String) : List String → List String
  | [] => [s]
  | h :: t => if strLe s h then s :: h :: t else h :: insertStr s t

/-- `sort.Strings`: lexicographic string sort. -/
def sortStrings (l : List String) : List String := l.foldr insertStr []

mutual

/-- Recursively sort the keys of every object inside a value (the key
order `fmt` and `encoding/json` render Go maps in). -/
def sortAllKV : GoVal → GoVal
  | .varr xs => .varr (sortAllArr xs)
  | .vobj kvs => .vobj (sortKV (sortAllObj kvs))
  | v => v

/-- `sortAllKV` over a slice. -/
def sortAllArr : List GoVal → List GoVal
  | [] => []
  | x :: xs => sortAllKV x :: sortAllArr xs

/-- `sortAllKV` over a map's values. -/
def sortAllObj : List (String × GoVal) → List (String × GoVal)
  | [] => []
  | (k, v) :: t => (k, sortAllKV v) :: sortAllObj t

end

/-- Join strings with single spaces, as `fmt` does between container
elements. -/
def joinSpace : List String → String
  | [] => ""
  | [s] => s
  | s :: t => s ++ " " ++ joinSpace t

mutual

/-- Rendering core of `fmt.Sprintf("%v", x)` over a value whose objects
are already key-sorted (see `fmtV`). -/
def fmtVRaw : GoVal → String
  | .vnil => "<nil>"
  | .vbool b => if b then "true" else "false"
  | .vint n => ⟨intChars n⟩
  | .vfloat d => ⟨floatChars d⟩
  | .vstr s => s
  | .varr xs => "[" ++ joinSpace (fmtVArr xs) ++ "]"
  | .vobj kvs => "map[" ++ joinSpace (fmtVObj kvs) ++ ⟨[rbrace]⟩

/-- Rendered elements of a slice. -/
def fmtVArr : List GoVal → List String
  | [] => []
  | x :: xs => fmtVRaw x :: fmtVArr xs

/-- Rendered `key:value` entries of a map. -/
def fmtVObj : List (String × GoVal) → List String
  | [] => []
  | (k, v) :: t => (k ++ ":" ++ fmtVRaw v) :: fmtVObj t

end

/-- The model of Go `fmt.Sprintf("%v", x)` on a dynamic value, used by the
fallback branch of `deepEqualJSONish`: slices as space-joined bracketed
elements, maps as `map[k:v ...]` with sorted keys (sorted up front by
`sortAllKV`, rendered by `fmtVRaw`). -/
def fmtV (v : GoVal) : String := fmtVRaw (sortAllKV v)

mutual

/-- Embedding of `deepEqualJSONish` (src/internal/terraform/state.go):
JSON-ish deep equality with int/float64 numeric cross-equality, structural
recursion on sequences and maps, and a `fmt %v` string-compare fallback
for type pairings outside the explicitly handled cases. -/
def deepEqualJSONish (a b : GoVal) : Bool :=
  match a, b with
  | .vnil, .vnil => true
  | .vnil, _ => false
  | _, .vnil => false
  | .vfloat x, .vfloat y => Dec.deq x y
  | .vfloat x, .vint n => Dec.deq x ⟨n, 0⟩
  | .vint n, .vfloat y => Dec.deq ⟨n, 0⟩ y
  | .vint n, .vint k => n == k
  | .vstr s, .vstr t => s == t
  | .vbool x, .vbool y => x == y
  | .varr xs, .varr ys => deepEqualArr xs ys
  | .vobj xs, .vobj ys => xs.length == ys.length && deepEqualObj xs ys
  | .varr _, _ => false
  | .vobj _, _ => false
  | x, y => fmtV x == fmtV y

/-- Pointwise equality of two slices (false on length mismatch), the
`[]any` case of `deepEqualJSONish`. -/
def deepEqualArr : List GoVal → List GoVal → Bool
  | [], [] => true
  | x :: xs, y :: ys => deepEqualJSONish x y && deepEqualArr xs ys
  | _, _ => false

/-- For each entry of the first map, compare against the second map's
binding (a missing binding reads as Go `nil`), the `map[string]any` case
of `deepEqualJSONish`. -/
def deepEqualObj : List (String × GoVal) → List (String × GoVal) → Bool
  | [], _ => true
  | (k, v) :: t, ys =>
      deepEqualJSONish v ((lookupKV ys k).getD .vnil) && deepEqualObj t ys

end

/-- Single-quote character. -/
def squote : Char := Char.ofNat 39

/-- Backquote character. -/
def bquote : Char := Char.ofNat 96

/-- JSON whitespace (also the ASCII core of Go `unicode.IsSpace`). -/
def isWsChar (c : Char) : Bool :=
  c == ' ' || c == '\t' || c == '\n' || c == '\r'

/-- Go `unicode.IsSpace` on the Latin-1 range, as used by
`strings.TrimSpace` (the sources never see wider Unicode whitespace). -/
def goIsSpace (c : Char) : Bool :=
  c == ' ' || c == '\t' || c == '\n' || c == '\r' ||
    c.toNat == 11 || c.toNat == 12 || c.toNat == 133 || c.toNat == 160

/-- Model of Go `strings.TrimSpace`. -/
def goTrimSpace (s : String) : String :=
  ⟨((s.toList.dropWhile goIsSpace).reverse.dropWhile goIsSpace).reverse⟩

/-- Drop leading JSON whitespace. -/
def skipWsL : List Char → List Char
  | c :: cs => if isWsChar c then skipWsL cs else c :: cs
  | [] => []

/-- ASCII decimal digit test. -/
def isDigitChar (c : Char) : Bool := 48 ≤ c.toNat && c.toNat ≤ 57

/-- Split a leading run of decimal digits. -/
def spanDigits : List Char → List Char × List Char
  | c :: cs =>
      if isDigitChar c then
        let (ds, r) := spanDigits cs
        (c :: ds, r)
      else ([], c :: cs)
  | [] => ([], [])

/-- Numeric value of a digit run. -/
def digitsNat (ds : List Char) : Nat :=
  ds.foldl (fun a c => a * 10 + (c.toNat - 48)) 0

/-- Value of one hexadecimal digit character. -/
def hexDigVal (c : Char) : Option Nat :=
  if 48 ≤ c.toNat && c.toNat ≤ 57 then some (c.toNat - 48)
  else if 97 ≤ c.toNat && c.toNat ≤ 102 then some (c.toNat - 87)
  else if 65 ≤ c.toNat && c.toNat ≤ 70 then some (c.toNat - 55)
  else none

/-- Value of four hexadecimal digit characters. -/
def hex4Val (a b c d : Char) : Option Nat := do
  let x ← hexDigVal a
  let y ← hexDigVal b
  let z ← hexDigVal c
  let w ← hexDigVal d
  return ((x * 16 + y) * 16 + z) * 16 + w

/-- Single-character JSON escapes after a backslash. -/
def jsonEsc (c : Char) : Option Char :=
  if c = '"' then some '"'
  else if c = '\\' then some '\\'
  else if c = '/' then some '/'
  else if c = 'b' then some (Char.ofNat 8)
  else if c = 'f' then some (Char.ofNat 12)
  else if c = 'n' then some '\n'
  else if c = 'r' then some '\r'
  else if c = 't' then some '\t'
  else none

/-- Body of a JSON string after the opening quote, `encoding/json`
semantics: escapes decoded, `\uXXXX` with surrogate-pair combination and
lone surrogates replaced by U+FFFD, unescaped control characters
rejected.  Fuel-stepped; every step consumes input, so one unit per input
character plus one always suffices. -/
def parseStrBodyF : Nat → List Char → List Char → Option (String × List Char)
  | 0, _, _ => none
  | f + 1, acc, cs =>
    match cs with
    | '"' :: rest => some (⟨acc.reverse⟩, rest)
    | '\\' :: 'u' :: a :: b :: c :: d :: rest =>
        (match hex4Val a b c d with
        | none => none
        | some n =>
            if 0xD800 ≤ n ∧ n < 0xDC00 then
              match rest with
              | '\\' :: 'u' :: a2 :: b2 :: c2 :: d2 :: rest2 =>
                  (match hex4Val a2 b2 c2 d2 with
                  | some n2 =>
                      if 0xDC00 ≤ n2 ∧ n2 < 0xE000 then
                        parseStrBodyF f
                          (Char.ofNat (0x10000 + (n - 0xD800) * 0x400 + (n2 - 0xDC00))
                            :: acc) rest2
                      else
                        parseStrBodyF f (Char.ofNat 0xFFFD :: acc)
                          ('\\' :: 'u' :: a2 :: b2 :: c2 :: d2 :: rest2)
                  | none =>
                      parseStrBodyF f (Char.ofNat 0xFFFD :: acc)
                        ('\\' :: 'u' :: a2 :: b2 :: c2 :: d2 :: rest2))
              | r2 => parseStrBodyF f (Char.ofNat 0xFFFD :: acc) r2
            else if 0xDC00 ≤ n ∧ n < 0xE000 then
              parseStrBodyF f (Char.ofNat 0xFFFD :: acc) rest
            else parseStrBodyF f (Char.ofNat n :: acc) rest)
    | '\\' :: e :: rest =>
        (match jsonEsc e with
        | some ch => parseStrBodyF f (ch :: acc) rest
        | none => none)
    | c :: rest =>
        if c.toNat < 0x20 then none else parseStrBodyF f (c :: acc) rest
    | [] => none

/-- `parseStrBodyF` at its always-sufficient fuel. -/
def parseStrBody (acc : List Char) (cs : List Char) : Option (String × List Char) :=
  parseStrBodyF (cs.length + 1) acc cs

/-- A JSON number token, `encoding/json` grammar (no leading zeros, a
fraction needs at least one digit, optional exponent), as an exact
decimal.  Go stores it in a `float64`; the decimal model keeps it
exact. -/
def parseNumTok (cs : List Char) : Option (Dec × List Char) :=
  let (neg, cs1) := match cs with
    | '-' :: r => (true, r)
    | _ => (false, cs)
  let (ids, cs2) := spanDigits cs1
  if ids.isEmpty then none
  else if 1 < ids.length ∧ ids.headI = '0' then none
  else
    let fracStep : Option (List Char × List Char) := match cs2 with
      | '.' :: r =>
          let (fds, r2) := spanDigits r
          if fds.isEmpty then none else some (fds, r2)
      | _ => some ([], cs2)
    match fracStep with
    | none => none
    | some (fds, cs3) =>
        let expStep : Option (Int × List Char) := match cs3 with
          | 'e' :: r | 'E' :: r =>
              let (sgn, r1) : Int × List Char := match r with
                | '+' :: r2 => (1, r2)
                | '-' :: r2 => (-1, r2)
                | _ => (1, r)
              let (eds, r2) := spanDigits r1
              if eds.isEmpty then none else some (sgn * digitsNat eds, r2)
          | _ => some (0, cs3)
        match expStep with
        | none => none
        | some (ex, cs4) =>
            let mant : Int :=
              (if neg then -1 else 1) * (digitsNat (ids ++ fds) : Int)
            some (Dec.norm ⟨mant, ex - fds.length⟩, cs4)

/-- Build a Go map from parsed object members: later duplicate keys
overwrite earlier ones, as `encoding/json` decodes into
`map[string]any`. -/
def objFromPairs (ps : List (String × GoVal)) : List (String × GoVal) :=
  ps.foldl (fun acc kv => setKV acc kv.1 kv.2) []

mutual

/-- One JSON value (fuel-bounded recursive descent), producing the Go
dynamic value `encoding/json.Unmarshal` builds: numbers as `float64`,
arrays as `[]any`, objects as `map[string]any`. -/
def pVal : Nat → List Char → Option (GoVal × List Char)
  | 0, _ => none
  | f + 1, cs =>
    match skipWsL cs with
    | 'n' :: 'u' :: 'l' :: 'l' :: r => some (.vnil, r)
    | 't' :: 'r' :: 'u' :: 'e' :: r => some (.vbool true, r)
    | 'f' :: 'a' :: 'l' :: 's' :: 'e' :: r => some (.vbool false, r)
    | '"' :: r =>
        match parseStrBody [] r with
        | some (s, r2) => some (.vstr s, r2)
        | none => none
    | '[' :: r =>
        match skipWsL r with
        | ']' :: r2 => some (.varr [], r2)
        | cs2 =>
            match pElems f cs2 with
            | some (xs, r2) => some (.varr xs, r2)
            | none => none
    | c :: r =>
        if c = lbrace then
          match skipWsL r with
          | c2 :: r2 =>
              if c2 = rbrace then some (.vobj [], r2)
              else
                match pMembers f (c2 :: r2) with
                | some (ms, r3) => some (.vobj (objFromPairs ms), r3)
                | none => none
          | [] => none
        else if c = '-' || isDigitChar c then
          match parseNumTok (c :: r) with
          | some (d, r2) => some (.vfloat d, r2)
          | none => none
        else none
    | [] => none

/-- One-or-more comma-separated array elements, up to the closing
bracket. -/
def pElems : Nat → List Char → Option (List GoVal × List Char)
  | 0, _ => none
  | f + 1, cs =>
    match pVal f cs with
    | none => none
    | some (v, r) =>
        match skipWsL r with
        | ',' :: r2 =>
            match pElems f r2 with
            | some (vs, r3) => some (v :: vs, r3)
            | none => none
        | ']' :: r2 => some ([v], r2)
        | _ => none

/-- One-or-more comma-separated object members, up to the closing
brace. -/
def pMembers : Nat → List Char → Option (List (String × GoVal) × List Char)
  | 0, _ => none
  | f + 1, cs =>
    match skipWsL cs with
    | '"' :: r =>
        match parseStrBody [] r with
        | none => none
        | some (k, r1) =>
            match skipWsL r1 with
            | ':' :: r2 =>
                match pVal f r2 with
                | none => none
                | some (v, r3) =>
                    match skipWsL r3 with
                    | ',' :: r4 =>
                        match pMembers f r4 with
                        | some (ms, r5) => some ((k, v) :: ms, r5)
                        | none => none
                    | c :: r4 =>
                        if c = rbrace then some ([(k, v)], r4) else none
                    | [] => none
            | _ => none
    | _ => none

end

/-- Model of `encoding/json.Unmarshal` into a Go `any`: parse one value,
allow surrounding whitespace, reject trailing input. -/
def jsonParse (s : String) : Option GoVal :=
  let cs := s.toList
  match pVal (cs.length + 1) cs with
  | some (v, r) => if (skipWsL r).isEmpty then some v else none
  | none => none

/-- Octal digit test. -/
def isOctalChar (c : Char) : Bool := 48 ≤ c.toNat && c.toNat ≤ 55

/-- Decode the characters between the quotes for Go `strconv.Unquote`
(double- or single-quote mode): Go escape sequences, no literal newline,
no unescaped quote character. -/
def unquoteIn (quote : Char) : List Char → Option (List Char)
  | [] => some []
  | '\\' :: 'a' :: r => (unquoteIn quote r).map (Char.ofNat 7 :: ·)
  | '\\' :: 'b' :: r => (unquoteIn quote r).map (Char.ofNat 8 :: ·)
  | '\\' :: 'f' :: r => (unquoteIn quote r).map (Char.ofNat 12 :: ·)
  | '\\' :: 'n' :: r => (unquoteIn quote r).map ('\n' :: ·)
  | '\\' :: 'r' :: r => (unquoteIn quote r).map ('\r' :: ·)
  | '\\' :: 't' :: r => (unquoteIn quote r).map ('\t' :: ·)
  | '\\' :: 'v' :: r => (unquoteIn quote r).map (Char.ofNat 11 :: ·)
  | '\\' :: '\\' :: r => (unquoteIn quote r).map ('\\' :: ·)
  | '\\' :: 'x' :: h1 :: h2 :: r =>
      match hexDigVal h1, hexDigVal h2 with
      | some x, some y => (unquoteIn quote r).map (Char.ofNat (x * 16 + y) :: ·)
      | _, _ => none
  | '\\' :: 'u' :: a :: b :: c :: d :: r =>
      match hex4Val a b c d with
      | some n =>
          if 0xD800 ≤ n ∧ n < 0xE000 then none
          else (unquoteIn quote r).map (Char.ofNat n :: ·)
      | none => none
  | '\\' :: 'U' :: a :: b :: c :: d :: e :: f :: g :: h :: r =>
      match hex4Val a b c d, hex4Val e f g h with
      | some hi, some lo =>
          let n := hi * 65536 + lo
          if n > 0x10FFFF ∨ (0xD800 ≤ n ∧ n < 0xE000) then none
          else (unquoteIn quote r).map (Char.ofNat n :: ·)
      | _, _ => none
  | '\\' :: c :: r =>
      if c = '"' ∨ c = squote then
        if c = quote then (unquoteIn quote r).map (c :: ·) else none
      else if isOctalChar c then
        match r with
        | c2 :: c3 :: r2 =>
            if isOctalChar c2 ∧ isOctalChar c3 then
              let n := (c.toNat - 48) * 64 + (c2.toNat - 48) * 8 + (c3.toNat - 48)
              if n ≤ 255 then (unquoteIn quote r2).map (Char.ofNat n :: ·) else none
            else none
        | _ => none
      else none
  | c :: r =>
      if c = '\n' ∨ c = quote then none
      else (unquoteIn quote r).map (c :: ·)

/-- Model of Go `strconv.Unquote`: a full quoted Go string literal
(double, single or back quotes), decoded; `none` on any syntax error. -/
def goUnquote (s : String) : Option String :=
  let cs := s.toList
  if cs.length < 2 then none
  else
    let q := cs.headI
    if cs.getLastD ' ' ≠ q then none
    else
      let inner := (cs.drop 1).dropLast
      if q = bquote then
        if inner.contains bquote then none
        else some ⟨inner.filter (fun c => c ≠ '\r')⟩
      else if q = '"' then (unquoteIn q inner).map (fun l => ⟨l⟩)
      else if q = squote then
        match unquoteIn q inner with
        | some [c] => some ⟨[c]⟩
        | _ => none
      else none

/-- The first-byte test of `sanitizeValue`: does the (trimmed, unquoted)
string look like a JSON document (`s[0]` one of `\x7b [ " t f n -` or a
digit)?  All set members are ASCII, so the Go byte test is the first-char
test. -/
def jsonishHead (s : String) : Bool :=
  match s.toList with
  | [] => false
  | c :: _ =>
      c = lbrace || c = '[' || c = '"' || c = 't' || c = 'f' || c = 'n' ||
        c = '-' || isDigitChar c

/-- Embedding of `sanitizeValue` (src/internal/terraform/state.go):
trim a string, unquote it once if possible, and if it then looks like
JSON and parses, recursively sanitize the parsed value; recurse through
sequences and maps (`sanitizeMap` is the `vobj` arm); leave every other
value alone.  The Go recursion terminates because parsed strings are
strictly shorter; here every recursive call spends one unit of fuel, and
the wrapper `sanitizeValue` passes a budget exceeding any chain the
input can produce. -/
def sanitizeValueF : Nat → GoVal → GoVal
  | 0, v => v
  | f + 1, .vstr t =>
      let s0 := goTrimSpace t
      let s1 := match goUnquote s0 with
        | some u => u
        | none => s0
      if jsonishHead s1 then
        match jsonParse s1 with
        | some parsed => sanitizeValueF f parsed
        | none => .vstr s1
      else .vstr s1
  | f + 1, .varr xs => .varr (xs.map (sanitizeValueF f))
  | f + 1, .vobj kvs => .vobj (kvs.map fun kv => (kv.1, sanitizeValueF f kv.2))
  | _, v => v

mutual

/-- Fuel budget for `sanitizeValue`: beyond the total size of the value
(every parse step output is smaller than its input string). -/
def sanitizeBudget : GoVal → Nat
  | .vstr s => s.length + 1
  | .varr xs => 1 + sanitizeBudgetArr xs
  | .vobj kvs => 1 + sanitizeBudgetObj kvs
  | _ => 1

/-- Budget sum over a slice. -/
def sanitizeBudgetArr : List GoVal → Nat
  | [] => 0
  | x :: xs => sanitizeBudget x + sanitizeBudgetArr xs

/-- Budget sum over a map. -/
def sanitizeBudgetObj : List (String × GoVal) → Nat
  | [] => 0
  | (_, v) :: t => sanitizeBudget v + sanitizeBudgetObj t

end

/-- `sanitizeValue` at an always-sufficient fuel budget. -/
def sanitizeValue (v : GoVal) : GoVal := sanitizeValueF (sanitizeBudget v) v

/-- `sanitizeMap` over an attribute map's values. -/
def sanitizeMapKVs (kvs : List (String × GoVal)) : List (String × GoVal) :=
  kvs.map (fun kv => (kv.1, sanitizeValue kv.2))

/-- Embedding of `providerAddressForType`
(src/internal/terraform/state.go): the provider name is the resource type
up to the first underscore (the whole type when the underscore is absent
or leads), under the default hashicorp registry namespace. -/
def providerAddressForType (resourceType : String) : String :=
  let prov :=
    match (resourceType.toList.takeWhile (fun c => c ≠ '_')).length with
    | 0 => resourceType
    | i => if i < resourceType.length then ⟨resourceType.toList.take i⟩ else resourceType
  "provider[\"registry.terraform.io/hashicorp/" ++ prov ++ "\"]"

/-- Embedding of `resourceKey` (src/internal/terraform/state.go). -/
def resourceKey (module ty name : String) : String :=
  if module = "" then ty ++ "|" ++ name
  else module ++ "|" ++ ty ++ "|" ++ name

/-- Embedding of `modulePathToString` (src/internal/terraform/state.go):
`[] → ""`, `[a, b] → "module.a.module.b"`. -/
def modulePathToString (path : List String) : String :=
  match path with
  | [] => ""
  | p :: rest => rest.foldl (fun s q => s ++ "." ++ "module." ++ q) ("module." ++ p)

/-- Embedding of a `ResourceConfig`
(src/unnamed/part_013, `BuildResourceConfigs`): one managed resource
discovered in configuration, with its module path and (literal or
evaluated) attribute values. -/
structure ResourceConfig where
  modulePath : List String
  type : String
  name : String
  attrs : List (String × GoVal)

/-- Read a Go `m[k].(string)` with the zero value on failure. -/
def asStr (v : Option GoVal) : String :=
  match v with
  | some (.vstr s) => s
  | _ => ""

/-- Read a Go `m[k].([]any)` followed by the `nil → []` default the
patcher applies. -/
def asArr (v : Option GoVal) : List GoVal :=
  match v with
  | some (.varr xs) => xs
  | _ => []

/-- Read a Go `m[k].(map[string]any)` followed by the `nil → empty`
default the patcher applies to instance attributes. -/
def asObj (v : Option GoVal) : List (String × GoVal) :=
  match v with
  | some (.vobj kvs) => kvs
  | _ => []

/-- Go `x == nil` on the value read from a map entry: missing or JSON
null. -/
def isNilVal (v : Option GoVal) : Bool :=
  match v with
  | none => true
  | some .vnil => true
  | _ => false

/-- The state key of one managed resource object, as the patchers index
it: `resourceKey(m["module"], m["type"], m["name"])` with string type
assertions defaulting to `""`. -/
def resObjKey (m : List (String × GoVal)) : String :=
  resourceKey (asStr (lookupKV m "module")) (asStr (lookupKV m "type"))
    (asStr (lookupKV m "name"))

/-- Index of the state's managed resources by key, later entries
overwriting earlier ones (a Go map keyed by `resourceKey`), as every
patcher builds it before merging. -/
def buildResIndex (resources : List GoVal) : List (String × Nat) :=
  (resources.enum.foldl
    (fun ix ri =>
      match ri.2 with
      | .vobj m =>
          if asStr (lookupKV m "mode") = "managed" then
            (resObjKey m, ri.1) :: ix
          else ix
      | _ => ix) [])

/-- Look up an index entry; entries were prepended, so the head is the
latest binding, matching Go map overwrite semantics. -/
def lookupIdx : List (String × Nat) → String → Option Nat
  | [], _ => none
  | (k, i) :: t, q => if k = q then some i else lookupIdx t q

/-- Merge the configured attributes into one instance's attribute map:
for each configured key, sanitize the new value and store it unless the
existing value is already `deepEqualJSONish`-equal.  Returns the merged
map and whether anything changed (the shared per-attribute loop of every
patcher). -/
def mergeAttrs (cfgAttrs : List (String × GoVal)) (attrs : List (String × GoVal)) :
    List (String × GoVal) × Bool :=
  cfgAttrs.foldl
    (fun acc kv =>
      let nv := sanitizeValue kv.2
      match lookupKV acc.1 kv.1 with
      | none => (setKV acc.1 kv.1 nv, true)
      | some ov =>
          if deepEqualJSONish ov nv then acc
          else (setKV acc.1 kv.1 nv, true))
    (attrs, false)

/-- Merge configured attributes into one instance object (`im`), creating
its `attributes` map when absent, as the patchers' inner instance
loop does.  Non-map instances are left untouched. -/
def mergeInstance (cfgAttrs : List (String × GoVal)) (inst : GoVal) : GoVal × Bool :=
  match inst with
  | .vobj im =>
      let attrs := asObj (lookupKV im "attributes")
      let (attrs2, chg) := mergeAttrs cfgAttrs attrs
      (.vobj (setKV im "attributes" (.vobj attrs2)), chg)
  | v => (v, false)

/-- The fresh instance object the patchers append when a resource has no
instances: sanitized configured attributes and `schema_version: 0`. -/
def newInstance (cfgAttrs : List (String × GoVal)) : GoVal :=
  .vobj [("attributes", .vobj (sanitizeMapKVs cfgAttrs)), ("schema_version", .vint 0)]

/-- The new managed resource object appended when a configured resource
has no state entry (`module` only when non-empty). -/
def newResource (mod ty name : String) (cfgAttrs : List (String × GoVal)) : GoVal :=
  .vobj
    ((if mod = "" then [] else [("module", .vstr mod)]) ++
      [("mode", .vstr "managed"), ("type", .vstr ty), ("name", .vstr name),
        ("provider", .vstr (providerAddressForType ty)),
        ("instances", .varr [newInstance cfgAttrs])])

/-- State of the patchers' merge loop: the resource array, its key index,
and the accumulated `changed` flag. -/
structure MergeState where
  resources : List GoVal
  index : List (String × Nat)
  changed : Bool

/-- One step of the merge loop shared by `PatchStateFromConfig`,
`PatchStateFromConfigLiterals` and `PatchStateFromConfigEvaluatedFast`
(src/internal/terraform/state.go): find the resource by
`(module, type, name)`; if found, fill a missing `provider`, merge
attributes into every map instance (creating one when the list is empty);
otherwise append a new managed resource. -/
def mergeOne (st : MergeState) (rc : ResourceConfig) : MergeState :=
  let mod := modulePathToString rc.modulePath
  let key := resourceKey mod rc.type rc.name
  match lookupIdx st.index key with
  | some i =>
      match st.resources.get? i with
      | some (.vobj m) =>
          let m1 :=
            if (lookupKV m "provider").isNone then
              setKV m "provider" (.vstr (providerAddressForType rc.type))
            else m
          let instRaw := asArr (lookupKV m1 "instances")
          let stepped := instRaw.map (mergeInstance rc.attrs)
          let anyChg := stepped.any (fun p => p.2)
          let (insts2, chg2) :=
            if instRaw.length = 0 then ([newInstance rc.attrs], true)
            else (stepped.map (fun p => p.1), anyChg)
          let m2 := setKV m1 "instances" (.varr insts2)
          { resources := st.resources.set i (.vobj m2),
            index := st.index,
            changed := st.changed || chg2 }
      | _ => st
  | none =>
      let r := newResource mod rc.type rc.name rc.attrs
      { resources := st.resources ++ [r],
        index := (key, st.resources.length) :: st.index,
        changed := true }

/-- The full merge loop over the scanned configuration records. -/
def mergeAll (cfgs : List ResourceConfig) (resources : List GoVal) :
    List GoVal × Bool :=
  let fin := cfgs.foldl mergeOne
    { resources := resources, index := buildResIndex resources, changed := false }
  (fin.resources, fin.changed)

/-- The serial/version fixup every patcher applies before a changing
write (src/internal/terraform/state.go lines 169-197 and their twins):
`version` defaults to 4 when zero, missing or non-numeric; `serial`
becomes `int(s) + 1` for a positive numeric value, else 1. -/
def bumpSerialVersion (st : List (String × GoVal)) : List (String × GoVal) :=
  let st1 :=
    match lookupKV st "version" with
    | some (.vfloat d) => if Dec.deq d ⟨0, 0⟩ then setKV st "version" (.vint 4) else st
    | some (.vint n) => if n = 0 then setKV st "version" (.vint 4) else st
    | _ => setKV st "version" (.vint 4)
  match lookupKV st1 "serial" with
  | some (.vfloat d) =>
      if Dec.nonpos d then setKV st1 "serial" (.vint 1)
      else setKV st1 "serial" (.vint (Dec.toInt d + 1))
  | some (.vint n) =>
      if n ≤ 0 then setKV st1 "serial" (.vint 1)
      else setKV st1 "serial" (.vint (n + 1))
  | _ => setKV st1 "serial" (.vint 1)

/-- The `st["outputs"] == nil → \x7b\x7d` default every patcher applies
after loading the state. -/
def ensureOutputs (st : List (String × GoVal)) : List (String × GoVal) :=
  if isNilVal (lookupKV st "outputs") then setKV st "outputs" (.vobj []) else st

/-- Lowercase hexadecimal digit character. -/
def hexDigitChar (n : Nat) : Char :=
  if n < 10 then Char.ofNat (48 + n) else Char.ofNat (87 + n)

/-- Four lowercase hex digits of `n < 0x10000`. -/
def hex4Chars (n : Nat) : List Char :=
  [hexDigitChar (n / 4096 % 16), hexDigitChar (n / 256 % 16),
    hexDigitChar (n / 16 % 16), hexDigitChar (n % 16)]

/-- One string character as `encoding/json.Marshal` emits it: quote,
backslash, newline, return and tab escaped short; other control
characters, `< > &` (HTML escaping is on by default) and U+2028/U+2029
as `\uXXXX`; everything else raw. -/
def escapeChar (c : Char) : List Char :=
  if c = '"' then ['\\', '"']
  else if c = '\\' then ['\\', '\\']
  else if c = '\n' then ['\\', 'n']
  else if c = '\r' then ['\\', 'r']
  else if c = '\t' then ['\\', 't']
  else if c.toNat < 0x20 ∨ c = '<' ∨ c = '>' ∨ c = '&' ∨
      c.toNat = 0x2028 ∨ c.toNat = 0x2029 then
    '\\' :: 'u' :: hex4Chars c.toNat
  else [c]

/-- A marshaled string literal: quoted, escaped. -/
def marshalStr (s : String) : List Char :=
  '"' :: (s.toList.flatMap escapeChar ++ ['"'])

/-- Comma-join rendered fragments. -/
def joinComma : List (List Char) → List Char
  | [] => []
  | [x] => x
  | x :: xs => x ++ ',' :: joinComma xs

mutual

/-- Rendering core of `encoding/json.Marshal` over a value whose objects
are already key-sorted (see `marshalChars`): compact JSON, ints and
exact-decimal floats in plain decimal notation. -/
def marshalRaw : GoVal → List Char
  | .vnil => ['n', 'u', 'l', 'l']
  | .vbool true => ['t', 'r', 'u', 'e']
  | .vbool false => ['f', 'a', 'l', 's', 'e']
  | .vint n => intChars n
  | .vfloat d => floatChars d
  | .vstr s => marshalStr s
  | .varr xs => '[' :: (joinComma (marshalArr xs) ++ [']'])
  | .vobj kvs => lbrace :: (joinComma (marshalFields kvs) ++ [rbrace])

/-- Marshaled elements of a slice. -/
def marshalArr : List GoVal → List (List Char)
  | [] => []
  | x :: xs => marshalRaw x :: marshalArr xs

/-- Marshaled `"key":value` fields of a map, in stored order. -/
def marshalFields : List (String × GoVal) → List (List Char)
  | [] => []
  | (k, v) :: t => (marshalStr k ++ ':' :: marshalRaw v) :: marshalFields t

end

/-- Model of `encoding/json.Marshal` on a Go dynamic value: every map
key-sorted by `sortAllKV`, then rendered compactly by `marshalRaw`. -/
def marshalChars (v : GoVal) : List Char := marshalRaw (sortAllKV v)

/-- `encoding/json.Marshal` as a string. -/
def marshal (v : GoVal) : String := ⟨marshalChars v⟩

mutual

/-- Numeric part of the marshal/unmarshal round trip: ints become
canonical `float64` decimals, floats are canonicalized, containers
recurse. -/
def rtNum : GoVal → GoVal
  | .vnil => .vnil
  | .vbool b => .vbool b
  | .vint n => .vfloat (Dec.norm ⟨n, 0⟩)
  | .vfloat d => .vfloat (Dec.norm d)
  | .vstr s => .vstr s
  | .varr xs => .varr (rtNumArr xs)
  | .vobj kvs => .vobj (rtNumObj kvs)

/-- `rtNum` over a slice. -/
def rtNumArr : List GoVal → List GoVal
  | [] => []
  | x :: xs => rtNum x :: rtNumArr xs

/-- `rtNum` over a map's values. -/
def rtNumObj : List (String × GoVal) → List (String × GoVal)
  | [] => []
  | (k, v) :: t => (k, rtNum v) :: rtNumObj t

end

/-- The value `json.Unmarshal ∘ json.Marshal` produces from a Go dynamic
value: map entries come back in the sorted key order `Marshal` emitted,
ints come back as `float64`, floats canonicalized. -/
def jsonRT (v : GoVal) : GoVal := rtNum (sortAllKV v)

/-- The state document `EnsureStateInitialized` writes when the state
file is absent (src/internal/terraform/state.go). -/
def initialState (lineage : String) : List (String × GoVal) :=
  [("version", .vint 4), ("serial", .vint 1), ("lineage", .vstr lineage),
    ("outputs", .vobj []), ("resources", .varr [])]

/-- Embedding of `PatchStateFromConfigLiterals`
(src/internal/terraform/state.go): parse the state bytes, default
`outputs`, merge the scanned configuration, and when anything changed
bump serial/version and write the marshaled document; `(bytes, wrote)` is
the file content afterwards and whether a write happened.  `none` models
the error return (unreadable state). -/
def patchLiterals (cfgs : List ResourceConfig) (b : String) : Option (String × Bool) :=
  match jsonParse b with
  | some (.vobj st0) =>
      let st1 := ensureOutputs st0
      let resources := asArr (lookupKV st1 "resources")
      let (res2, changed) := mergeAll cfgs resources
      let st2 := setKV st1 "resources" (.varr res2)
      if changed then some (marshal (.vobj (bumpSerialVersion st2)), true)
      else some (b, false)
  | _ => none

/-- Embedding of `PatchStateFromConfig` (src/internal/terraform/state.go):
as `patchLiterals` (the merge loop is shared), but with the final guard
that skips the write when the marshaled document equals the bytes
read. -/
def patchFromConfig (cfgs : List ResourceConfig) (b : String) : Option (String × Bool) :=
  match jsonParse b with
  | some (.vobj st0) =>
      let st1 := ensureOutputs st0
      let resources := asArr (lookupKV st1 "resources")
      let (res2, changed) := mergeAll cfgs resources
      let st2 := setKV st1 "resources" (.varr res2)
      if changed then
        let nb := marshal (.vobj (bumpSerialVersion st2))
        if nb = b then some (b, false) else some (nb, true)
      else some (b, false)
  | _ => none

/-- Embedding of `writeStateBump` (src/unnamed/part_012): bump
serial/version, marshal, and skip the write when the bytes match what was
read before the mutation. -/
def writeStateBump (st : List (String × GoVal)) (old : String) : String × Bool :=
  let nb := marshal (.vobj (bumpSerialVersion st))
  if nb = old then (old, false) else (nb, true)

/-- Embedding of `SymbolIndex` (src/internal/terraform/sync.go, the
variant with attribute maps): the discovered symbols powering
completion.  Go maps become association lists with unique keys. -/
structure SymbolIndex where
  vars : List String          -- Variables
  locs : List String          -- Locals
  mods : List String          -- Modules
  resrc : List (String × List String)     -- Resource: type → names
  dataSrc : List (String × List String)   -- DataSource: type → names
  outs : List String          -- Outputs
  resAttrs : List (String × List String)  -- ResourceAttrs
  dataAttrs : List (String × List String) -- DataAttrs

/-- The completely empty index. -/
def emptyIndex : SymbolIndex := ⟨[], [], [], [], [], [], [], []⟩

/-- Lookup in a Go `map[string][]string`. -/
def lookupStrList : List (String × List String) → String → Option (List String)
  | [], _ => none
  | (k, v) :: t, q => if k = q then some v else lookupStrList t q

/-- Go `strings.HasPrefix s p`. -/
def strHasPfx (s p : String) : Bool := p.toList.isPrefixOf s.toList

/-- ASCII `strings.ToLower` (the sources only lower ASCII tokens). -/
def strToLower (s : String) : String :=
  ⟨s.toList.map fun c =>
    if 65 ≤ c.toNat ∧ c.toNat ≤ 90 then Char.ofNat (c.toNat + 32) else c⟩

/-- The completion token character class of `CompletionCandidates`:
letters, digits, `_ - . : /`. -/
def isTokChar (r : Char) : Bool :=
  r = '.' || r = '_' || r = '-' || r = ':' || r = '/' ||
    ('A' ≤ r && r ≤ 'Z') || ('a' ≤ r && r ≤ 'z') || ('0' ≤ r && r ≤ '9')

/-- Walk backward from the cursor to the token start. -/
def tokStart (cs : List Char) (i : Nat) : Nat :=
  match i with
  | 0 => 0
  | j + 1 => if isTokChar (cs.getD j ' ') then tokStart cs j else j + 1

/-- Walk forward from the cursor to the token end (fuel-stepped; the
index grows every step, so `cs.length + 1` units always suffice). -/
def tokEndF : Nat → List Char → Nat → Nat
  | 0, _, i => i
  | f + 1, cs, i =>
      if i < cs.length then
        if isTokChar (cs.getD i ' ') then tokEndF f cs (i + 1) else i
      else i

/-- Walk forward from the cursor to the token end. -/
def tokEnd (cs : List Char) (i : Nat) : Nat := tokEndF (cs.length + 1) cs i

/-- Go `strings.Split` on the dot separator. -/
def splitDot (s : String) : List String :=
  (s.toList.splitOn '.').map (fun l => ⟨l⟩)

/-- Drop the first `n` bytes of an (ASCII) token, the model of Go string
slicing `token[n:]`. -/
def strDropN (s : String) (n : Nat) : String := ⟨s.toList.drop n⟩

/-- Embedding of `CompletionCandidates` (src/internal/terraform/sync.go
lines 508-659, the variant that offers category starters): token
extraction around the byte cursor, bare-keyword normalization, dispatch
on the token shape, lexicographic sort.  Lines are ASCII in every claim,
so byte indices are character indices. -/
def completionCandidates (s : SymbolIndex) (line : String) (cursorIndex : Int) :
    List String × Nat × Nat :=
  let cs := line.toList
  let cursor : Nat := if cursorIndex < 0 ∨ (cs.length : Int) < cursorIndex
    then cs.length else cursorIndex.toNat
  let start := tokStart cs cursor
  let stop := tokEnd cs cursor
  let token0 := goTrimSpace ⟨(cs.drop start).take (stop - start)⟩
  let lower0 := strToLower token0
  let (token, lower) :=
    if lower0 = "var" then ("var.", "var.")
    else if lower0 = "local" then ("local.", "local.")
    else if lower0 = "module" then ("module.", "module.")
    else if lower0 = "output" then ("output.", "output.")
    else if lower0 = "data" then ("data.", "data.")
    else (token0, lower0)
  let candidates :=
    if strHasPfx lower "var." then
      (s.vars.filter (fun v => strHasPfx v (strDropN token 4))).map ("var." ++ ·)
    else if strHasPfx lower "local." then
      (s.locs.filter (fun v => strHasPfx v (strDropN token 6))).map ("local." ++ ·)
    else if strHasPfx lower "module." then
      (s.mods.filter (fun v => strHasPfx v (strDropN token 7))).map ("module." ++ ·)
    else if strHasPfx lower "output." then
      (s.outs.filter (fun v => strHasPfx v (strDropN token 7))).map ("output." ++ ·)
    else if strHasPfx lower "data." then
      let rest := strDropN token 5
      if ¬ rest.toList.contains '.' then
        ((s.dataSrc.map Prod.fst).filter (fun t => strHasPfx t rest)).map
          ("data." ++ ·)
      else
        let i := (rest.toList.takeWhile (fun c => c ≠ '.')).length
        let dType : String := ⟨rest.toList.take i⟩
        let namePfx : String := ⟨rest.toList.drop (i + 1)⟩
        match lookupStrList s.dataSrc dType with
        | some names =>
            (names.filter (fun n => strHasPfx n namePfx)).map
              (fun n => "data." ++ dType ++ "." ++ n)
        | none => []
    else
      if ¬ token.toList.contains '.' then
        ((s.resrc.map Prod.fst).filter (fun t => strHasPfx t token)) ++
          (["var.", "local.", "module.", "data.", "output."].filter
            (fun kw => strHasPfx kw (strToLower token)))
      else
        let parts := splitDot token
        if parts.length = 2 then
          let rType := parts.getD 0 ""
          let namePfx := parts.getD 1 ""
          match lookupStrList s.resrc rType with
          | some names =>
              (names.filter (fun n => strHasPfx n namePfx)).map
                (fun n => rType ++ "." ++ n)
          | none => []
        else if 3 ≤ parts.length then
          let rType := parts.getD 0 ""
          let attrPfx := parts.getD 2 ""
          match lookupStrList s.resAttrs rType with
          | some attrs =>
              (attrs.filter (fun a => strHasPfx a attrPfx)).map
                (fun a => rType ++ "." ++ parts.getD 1 "" ++ "." ++ a)
          | none => []
        else []
  (sortStrings candidates, start, stop)

/-- Go `filepath.Ext`: the suffix starting at the final dot of the final
path element, empty when that element has no dot. -/
def pathExt (p : String) : String :=
  let seg := p.toList.reverse.takeWhile (fun c => c ≠ '/')
  let pre := seg.takeWhile (fun c => c ≠ '.')
  if pre.length < seg.length then ⟨'.' :: pre.reverse⟩ else ""

/-- The watcher's tracked extensions (src/unnamed/part_007,
`watchExtensions`). -/
def watchExtensions : List String := [".tf", ".tfvars"]

/-- The per-path last-seen modification times of the polling watcher,
a Go `map[string]time.Time`; a missing entry reads as the zero time,
modelled as `0`. -/
def lookupTime : List (String × Int) → String → Int
  | [], _ => 0
  | (k, t) :: r, q => if k = q then t else lookupTime r q

/-- Record a modification time (Go map store). -/
def setTime : List (String × Int) → String → Int → List (String × Int)
  | [], q, t => [(q, t)]
  | (k, v) :: r, q, t => if k = q then (k, t) :: r else (k, v) :: setTime r q t

/-- One file visit of `pollTerraformFiles` (src/unnamed/part_007): for
files with a watched extension, a zero last-seen entry records the
modification time silently; only a strictly later time than a recorded
one flips the changed flag (and updates the record). -/
def pollVisit (st : List (String × Int) × Bool) (file : String × Int) :
    List (String × Int) × Bool :=
  if pathExt file.1 ∈ watchExtensions then
    let prev := lookupTime st.1 file.1
    if prev = 0 then (setTime st.1 file.1 file.2, st.2)
    else if prev < file.2 then (setTime st.1 file.1 file.2, true)
    else st
  else st

/-- Embedding of `pollTerraformFiles` (src/unnamed/part_007): fold the
visit over the walked files (each regular file once, in walk order),
returning the updated last-seen map and whether a change was detected. -/
def pollTerraformFiles (files : List (String × Int)) (last : List (String × Int)) :
    List (String × Int) × Bool :=
  files.foldl pollVisit (last, false)

/-- One line step of the persistent evaluator's `readLoop`
(src/unnamed/part_015): trim the line; skip empty and prompt lines;
parse as JSON; on an object with a non-empty string `__id`, remove the
matching waiter and deliver the trimmed line to it; everything else is
ignored.  Waiters are the `map[string]chan string` keyed by id; the
delivered channel is represented by the caller token it was registered
with. -/
def readStep (w : List (String × Nat)) (line : String) :
    List (String × Nat) × Option (Nat × String) :=
  let t := goTrimSpace line
  if t = "" ∨ t = ">" then (w, none)
  else
    match jsonParse t with
    | some (.vobj m) =>
        match lookupKV m "__id" with
        | some (.vstr id) =>
            if id = "" then (w, none)
            else
              match lookupIdx w id with
              | some ch => (w.filter (fun kv => kv.1 ≠ id), some (ch, t))
              | none => (w, none)
        | _ => (w, none)
    | _ => (w, none)

/-- Embedding of the `readLoop` body over a whole stdout transcript: the
final waiter map and the deliveries made, in order. -/
def readLoop (w : List (String × Nat)) (lines : List String) :
    List (String × Nat) × List (Nat × String) :=
  lines.foldl
    (fun acc line =>
      let (w2, d) := readStep acc.1 line
      (w2, acc.2 ++ d.toList))
    (w, [])

/-- The `__id` of a (trimmed) response line as the read loop sees it: the
line must parse as a JSON object carrying a non-empty string `__id`. -/
def lineId (line : String) : Option String :=
  match jsonParse line with
  | some (.vobj m) =>
      match lookupKV m "__id" with
      | some (.vstr id) => if id = "" then none else some id
      | _ => none
  | _ => none

/-- The `__val` payload `EvaluateJSON` (src/unnamed/part_015) decodes
from the line delivered to its waiter. -/
def evalResponseVal (line : String) : Option GoVal :=
  if goTrimSpace line = "" then none
  else
    match jsonParse line with
    | some (.vobj m) => lookupKV m "__val"
    | _ => none

/-- Modelled from the spec: the manifest-based `SyncToScratch` of §4.B,
returning `(changed, changed_tf)`.  The three-result manifest variant the
REPL calls (src/internal/cli/repl.go line 348) is not among the sources
under src/ (the `SyncToScratch` in src/internal/terraform/sync.go is an
older manifest-less variant with a different signature), so this follows
the spec: walk the tracked files recording `(mod_unix_nano, size)`; copy
a file when its manifest entry is new or differs; remove mirrored files
whose manifest entry vanished; write the manifest only when something
changed (§4.B: a no-change sync performs no writes). -/
structure SyncResult where
  changed : Bool
  changedTf : Bool
  copies : List String
  removals : List String
  manifestWritten : Bool
  newManifest : List (String × Int × Int)

/-- Manifest lookup (relative slash-path to `(mod_unix_nano, size)`). -/
def lookupMan : List (String × Int × Int) → String → Option (Int × Int)
  | [], _ => none
  | (k, m, s) :: t, q => if k = q then some (m, s) else lookupMan t q

/-- Modelled from the spec: one `Sync` pass over the tracked files
(each `(relpath, mod_unix_nano, size)`) against the previous manifest. -/
def syncSpec (files : List (String × Int × Int)) (prev : List (String × Int × Int)) :
    SyncResult :=
  let newMan := files
  let copies := (files.filter
    (fun f => decide (lookupMan prev f.1 ≠ some f.2))).map (fun f => f.1)
  let removals := (prev.filter
    (fun e => decide (lookupMan files e.1 = none))).map (fun e => e.1)
  let changed := !copies.isEmpty || !removals.isEmpty
  let changedTf :=
    !(copies.filter (fun p => pathExt p = ".tf")).isEmpty ||
      !(removals.filter (fun p => pathExt p = ".tf")).isEmpty
  { changed := changed,
    changedTf := changedTf,
    copies := copies,
    removals := removals,
    manifestWritten := changed,
    newManifest := newMan }

/-- Next-position helper of `nextSignificantAfter`
(src/internal/cli/multiline.go): index of the next newline (or the end),
starting at `j` (fuel-stepped). -/
def skipToNewlinePosF : Nat → List Char → Nat → Nat
  | 0, _, j => j
  | f + 1, runes, j =>
      if j < runes.length then
        if runes.getD j ' ' ≠ '\n' then skipToNewlinePosF f runes (j + 1) else j
      else j

/-- Index of the next newline (or the end), starting at `j`. -/
def skipToNewlinePos (runes : List Char) (j : Nat) : Nat :=
  skipToNewlinePosF (runes.length + 1) runes j

/-- Block-comment scan of `nextSignificantAfter`: position just past the
closing `*/` (the Go scan accepts the opening `*` as the closer's `*`,
which is reproduced; fuel-stepped). -/
def blockEndPosF : Nat → List Char → Nat → Nat
  | 0, _, j => j
  | f + 1, runes, j =>
      if j < runes.length then
        if runes.getD j ' ' = '/' ∧ 1 ≤ j ∧ runes.getD (j - 1) ' ' = '*' then j + 1
        else blockEndPosF f runes (j + 1)
      else j

/-- Position just past the closing of a block comment. -/
def blockEndPos (runes : List Char) (j : Nat) : Nat :=
  blockEndPosF (runes.length + 1) runes j

/-- Fuel-stepped core of `nextSignificantAfter`: the index `j` strictly
grows on every step, so fuel `runes.length + 2` never runs out. -/
def nextSigF : Nat → List Char → Nat → Char × Char
  | 0, _, _ => (Char.ofNat 0, Char.ofNat 0)
  | fuel + 1, runes, j =>
      if j < runes.length then
        let r := runes.getD j ' '
        if r = ' ' ∨ r = '\t' ∨ r = '\r' then nextSigF fuel runes (j + 1)
        else if r = '#' then nextSigF fuel runes (skipToNewlinePos runes (j + 1))
        else if r = '/' ∧ j + 1 < runes.length ∧ runes.getD (j + 1) ' ' = '/' then
          nextSigF fuel runes (skipToNewlinePos runes (j + 1))
        else if r = '/' ∧ j + 1 < runes.length ∧ runes.getD (j + 1) ' ' = '*' then
          nextSigF fuel runes (blockEndPos runes (j + 2))
        else
          (r, if j + 1 < runes.length then runes.getD (j + 1) ' ' else Char.ofNat 0)
      else (Char.ofNat 0, Char.ofNat 0)

/-- `nextSignificantAfter i` (src/internal/cli/multiline.go): the next
significant rune after position `i` and its follower, skipping
spaces/tabs/returns and comments. -/
def nextSignificantAfter (runes : List Char) (i : Nat) : Char × Char :=
  nextSigF (runes.length + 2) runes (i + 1)

/-- One comma-managed frame of `NormalizeCommasInMultiline`. -/
structure MLFrame where
  opener : Char
  indexInStack : Nat
  lastSig : Char
  lineHasTok : Bool
  insertedAnyComma : Bool

/-- The normalizer's mutable state.  `out`, `stack` and `frames` are kept
reversed (head = most recent) to mirror Go's append-at-end vectors. -/
structure MLState where
  out : List Char
  stack : List Char
  frames : List MLFrame
  inString : Bool
  stringEsc : Bool
  inLineComment : Bool
  inBlockComment : Bool

/-- The initial normalizer state. -/
def mlInit : MLState := ⟨[], [], [], false, false, false, false⟩

/-- `atBaseDepth`: the bracket stack is exactly one deeper than where the
top frame was pushed, and its top is that frame's opener. -/
def atBaseDepth (s : MLState) : Bool :=
  match s.frames with
  | [] => false
  | f :: _ => s.stack.length = f.indexInStack + 1 ∧ s.stack.headI = f.opener

/-- Rewrite the top frame, when present. -/
def updTopFrame (s : MLState) (g : MLFrame → MLFrame) : MLState :=
  match s.frames with
  | [] => s
  | f :: rest => { s with frames := g f :: rest }

/-- `setLastSig r`: record the last significant rune on the top frame,
only at base depth. -/
def setLastSig (s : MLState) (r : Char) : MLState :=
  match s.frames with
  | [] => s
  | _ :: _ =>
      if atBaseDepth s then updTopFrame s (fun f => { f with lastSig := r }) else s

/-- `markTopLevelToken`: note that the current line saw a token at base
depth. -/
def markTopLevelToken (s : MLState) : MLState :=
  match s.frames with
  | [] => s
  | _ :: _ =>
      if atBaseDepth s then updTopFrame s (fun f => { f with lineHasTok := true })
      else s

/-- `insertCommaBeforeTrailingSpace` on the reversed output buffer: place
the comma after the last non-space character, but before a newline that
precedes the trailing spaces. -/
def insertCommaBeforeTrailingSpace (out : List Char) : List Char :=
  let sp := out.takeWhile (fun c => c = ' ' ∨ c = '\t')
  let rest := out.dropWhile (fun c => c = ' ' ∨ c = '\t')
  match rest with
  | '\n' :: tail => sp ++ '\n' :: ',' :: tail
  | _ => sp ++ ',' :: rest

/-- `insertCommaAtLineEnd` on the reversed output buffer. -/
def insertCommaAtLineEnd (out : List Char) : List Char :=
  match out with
  | [] => [',']
  | '\n' :: tail => '\n' :: ',' :: tail
  | _ => insertCommaBeforeTrailingSpace out

/-- `handleNewline i`: possibly append a comma before the newline at
position `i`, per the frame's line state, the last significant rune, and
the lookahead. -/
def handleNewline (runes : List Char) (i : Nat) (s : MLState) : MLState :=
  match s.frames with
  | [] => s
  | f :: rest =>
      if ¬ atBaseDepth s then s
      else if ¬ f.lineHasTok then s
      else if f.lastSig = ',' ∨ f.lastSig = f.opener ∨ f.lastSig = '=' ∨
          f.lastSig = ':' ∨ f.lastSig = '>' then
        { s with frames := { f with lineHasTok := false } :: rest }
      else
        let (nx, nx2) := nextSignificantAfter runes i
        if nx = ':' ∨ (nx = '=' ∧ nx2 = '>') then
          { s with frames := { f with lineHasTok := false } :: rest }
        else if (f.opener = lbrace ∧ nx = rbrace) ∨ (f.opener = '[' ∧ nx = ']') then
          { s with frames := { f with lineHasTok := false } :: rest }
        else
          { s with
            out := ',' :: s.out,
            frames :=
              { f with lastSig := ',', lineHasTok := false, insertedAnyComma := true }
                :: rest }

/-- `handleBeforeClose`: before closing a list frame that had commas
inserted, append the trailing comma at the end of the previous line. -/
def handleBeforeClose (s : MLState) : MLState :=
  match s.frames with
  | [] => s
  | f :: rest =>
      if ¬ atBaseDepth s then s
      else if f.opener = '[' ∧ f.lastSig ≠ ',' ∧ f.lastSig ≠ f.opener ∧
          f.lastSig ≠ Char.ofNat 0 ∧ f.insertedAnyComma then
        { s with
          out := insertCommaAtLineEnd s.out,
          frames := { f with lastSig := ',' } :: rest }
      else s

/-- The comma-insertion guard shared by the `#` and `//` comment starts:
terminate the pending item with a comma when the line already carries a
token. -/
def commentStartComma (s : MLState) : MLState :=
  match s.frames with
  | [] => s
  | f :: rest =>
      if atBaseDepth s ∧ f.lineHasTok ∧ f.lastSig ≠ ',' ∧ f.lastSig ≠ f.opener ∧
          f.lastSig ≠ '=' then
        { s with
          out := insertCommaBeforeTrailingSpace s.out,
          frames := { f with lastSig := ',' } :: rest }
      else s

/-- The body of `NormalizeCommasInMultiline`'s scan loop, one rune per
step (src/internal/cli/multiline.go lines 218-370), in the Go branch
order: line comments, block comments, strings, comment starts, then the
rune switch. -/
def mlRunF : Nat → List Char → Nat → MLState → MLState
  | 0, _, _, s => s
  | fuel + 1, runes, i, s =>
    if i < runes.length then
      let r := runes.getD i ' '
      let s2 :=
        if s.inLineComment then
          if r = '\n' then
            let s1 := handleNewline runes i s
            let s1 := { s1 with out := r :: s1.out, inLineComment := false }
            match s1.frames with
            | [] => s1
            | _ :: _ =>
                if atBaseDepth s1 then
                  updTopFrame s1 (fun f => { f with lineHasTok := false })
                else s1
          else { s with out := r :: s.out }
        else if s.inBlockComment then
          let closed := r = '/' ∧ s.out.headD ' ' = '*' ∧ 1 ≤ s.out.length
          { s with out := r :: s.out, inBlockComment := ¬ closed }
        else if s.inString then
          let s1 := { s with out := r :: s.out }
          if s.stringEsc then { s1 with stringEsc := false }
          else if r = '\\' then { s1 with stringEsc := true }
          else if r = '"' then
            markTopLevelToken (setLastSig { s1 with inString := false } '"')
          else s1
        else if r = '#' then
          let s1 := commentStartComma s
          { s1 with inLineComment := true, out := r :: s1.out }
        else if r = '/' ∧ i + 1 < runes.length ∧ runes.getD (i + 1) ' ' = '/' then
          let s1 := commentStartComma s
          { s1 with inLineComment := true, out := r :: s1.out }
        else if r = '/' ∧ i + 1 < runes.length ∧ runes.getD (i + 1) ' ' = '*' then
          { s with inBlockComment := true, out := r :: s.out }
        else if r = '"' then
          { s with inString := true, out := r :: s.out }
        else if r = '\n' then
          let s1 := handleNewline runes i s
          { s1 with out := r :: s1.out }
        else if r = '(' then
          { s with stack := '(' :: s.stack, out := r :: s.out }
        else if r = ')' then
          let stk := match s.stack with
            | '(' :: t => t
            | other => other
          { s with stack := stk, out := r :: s.out }
        else if r = '[' ∨ r = lbrace then
          { s with
            stack := r :: s.stack,
            frames :=
              { opener := r, indexInStack := s.stack.length, lastSig := r,
                lineHasTok := false, insertedAnyComma := false } :: s.frames,
            out := r :: s.out }
        else if r = ']' ∨ r = rbrace then
          let s1 := handleBeforeClose s
          let s1 := { s1 with stack := s1.stack.tail }
          let s1 :=
            match s1.frames with
            | f :: rest =>
                if (r = ']' ∧ f.opener = '[') ∨ (r = rbrace ∧ f.opener = lbrace) then
                  { s1 with frames := rest }
                else s1
            | [] => s1
          markTopLevelToken (setLastSig { s1 with out := r :: s1.out } r)
        else if goIsSpace r then
          { s with out := r :: s.out }
        else
          markTopLevelToken (setLastSig { s with out := r :: s.out } r)
      mlRunF fuel runes (i + 1) s2
    else s


/-- Embedding of `NormalizeCommasInMultiline`
(src/internal/cli/multiline.go): inputs with no newline pass through
unchanged; otherwise the scan loop runs over the runes and the collected
output is returned. -/
def normalizeCommasInMultiline (input : String) : String :=
  if ¬ input.toList.contains '\n' then input
  else ⟨(mlRunF (input.toList.length + 1) input.toList 0 mlInit).out.reverse⟩

/-- Boolean key distinctness. -/
def noDupKeys : List String → Bool
  | [] => true
  | k :: t => ¬ t.contains k && noDupKeys t

mutual

/-- No string occurs anywhere in the value. -/
def stringFree : GoVal → Bool
  | .vstr _ => false
  | .varr xs => stringFreeArr xs
  | .vobj kvs => stringFreeObj kvs
  | _ => true

/-- `stringFree` over a slice. -/
def stringFreeArr : List GoVal → Bool
  | [] => true
  | x :: xs => stringFree x && stringFreeArr xs

/-- `stringFree` over a map's values. -/
def stringFreeObj : List (String × GoVal) → Bool
  | [] => true
  | (_, v) :: t => stringFree v && stringFreeObj t

end

mutual

/-- Hereditarily distinct object keys: the well-formedness every Go
`map[string]any`-derived value enjoys (a Go map cannot carry a duplicate
key). -/
def wfKeys : GoVal → Bool
  | .varr xs => wfKeysArr xs
  | .vobj kvs => noDupKeys (kvs.map Prod.fst) && wfKeysObj kvs
  | _ => true

/-- `wfKeys` over a slice. -/
def wfKeysArr : List GoVal → Bool
  | [] => true
  | x :: xs => wfKeys x && wfKeysArr xs

/-- `wfKeys` over a map's values. -/
def wfKeysObj : List (String × GoVal) → Bool
  | [] => true
  | (_, v) :: t => wfKeys v && wfKeysObj t

end

/-- The counterexample state for the provider invariant: one managed
resource that already carries an empty `provider` string. -/
def c3State : List (String × GoVal) :=
  [("version", .vint 4), ("serial", .vint 1), ("outputs", .vobj []),
    ("resources", .varr [.vobj
      [("mode", .vstr "managed"), ("type", .vstr "null_resource"),
        ("name", .vstr "ex"), ("provider", .vstr ""),
        ("instances", .varr [.vobj
          [("attributes", .vobj []), ("schema_version", .vint 0)]])]])]

/-- A configuration record for `null_resource.ex` with one literal
attribute. -/
def c3Cfg : ResourceConfig :=
  ⟨[], "null_resource", "ex", [("triggers", .vobj [("a", .vstr "x")])]⟩

/-- Does some resource of the state document `b` carry an empty
`provider`? -/
def someResourceHasEmptyProvider (b : String) : Bool :=
  match jsonParse b with
  | some (.vobj st) =>
      (asArr (lookupKV st "resources")).any fun r =>
        match r with
        | .vobj m =>
            match lookupKV m "provider" with
            | some (.vstr p) => p = ""
            | _ => false
        | _ => false
  | _ => false

/-- The serial of the state document `b`, when numeric. -/
def serialOfBytes (b : String) : Option Dec :=
  match jsonParse b with
  | some (.vobj st) =>
      match lookupKV st "serial" with
      | some (.vfloat d) => some d
      | _ => none
  | _ => none

/-- Two configuration records for the same `(module, type, name)` with a
conflicting literal value, as a configuration declaring
`null_resource "d"` twice produces. -/
def c4CfgA : ResourceConfig := ⟨[], "null_resource", "d", [("k", .vstr "x")]⟩

/-- See `c4CfgA`. -/
def c4CfgB : ResourceConfig := ⟨[], "null_resource", "d", [("k", .vstr "y")]⟩

/-- The freshly initialized state bytes (`lineage` fixed). -/
def c4Bytes0 : String := marshal (.vobj (initialState "L"))

/-- The bytes after the first duplicate-record patch. -/
def c4FirstBytes : Option String :=
  (patchLiterals [c4CfgA, c4CfgB] c4Bytes0).map Prod.fst

/-- The second duplicate-record patch, fed the first call's output. -/
def c4SecondCall : Option (String × Bool) :=
  match patchLiterals [c4CfgA, c4CfgB] c4Bytes0 with
  | some (b1, _) => patchLiterals [c4CfgA, c4CfgB] b1
  | none => none

/-- The `provider` field of a resource object (`none` on non-objects and
when the field is absent). -/
def provOf : GoVal → Option GoVal
  | .vobj m => lookupKV m "provider"
  | _ => none

/-- The provider name `providerAddressForType` derives from a resource
type: the part before the first underscore, or the whole type when the
underscore is absent or leads. -/
def provName (resourceType : String) : String :=
  match (resourceType.toList.takeWhile (fun c => c ≠ '_')).length with
  | 0 => resourceType
  | i => if i < resourceType.length then ⟨resourceType.toList.take i⟩ else resourceType

/-- The characters that may legally follow a marshaled value inside a
marshaled document: end of input, a comma, or a closing bracket. -/
def restStop : List Char → Bool
  | [] => true
  | c :: _ => c = ',' || c = ']' || c = rbrace

mutual

/-- Fuel a `pVal` call needs to parse the marshaled form of a value. -/
def szV : GoVal → Nat
  | .varr xs => 1 + szElems xs
  | .vobj kvs => 1 + szMembers kvs
  | _ => 1

/-- Fuel `pElems` needs for the marshaled elements of a slice. -/
def szElems : List GoVal → Nat
  | [] => 0
  | x :: xs => 1 + szV x + szElems xs

/-- Fuel `pMembers` needs for the marshaled fields of a map. -/
def szMembers : List (String × GoVal) → Nat
  | [] => 0
  | kv :: t => 1 + szV kv.2 + szMembers t

end

/-- The merge key `resourceKey(module, type, name)` of one configuration
record, as every patcher computes it. -/
def keyOf (rc : ResourceConfig) : String :=
  resourceKey (modulePathToString rc.modulePath) rc.type rc.name

/-- The resource object the merge loop appends for a configuration
record absent from the state. -/
def resOf (rc : ResourceConfig) : GoVal :=
  newResource (modulePathToString rc.modulePath) rc.type rc.name rc.attrs

/-- The field list of the resource object `resOf rc` (the body of
`newResource` at the configuration record's own module/type/name). -/
def resFields (rc : ResourceConfig) : List (String × GoVal) :=
  (if modulePathToString rc.modulePath = "" then []
   else [("module", .vstr (modulePathToString rc.modulePath))]) ++
  [("mode", .vstr "managed"), ("type", .vstr rc.type), ("name", .vstr rc.name),
    ("provider", .vstr (providerAddressForType rc.type)),
    ("instances", .varr [newInstance rc.attrs])]

/-- The resource object of `resOf rc` as it reads back after one
marshal/unmarshal round trip: keys sorted, numbers as float64. -/
def mRT (rc : ResourceConfig) : List (String × GoVal) :=
  rtNumObj (sortKV (sortAllObj (resFields rc)))

/-- The provider fill step of the merge loop: set `provider` from the
resource type exactly when the key is absent. -/
def provFill (m : List (String × GoVal)) (ty : String) : List (String × GoVal) :=
  if (lookupKV m "provider").isNone then
    setKV m "provider" (.vstr (providerAddressForType ty)) else m

/-- The instance-list step of the merge loop: create one fresh instance
when the list is empty, otherwise merge into each instance. -/
def instStep (cfgAttrs : List (String × GoVal)) (instRaw : List GoVal) :
    List GoVal × Bool :=
  if instRaw.length = 0 then ([newInstance cfgAttrs], true)
  else ((instRaw.map (mergeInstance cfgAttrs)).map (fun p => p.1),
        (instRaw.map (mergeInstance cfgAttrs)).any (fun p => p.2))

/-- One step of the per-attribute merge fold (the body of `mergeAttrs`). -/
def mergeAttrStep (acc : List (String × GoVal) × Bool) (kv : String × GoVal) :
    List (String × GoVal) × Bool :=
  let nv := sanitizeValue kv.2
  match lookupKV acc.1 kv.1 with
  | none => (setKV acc.1 kv.1 nv, true)
  | some ov => if deepEqualJSONish ov nv then acc
      else (setKV acc.1 kv.1 nv, true)

/-- An attribute map `am` is saturated for the configured attributes:
every configured key stores a value the merge loop's `deepEqualJSONish`
test accepts against the sanitized configured value. -/
def attrsSat (cfgAttrs am : List (String × GoVal)) : Prop :=
  ∀ kv ∈ cfgAttrs, ∃ s, lookupKV am kv.1 = some s ∧
    deepEqualJSONish s (sanitizeValue kv.2) = true

/-- An instance object is saturated: if it is a map, its `attributes`
map exists and is saturated. -/
def instSat (cfgAttrs : List (String × GoVal)) : GoVal → Prop
  | .vobj im => ∃ am, lookupKV im "attributes" = some (.vobj am) ∧
      attrsSat cfgAttrs am
  | _ => True

/-- A resource object is saturated for one configuration record:
`provider` present, a non-empty instance list, every instance
saturated. -/
def resSat (cfgAttrs : List (String × GoVal)) (m : List (String × GoVal)) : Prop :=
  (∃ pv, lookupKV m "provider" = some pv) ∧
  ∃ insts, lookupKV m "instances" = some (.varr insts) ∧ insts ≠ [] ∧
    ∀ i ∈ insts, instSat cfgAttrs i

/-- The merge state holds a saturated resource for the record, reachable
through its own key. -/
def stSat (st : MergeState) (rc : ResourceConfig) : Prop :=
  ∃ j m, lookupIdx st.index (keyOf rc) = some j ∧
    st.resources.get? j = some (.vobj m) ∧ resSat rc.attrs m

end Terraflow

namespace Terraflow

set_option maxRecDepth 40000

/-- Claim C8: `NormalizeCommasInMultiline` maps the five-line list
literal `[ / "a" / 15 / true / ]` to the comma-normalized form with a
trailing comma after `true`, and normalizing that output again returns
it unchanged. -/
theorem c8_normalize_multiline_concrete :
    normalizeCommasInMultiline "[\n  \"a\"\n  15\n  true\n]" =
        "[\n  \"a\",\n  15,\n  true,\n]" ∧
      normalizeCommasInMultiline "[\n  \"a\",\n  15,\n  true,\n]" =
        "[\n  \"a\",\n  15,\n  true,\n]" :=
  ⟨rfl, rfl⟩

/-- Claim C2: at the failing input — an index whose every list is empty
and the line `"m"` with the cursor at byte 1 — `CompletionCandidates`
still offers the category starter `module.`: the code checks only the
case-insensitive prefix and never that the corresponding index list is
non-empty (its own test `TestCompletionCandidates_CategoryStarters_EmptyIndex`
in src/unnamed/part_011 requires no starter here). -/
theorem c2_starter_offered_on_empty_index :
    completionCandidates emptyIndex "m" 1 = (["module."], 0, 1) := rfl

/-- Claim C9: `deepEqualJSONish` equates values of distinct dynamic
types through its `fmt %v` fallback — the string `"true"` with the bool
`true`, and the string `"1"` with the float `1.0` — and consequently the
attribute merge treats a stored string as unchanged when the configured
value is the other-typed form with the same rendering. -/
theorem c9_cross_type_equality :
    deepEqualJSONish (.vstr "true") (.vbool true) = true ∧
      deepEqualJSONish (.vstr "1") (.vfloat ⟨1, 0⟩) = true ∧
      (mergeAttrs [("a", .vbool true)] [("a", .vstr "true")]).2 = false ∧
      lookupKV (mergeAttrs [("a", .vbool true)] [("a", .vstr "true")]).1 "a" =
        some (.vstr "true") :=
  ⟨rfl, rfl, rfl, rfl⟩

/-- Claim C5 counterexample: `sanitizeValue` is not idempotent.  On the
four-character string `" 1"`-in-quotes, one application unquotes to the
string `" 1"` (whose leading space hides the digit from the JSON test),
and a second application trims and parses it into the number 1. -/
theorem c5_counterexample :
    sanitizeValue (.vstr "\" 1\"") = .vstr " 1" ∧
      sanitizeValue (sanitizeValue (.vstr "\" 1\"")) = .vfloat ⟨1, 0⟩ ∧
      sanitizeValue (sanitizeValue (.vstr "\" 1\"")) ≠
        sanitizeValue (.vstr "\" 1\"") := by
  refine ⟨rfl, rfl, ?_⟩
  intro h
  have h2 : GoVal.vfloat ⟨1, 0⟩ = GoVal.vstr " 1" := by
    calc GoVal.vfloat ⟨1, 0⟩
        = sanitizeValue (sanitizeValue (.vstr "\" 1\"")) := rfl
      _ = sanitizeValue (.vstr "\" 1\"") := h
      _ = .vstr " 1" := rfl
  exact GoVal.noConfusion h2

/-- Claim C3 counterexample: a patch completes successfully over a state
whose resource carries `provider: ""`, and the post-patch state still
carries the empty provider — the merge only fills `provider` when the
field is absent, never when it is present but empty. -/
theorem c3_counterexample :
    (patchLiterals [c3Cfg] (marshal (.vobj c3State))).map Prod.snd = some true ∧
      (patchLiterals [c3Cfg] (marshal (.vobj c3State))).map
          (fun p => someResourceHasEmptyProvider p.1) = some true := by
  exact ⟨rfl, rfl⟩

/-- Claim C4 counterexample: over a configuration that declares
`null_resource "d"` twice with conflicting literal values for the same
attribute, the second identical `PatchStateFromConfigLiterals` call
writes again and bumps `serial` from 2 to 3. -/
theorem c4_counterexample :
    c4SecondCall.map Prod.snd = some true ∧
      c4FirstBytes.bind serialOfBytes = some ⟨2, 0⟩ ∧
      (c4SecondCall.map Prod.fst).bind serialOfBytes = some ⟨3, 0⟩ := by
  exact ⟨rfl, rfl, rfl⟩

theorem lookupTime_setTime_ne (st : List (String × Int)) (p q : String) (t : Int)
    (h : q ≠ p) : lookupTime (setTime st p t) q = lookupTime st q := by
  induction st with
  | nil => simp [setTime, lookupTime, Ne.symm h]
  | cons hd tl ih =>
      obtain ⟨k, v⟩ := hd
      simp only [setTime]
      by_cases hk : k = p
      · subst hk
        simp [lookupTime, Ne.symm h]
      · simp only [if_neg hk, lookupTime]
        by_cases hq : k = q
        · simp [hq]
        · simp only [if_neg hq]
          exact ih

theorem pollVisit_state (st : List (String × Int)) (flag : Bool) (f : String × Int) :
    (pollVisit (st, flag) f).1 = st ∨
      (pollVisit (st, flag) f).1 = setTime st f.1 f.2 := by
  unfold pollVisit
  by_cases he : pathExt f.1 ∈ watchExtensions
  · simp only [he, if_true]
    by_cases h0 : lookupTime st f.1 = 0
    · simp [h0]
    · by_cases hlt : lookupTime st f.1 < f.2
      · simp [h0, hlt]
      · simp [h0, hlt]
  · simp [he]

theorem pollVisit_flag (st : List (String × Int)) (flag : Bool) (f : String × Int) :
    (pollVisit (st, flag) f).2 = flag ∨
      (pathExt f.1 ∈ watchExtensions ∧ lookupTime st f.1 ≠ 0 ∧
        lookupTime st f.1 < f.2 ∧ (pollVisit (st, flag) f).2 = true) := by
  unfold pollVisit
  by_cases he : pathExt f.1 ∈ watchExtensions
  · simp only [he, if_true]
    by_cases h0 : lookupTime st f.1 = 0
    · simp [h0]
    · by_cases hlt : lookupTime st f.1 < f.2
      · simp [h0, hlt, he]
      · simp [h0, hlt]
  · simp [he]

theorem pollVisit_flag_keep (st : List (String × Int)) (flag : Bool) (f : String × Int)
    (h0 : lookupTime st f.1 = 0) : pollVisit (st, flag) f =
      (if pathExt f.1 ∈ watchExtensions then setTime st f.1 f.2 else st,
        flag) := by
  unfold pollVisit
  by_cases he : pathExt f.1 ∈ watchExtensions
  · simp [he, h0]
  · simp [he]

theorem poll_foldl_spec : ∀ (files : List (String × Int)) (st : List (String × Int))
    (flag : Bool), (files.map Prod.fst).Nodup →
    ((flag = false → (∀ f ∈ files, lookupTime st f.1 = 0) →
        (files.foldl pollVisit (st, flag)).2 = false) ∧
      ((files.foldl pollVisit (st, flag)).2 = true → flag = true ∨
        ∃ f ∈ files, pathExt f.1 ∈ watchExtensions ∧
          lookupTime st f.1 ≠ 0 ∧ lookupTime st f.1 < f.2)) := by
  intro files
  induction files with
  | nil =>
      intro st flag _
      constructor
      · intro hf _
        simpa using hf
      · intro ht
        exact Or.inl ht
  | cons f fs ih =>
      intro st flag hnd
      have hnd2 : (fs.map Prod.fst).Nodup := (List.nodup_cons.mp hnd).2
      have hnotin : f.1 ∉ fs.map Prod.fst := (List.nodup_cons.mp hnd).1
      have hpres : ∀ g ∈ fs, ∀ t : Int,
          lookupTime (setTime st f.1 t) g.1 = lookupTime st g.1 := by
        intro g hg t
        apply lookupTime_setTime_ne
        intro hq
        exact hnotin (hq ▸ List.mem_map_of_mem Prod.fst hg)
      constructor
      · intro hflag hall
        subst hflag
        have h0 : lookupTime st f.1 = 0 := hall f (by simp)
        rw [List.foldl_cons, pollVisit_flag_keep st false f h0]
        by_cases he : pathExt f.1 ∈ watchExtensions
        · rw [if_pos he]
          exact (ih _ false hnd2).1 rfl
            (fun g hg => (hpres g hg f.2).trans (hall g (by simp [hg])))
        · rw [if_neg he]
          exact (ih _ false hnd2).1 rfl (fun g hg => hall g (by simp [hg]))
      · intro ht
        rw [List.foldl_cons] at ht
        rcases hpv : pollVisit (st, flag) f with ⟨st1, flag1⟩
        rw [hpv] at ht
        have hst := pollVisit_state st flag f
        have hfl := pollVisit_flag st flag f
        rw [hpv] at hst hfl
        simp only at hst hfl
        rcases hfl with hfl | ⟨he, h0, hlt, _⟩
        · subst hfl
          rcases hst with hst | hst
          · subst hst
            rcases (ih _ _ hnd2).2 ht with h | ⟨g, hg, hc⟩
            · exact Or.inl h
            · exact Or.inr ⟨g, by simp [hg], hc⟩
          · subst hst
            rcases (ih _ _ hnd2).2 ht with h | ⟨g, hg, hc⟩
            · exact Or.inl h
            · refine Or.inr ⟨g, by simp [hg], ?_⟩
              rwa [hpres g hg f.2] at hc
        · exact Or.inr ⟨f, by simp, he, h0, hlt⟩

/-- Claim C10: the polling watcher records the modification time of any
tracked file it sees for the first time without reporting a change: when
every walked file is unseen (zero recorded time), `pollTerraformFiles`
returns no change; and whenever it does report a change, some walked
`.tf`/`.tfvars` file had a previously recorded time that its current
modification time strictly exceeds. -/
theorem c10_poll_first_sight_silent (files : List (String × Int))
    (last : List (String × Int)) (hnd : (files.map Prod.fst).Nodup) :
    ((∀ f ∈ files, lookupTime last f.1 = 0) →
        (pollTerraformFiles files last).2 = false) ∧
      ((pollTerraformFiles files last).2 = true →
        ∃ f ∈ files, pathExt f.1 ∈ watchExtensions ∧
          lookupTime last f.1 ≠ 0 ∧ lookupTime last f.1 < f.2) := by
  have h := poll_foldl_spec files last false hnd
  refine ⟨fun hall => h.1 rfl hall, fun ht => ?_⟩
  rcases h.2 ht with h0 | h0
  · exact absurd h0 (by simp)
  · exact h0

/-- Witness for C10 at a concrete input: a fresh `.tf` file and a fresh
`.tfvars` file observed for the first time produce no signal. -/
theorem c10_witness :
    (pollTerraformFiles [("a.tf", 5), ("b.tfvars", 7)] []).2 = false :=
  (c10_poll_first_sight_silent [("a.tf", 5), ("b.tfvars", 7)] [] (by decide)).1
    (by decide)

theorem lookupMan_self : ∀ (files : List (String × Int × Int)),
    (files.map Prod.fst).Nodup → ∀ f ∈ files, lookupMan files f.1 = some f.2 := by
  intro files
  induction files with
  | nil => intro _ f hf; exact absurd hf (List.not_mem_nil f)
  | cons h t ih =>
      intro hnd f hf
      obtain ⟨k, mv⟩ := h
      rcases List.mem_cons.mp hf with rfl | hmem
      · simp [lookupMan]
      · have hne : k ≠ f.1 := by
          intro hk
          have hf1 : f.1 ∈ t.map Prod.fst := List.mem_map_of_mem Prod.fst hmem
          exact absurd hf1 (hk ▸ (List.nodup_cons.mp hnd).1)
        simp only [lookupMan, if_neg hne]
        exact ih (List.nodup_cons.mp hnd).2 f hmem

/-- Claim C1 (spec-modelled): a second `Sync` over an unchanged tracked
file set, against the manifest the first `Sync` wrote, reports
`(changed, changed_tf) = (false, false)` and performs zero filesystem
writes: no file copies, no removals, and no manifest write. -/
theorem c1_sync_idempotent (files prev : List (String × Int × Int))
    (hnd : (files.map Prod.fst).Nodup) :
    (syncSpec files (syncSpec files prev).newManifest).changed = false ∧
      (syncSpec files (syncSpec files prev).newManifest).changedTf = false ∧
      (syncSpec files (syncSpec files prev).newManifest).copies = [] ∧
      (syncSpec files (syncSpec files prev).newManifest).removals = [] ∧
      (syncSpec files (syncSpec files prev).newManifest).manifestWritten = false := by
  have hman : (syncSpec files prev).newManifest = files := rfl
  rw [hman]
  have hcop : (files.filter
      (fun f => decide (lookupMan files f.1 ≠ some f.2))) = [] := by
    rw [List.filter_eq_nil_iff]
    intro f hf
    simp [lookupMan_self files hnd f hf]
  have hrem : (files.filter
      (fun e => decide (lookupMan files e.1 = none))) = [] := by
    rw [List.filter_eq_nil_iff]
    intro f hf
    simp [lookupMan_self files hnd f hf]
  refine ⟨?_, ?_, ?_, ?_, ?_⟩ <;>
    first
      | (simp only [syncSpec, hcop, hrem, List.map_nil, List.filter_nil]; rfl)
      | simp only [syncSpec, hcop, hrem, List.map_nil, List.filter_nil]

/-- Witness for C1 at a concrete input: one tracked `.tf` file, synced
twice from an empty previous manifest. -/
theorem c1_witness :
    (syncSpec [("main.tf", 3, 10)]
        (syncSpec [("main.tf", 3, 10)] []).newManifest).changed = false :=
  (c1_sync_idempotent [("main.tf", 3, 10)] [] (by decide)).1

theorem lookupIdx_mem : ∀ (w : List (String × Nat)) (id : String) (c : Nat),
    lookupIdx w id = some c → (id, c) ∈ w := by
  intro w
  induction w with
  | nil => intro id c h; exact absurd h (by simp [lookupIdx])
  | cons kv t ih =>
      intro id c h
      obtain ⟨k, v⟩ := kv
      simp only [lookupIdx] at h
      by_cases hk : k = id
      · subst hk
        rw [if_pos rfl] at h
        injection h with h2
        subst h2
        exact List.mem_cons_self _ _
      · rw [if_neg hk] at h
        exact List.mem_cons_of_mem _ (ih id c h)

theorem filter_subset_mem {α : Type} (p : α → Bool) (l : List α) (a : α)
    (h : a ∈ l.filter p) : a ∈ l :=
  List.mem_of_mem_filter h

/-- What one `readStep` can do: either no delivery and the waiters are
unchanged, or the line parses with an `__id` whose waiter existed, that
waiter is the recipient, and every entry under that id is removed. -/
theorem readStep_cases (w : List (String × Nat)) (line : String) :
    (readStep w line).2 = none ∧ (readStep w line).1 = w ∨
      ∃ id c, lineId (goTrimSpace line) = some id ∧ (id, c) ∈ w ∧
        (readStep w line).2 = some (c, goTrimSpace line) ∧
        (readStep w line).1 = w.filter (fun kv => kv.1 ≠ id) := by
  unfold readStep
  by_cases h0 : goTrimSpace line = "" ∨ goTrimSpace line = ">"
  · simp [h0]
  · rw [if_neg h0]
    rcases hp : jsonParse (goTrimSpace line) with _ | v
    · simp [lineId, hp]
    · match v with
      | .vobj m =>
          rcases hid : lookupKV m "__id" with _ | idv
          · simp [lineId, hp, hid]
          · match idv with
            | .vstr id =>
                by_cases hemp : id = ""
                · simp [hemp, lineId, hp, hid]
                · rcases hw : lookupIdx w id with _ | c
                  · simp [lineId, hp, hid, hemp, hw]
                  · refine Or.inr ⟨id, c, ?_, lookupIdx_mem w id c hw, ?_, ?_⟩
                    · simp [lineId, hp, hid, hemp]
                    · simp [hp, hid, hemp, hw]
                    · simp [hp, hid, hemp, hw]
            | .vnil => simp [lineId, hp, hid]
            | .vbool b => simp [lineId, hp, hid]
            | .vint n => simp [lineId, hp, hid]
            | .vfloat d => simp [lineId, hp, hid]
            | .varr xs => simp [lineId, hp, hid]
            | .vobj kvs => simp [lineId, hp, hid]
      | .vnil => simp [lineId, hp]
      | .vbool b => simp [lineId, hp]
      | .vint n => simp [lineId, hp]
      | .vfloat d => simp [lineId, hp]
      | .vstr s2 => simp [lineId, hp]
      | .varr xs => simp [lineId, hp]

/-- The fold invariant behind C7: starting from a waiter map drawn from
`w0` (unique ids, one id per caller, no pending delivery for callers
already served), every delivery the remaining lines produce goes to a
caller registered in `w0` under the id its line carries, and no caller
is served twice. -/
theorem readLoop_invariant :
    ∀ (lines : List String) (w w0 : List (String × Nat))
      (acc : List (Nat × String)),
      (∀ e ∈ w, e ∈ w0) →
      (∀ i1 i2 c, (i1, c) ∈ w0 → (i2, c) ∈ w0 → i1 = i2) →
      (∀ d ∈ acc, ∃ id, (id, d.1) ∈ w0 ∧ lineId d.2 = some id) →
      (∀ d ∈ acc, ∀ i, (i, d.1) ∉ w) →
      (acc.map Prod.fst).Nodup →
      (∀ d ∈ (lines.foldl
          (fun a line =>
            let p := readStep a.1 line
            (p.1, a.2 ++ p.2.toList)) (w, acc)).2,
        ∃ id, (id, d.1) ∈ w0 ∧ lineId d.2 = some id) ∧
      ((lines.foldl
          (fun a line =>
            let p := readStep a.1 line
            (p.1, a.2 ++ p.2.toList)) (w, acc)).2.map Prod.fst).Nodup := by
  intro lines
  induction lines with
  | nil =>
      intro w w0 acc _ _ hacc _ hnd
      exact ⟨hacc, hnd⟩
  | cons line rest ih =>
      intro w w0 acc hsub hinj hacc hserved hnd
      simp only [List.foldl_cons]
      rcases readStep_cases w line with ⟨hd, hw⟩ | ⟨id, c, hlid, hmem, hd, hw⟩
      · rw [hd, hw]
        simp only [Option.toList_none, List.append_nil]
        exact ih w w0 acc hsub hinj hacc hserved hnd
      · rw [hd, hw]
        simp only [Option.toList_some]
        apply ih _ w0 _
        · intro e he
          exact hsub e (filter_subset_mem _ w e he)
        · exact hinj
        · intro d hd2
          rcases List.mem_append.mp hd2 with hold | hnew
          · exact hacc d hold
          · rcases List.mem_singleton.mp hnew with rfl
            exact ⟨id, hsub _ hmem, hlid⟩
        · intro d hd2 i hi
          have hi2 : (i, d.1) ∈ w := filter_subset_mem _ w _ hi
          rcases List.mem_append.mp hd2 with hold | hnew
          · exact hserved d hold i hi2
          · rcases List.mem_singleton.mp hnew with rfl
            have : i = id := hinj i id c (hsub _ hi2) (hsub _ hmem)
            subst this
            have := List.of_mem_filter hi
            simp at this
        · rw [List.map_append]
          rw [List.nodup_append]
          refine ⟨hnd, by simp, ?_⟩
          intro a ha hb
          simp only [List.map_cons, List.map_nil, List.mem_singleton] at hb
          subst hb
          rcases List.mem_map.mp ha with ⟨d, hdm, hda⟩
          exact hserved d hdm id (hda ▸ hmem)

/-- Claim C7: over any stdout transcript, the read loop never
cross-routes: every line delivered to a caller parses as a JSON object
whose non-empty `__id` is exactly the id that caller registered (ids
unique, one registration per caller), each caller is served at most
once, and empty, prompt, non-JSON, id-less and unmatched lines are
delivered to nobody. -/
theorem c7_readloop_routing (w : List (String × Nat)) (lines : List String)
    (hids : (w.map Prod.fst).Nodup)
    (hinj : ∀ i1 i2 c, (i1, c) ∈ w → (i2, c) ∈ w → i1 = i2) :
    (∀ d ∈ (readLoop w lines).2,
        ∃ id, (id, d.1) ∈ w ∧ lineId d.2 = some id ∧
          ∀ i, (i, d.1) ∈ w → i = id) ∧
      ((readLoop w lines).2.map Prod.fst).Nodup := by
  have h := readLoop_invariant lines w w []
    (fun e he => he) hinj (by simp) (by simp) (by simp)
  have hloop : readLoop w lines = lines.foldl
      (fun a line =>
        let p := readStep a.1 line
        (p.1, a.2 ++ p.2.toList)) (w, []) := by
    unfold readLoop
    rfl
  constructor
  · intro d hd
    rw [hloop] at hd
    rcases h.1 d hd with ⟨id, hmem, hlid⟩
    exact ⟨id, hmem, hlid, fun i hi => hinj i id d.1 hi hmem⟩
  · rw [hloop]
    exact h.2

/-- Witness for C7 at a concrete input: one registered waiter, a
transcript with a prompt line, a non-JSON banner, a response for an
unknown id, and the matching response; the single delivery carries the
caller's own id. -/
theorem c7_witness :
    (∀ d ∈ (readLoop [("I1", 7)]
        [">", "banner", "\x7b\"__id\":\"zz\",\"__val\":1\x7d",
          "\x7b\"__id\":\"I1\",\"__val\":2\x7d"]).2,
      ∃ id, (id, d.1) ∈ [("I1", 7)] ∧ lineId d.2 = some id ∧
        ∀ i, (i, d.1) ∈ [("I1", 7)] → i = id) ∧
    ((readLoop [("I1", 7)]
        [">", "banner", "\x7b\"__id\":\"zz\",\"__val\":1\x7d",
          "\x7b\"__id\":\"I1\",\"__val\":2\x7d"]).2.map Prod.fst).Nodup :=
  c7_readloop_routing [("I1", 7)]
    [">", "banner", "\x7b\"__id\":\"zz\",\"__val\":1\x7d",
      "\x7b\"__id\":\"I1\",\"__val\":2\x7d"] (by decide)
    (by
      intro i1 i2 c h1 h2
      simp only [List.mem_singleton] at h1 h2
      rw [Prod.mk.injEq] at h1 h2
      rw [h1.1, h2.1])

theorem providerAddressForType_ne_empty (ty : String) :
    providerAddressForType ty ≠ "" := by
  intro h
  have h2 : ("provider[\"registry.terraform.io/hashicorp/" ++ provName ty ++
      "\"]" : String) = "" := h
  have hl := congrArg String.length h2
  rw [String.length_append, String.length_append] at hl
  have e1 : ("provider[\"registry.terraform.io/hashicorp/" : String).length = 42 := rfl
  have e2 : ("\"]" : String).length = 2 := rfl
  have e0 : ("" : String).length = 0 := rfl
  rw [e1, e2, e0] at hl
  omega

theorem lookupKV_setKV_eq (m : List (String × GoVal)) (k : String) (v : GoVal) :
    lookupKV (setKV m k v) k = some v := by
  induction m with
  | nil => simp [setKV, lookupKV]
  | cons kv t ih =>
      obtain ⟨k0, v0⟩ := kv
      by_cases hk : k0 = k
      · subst hk
        simp [setKV, lookupKV]
      · simp [setKV, lookupKV, hk, ih]

theorem lookupKV_setKV_ne (m : List (String × GoVal)) (k q : String) (v : GoVal)
    (h : k ≠ q) : lookupKV (setKV m k v) q = lookupKV m q := by
  induction m with
  | nil => simp [setKV, lookupKV, h]
  | cons kv t ih =>
      obtain ⟨k0, v0⟩ := kv
      by_cases hk : k0 = k
      · subst hk
        simp [setKV, lookupKV, h]
      · by_cases hq : k0 = q
        · simp [setKV, lookupKV, hk, hq, Ne.symm h]
        · simp [setKV, lookupKV, hk, hq, ih]

theorem provOf_setKV_instances (m1 : List (String × GoVal)) (x : GoVal) :
    provOf (.vobj (setKV m1 "instances" x)) = lookupKV m1 "provider" :=
  lookupKV_setKV_ne m1 "instances" "provider" x (by decide)

theorem provOf_newResource (mod ty name : String) (attrs : List (String × GoVal)) :
    provOf (newResource mod ty name attrs) =
      some (.vstr (providerAddressForType ty)) := by
  by_cases h : mod = ""
  · subst h
    rfl
  · simp [newResource, provOf, lookupKV, h]

/-- One merge step preserves the provider invariant: every resource's
`provider` field is either carried over from some pre-patch resource or
is the derived `providerAddressForType`. -/
theorem mergeOne_provider (res0 : List GoVal) (st : MergeState) (rc : ResourceConfig)
    (hinv : ∀ r ∈ st.resources,
      (∃ r0 ∈ res0, provOf r = provOf r0) ∨
        ∃ ty, provOf r = some (.vstr (providerAddressForType ty))) :
    ∀ r ∈ (mergeOne st rc).resources,
      (∃ r0 ∈ res0, provOf r = provOf r0) ∨
        ∃ ty, provOf r = some (.vstr (providerAddressForType ty)) := by
  intro r hr
  dsimp only [mergeOne] at hr
  split at hr
  · -- matched an existing index entry
    split at hr
    · -- the indexed slot holds a resource object
      rename_i m hget
      split at hr
      · -- the provider field was absent and has been filled
        rcases List.mem_or_eq_of_mem_set hr with hmem | heqr
        · exact hinv r hmem
        · rw [heqr, provOf_setKV_instances, lookupKV_setKV_eq]
          exact Or.inr ⟨rc.type, rfl⟩
      · -- the provider field was present and is untouched
        rcases List.mem_or_eq_of_mem_set hr with hmem | heqr
        · exact hinv r hmem
        · rw [heqr, provOf_setKV_instances]
          exact hinv _ (List.get?_mem hget)
    · exact hinv r hr
  · -- no index entry: a fresh resource is appended
    rcases List.mem_append.mp hr with hin | hnew
    · exact hinv r hin
    · rcases List.mem_singleton.mp hnew with rfl
      exact Or.inr ⟨rc.type, provOf_newResource _ _ _ _⟩

theorem mergeFold_provider (res0 : List GoVal) :
    ∀ (cfgs : List ResourceConfig) (st : MergeState),
      (∀ r ∈ st.resources,
        (∃ r0 ∈ res0, provOf r = provOf r0) ∨
          ∃ ty, provOf r = some (.vstr (providerAddressForType ty))) →
      ∀ r ∈ (cfgs.foldl mergeOne st).resources,
        (∃ r0 ∈ res0, provOf r = provOf r0) ∨
          ∃ ty, provOf r = some (.vstr (providerAddressForType ty)) := by
  intro cfgs
  induction cfgs with
  | nil => intro st h; exact h
  | cons c t ih =>
      intro st h
      exact ih _ (mergeOne_provider res0 st c h)

/-- Claim C3 (amended): after the merge loop shared by the patch
operations, each resource's `provider` field is either carried over
unchanged from some pre-patch resource — so an existing empty string is
retained, not replaced — or, for resources created or whose field was
absent, set to the derived `providerAddressForType`, which is always
non-empty. -/
theorem c3_provider_presence (cfgs : List ResourceConfig) (resources : List GoVal) :
    ∀ r ∈ (mergeAll cfgs resources).1,
      (∃ r0 ∈ resources, provOf r = provOf r0) ∨
        ∃ ty, provOf r = some (.vstr (providerAddressForType ty)) ∧
          providerAddressForType ty ≠ "" := by
  intro r hr
  have h := mergeFold_provider resources cfgs
    { resources := resources, index := buildResIndex resources, changed := false }
    (fun r0 h0 => Or.inl ⟨r0, h0, rfl⟩) r hr
  rcases h with ⟨r0, hm, he⟩ | ⟨ty, he⟩
  · exact Or.inl ⟨r0, hm, he⟩
  · exact Or.inr ⟨ty, he, providerAddressForType_ne_empty ty⟩

/-- Witness for the amended C3 at a concrete input: merging one
configured resource into an empty resource list appends a fresh resource
whose provider is the derived non-empty address. -/
theorem c3_witness :
    (∃ r0 ∈ ([] : List GoVal),
        provOf (newResource "" "null_resource" "ex" c3Cfg.attrs) = provOf r0) ∨
      ∃ ty, provOf (newResource "" "null_resource" "ex" c3Cfg.attrs) =
          some (.vstr (providerAddressForType ty)) ∧
        providerAddressForType ty ≠ "" := by
  have he : (mergeAll [c3Cfg] []).1 =
      [newResource "" "null_resource" "ex" c3Cfg.attrs] := rfl
  have hm : newResource "" "null_resource" "ex" c3Cfg.attrs ∈ (mergeAll [c3Cfg] []).1 := by
    rw [he]
    exact List.mem_cons_self _ _
  exact c3_provider_presence [c3Cfg] [] _ hm

/-- On a value containing no string anywhere, `sanitizeValueF` is the
identity at every fuel: only strings are trimmed, unquoted or parsed. -/
theorem sanitizeValueF_stringFree :
    ∀ (f : Nat) (v : GoVal), stringFree v = true → sanitizeValueF f v = v := by
  intro f
  induction f with
  | zero => intro v _; rfl
  | succ f ih =>
      intro v hv
      match v with
      | .vnil => rfl
      | .vbool b => rfl
      | .vint n => rfl
      | .vfloat d => rfl
      | .vstr s => exact absurd hv (by simp [stringFree])
      | .varr xs =>
          have harr : ∀ ys, stringFreeArr ys = true →
              ys.map (sanitizeValueF f) = ys := by
            intro ys
            induction ys with
            | nil => intro _; rfl
            | cons y t iht =>
                intro h
                simp only [stringFreeArr, Bool.and_eq_true] at h
                simp [List.map_cons, ih y h.1, iht h.2]
          simp only [stringFree] at hv
          simp [sanitizeValueF, harr xs hv]
      | .vobj kvs =>
          have hobj : ∀ (ys : List (String × GoVal)), stringFreeObj ys = true →
              (ys.map fun kv => (kv.1, sanitizeValueF f kv.2)) = ys := by
            intro ys
            induction ys with
            | nil => intro _; rfl
            | cons y t iht =>
                obtain ⟨k, w⟩ := y
                intro h
                simp only [stringFreeObj, Bool.and_eq_true] at h
                simp [List.map_cons, ih w h.1, iht h.2]
          simp only [stringFree] at hv
          simp [sanitizeValueF, hobj kvs hv]

/-- Claim C5 (amended): `sanitizeValue` is idempotent on every JSON-like
value free of strings, where it is the identity; strings are excluded
because one level of unquoting can expose text that a second pass parses
further (see the counterexample). -/
theorem c5_sanitize_idempotent_stringfree (v : GoVal) (h : stringFree v = true) :
    sanitizeValue v = v ∧ sanitizeValue (sanitizeValue v) = sanitizeValue v := by
  have h1 : sanitizeValue v = v := sanitizeValueF_stringFree _ v h
  exact ⟨h1, by rw [h1]; exact h1⟩

/-- Witness for the amended C5 at a concrete string-free value. -/
theorem c5_witness :
    stringFree (GoVal.varr [.vint 1, .vobj [("a", .vbool true)]]) = true ∧
      sanitizeValue (GoVal.varr [.vint 1, .vobj [("a", .vbool true)]]) =
          GoVal.varr [.vint 1, .vobj [("a", .vbool true)]] ∧
        sanitizeValue (sanitizeValue (GoVal.varr [.vint 1, .vobj [("a", .vbool true)]])) =
          sanitizeValue (GoVal.varr [.vint 1, .vobj [("a", .vbool true)]]) := by
  refine ⟨rfl, ?_, ?_⟩
  · exact (c5_sanitize_idempotent_stringfree
      (GoVal.varr [.vint 1, .vobj [("a", .vbool true)]]) rfl).1
  · exact (c5_sanitize_idempotent_stringfree
      (GoVal.varr [.vint 1, .vobj [("a", .vbool true)]]) rfl).2

theorem digitChar_toNat (k : Nat) (h : k < 10) : (digitChar k).toNat = 48 + k := by
  interval_cases k <;> rfl

theorem isDigitChar_digitChar (k : Nat) (h : k < 10) :
    isDigitChar (digitChar k) = true := by
  interval_cases k <;> rfl

theorem digitsNat_append_one (ds : List Char) (c : Char) :
    digitsNat (ds ++ [c]) = digitsNat ds * 10 + (c.toNat - 48) := by
  simp [digitsNat, List.foldl_append]

theorem headI_append_of_ne_nil {α : Type} [Inhabited α] (l l2 : List α) (h : l ≠ []) :
    (l ++ l2).headI = l.headI := by
  cases l with
  | nil => exact absurd rfl h
  | cons a t => rfl

theorem natDigitsF_spec : ∀ (f n : Nat), n ≤ f →
    digitsNat (natDigitsF f n) = n ∧
      (∀ c ∈ natDigitsF f n, isDigitChar c = true) ∧ natDigitsF f n ≠ [] := by
  intro f
  induction f with
  | zero =>
      intro n hn
      have h0 : n = 0 := Nat.le_zero.mp hn
      subst h0
      exact ⟨by decide, by decide, by decide⟩
  | succ f ih =>
      intro n hn
      by_cases h10 : n < 10
      · have he : natDigitsF (f + 1) n = [digitChar n] := by
          simp [natDigitsF, h10]
        rw [he]
        refine ⟨?_, ?_, by simp⟩
        · simp [digitsNat, digitChar_toNat n h10]
        · intro c hc
          rcases List.mem_singleton.mp hc with rfl
          exact isDigitChar_digitChar n h10
      · have hdiv : n / 10 ≤ f := by omega
        have he : natDigitsF (f + 1) n =
            natDigitsF f (n / 10) ++ [digitChar (n % 10)] := by
          simp [natDigitsF, h10]
        rw [he]
        obtain ⟨hval, hdig, hne⟩ := ih (n / 10) hdiv
        refine ⟨?_, ?_, by simp⟩
        · rw [digitsNat_append_one, hval, digitChar_toNat (n % 10) (by omega)]
          omega
        · intro c hc
          rcases List.mem_append.mp hc with hm | hm
          · exact hdig c hm
          · rcases List.mem_singleton.mp hm with rfl
            exact isDigitChar_digitChar (n % 10) (by omega)

theorem natDigits_spec (n : Nat) :
    digitsNat (natDigits n) = n ∧
      (∀ c ∈ natDigits n, isDigitChar c = true) ∧ natDigits n ≠ [] :=
  natDigitsF_spec n n (le_refl n)

theorem natDigitsF_headI : ∀ (f n : Nat), n ≤ f → n ≠ 0 →
    (natDigitsF f n).headI ≠ '0' := by
  intro f
  induction f with
  | zero =>
      intro n hn h0
      exact absurd (Nat.le_zero.mp hn) h0
  | succ f ih =>
      intro n hn h0
      by_cases h10 : n < 10
      · have he : natDigitsF (f + 1) n = [digitChar n] := by
          simp [natDigitsF, h10]
        rw [he]
        intro hc
        have h2 : digitChar n = '0' := hc
        have h3 := congrArg Char.toNat h2
        rw [digitChar_toNat n h10] at h3
        have hz : ('0' : Char).toNat = 48 := rfl
        rw [hz] at h3
        exact h0 (by omega)
      · have he : natDigitsF (f + 1) n =
            natDigitsF f (n / 10) ++ [digitChar (n % 10)] := by
          simp [natDigitsF, h10]
        rw [he, headI_append_of_ne_nil _ _ (natDigitsF_spec f (n / 10) (by omega)).2.2]
        exact ih (n / 10) (by omega) (by omega)

theorem natDigits_headI (n : Nat) (h0 : n ≠ 0) : (natDigits n).headI ≠ '0' :=
  natDigitsF_headI n n (le_refl n) h0

theorem digitsNat_replicate_zero (k : Nat) :
    digitsNat (List.replicate k '0') = 0 := by
  induction k with
  | zero => rfl
  | succ k ih =>
      rw [List.replicate_succ']
      rw [digitsNat_append_one, ih]
      rfl

theorem digitsNat_zeros_prefix (k : Nat) (ds : List Char) :
    digitsNat (List.replicate k '0' ++ ds) = digitsNat ds := by
  have h : digitsNat (List.replicate k '0' ++ ds) =
      ds.foldl (fun a c => a * 10 + (c.toNat - 48)) (digitsNat (List.replicate k '0')) := by
    simp [digitsNat, List.foldl_append]
  rw [h, digitsNat_replicate_zero]
  rfl

theorem digitsNat_append_zeros (ds : List Char) (k : Nat) :
    digitsNat (ds ++ List.replicate k '0') = digitsNat ds * 10 ^ k := by
  induction k with
  | zero => simp
  | succ k ih =>
      rw [List.replicate_succ', ← List.append_assoc, digitsNat_append_one, ih]
      have : ('0' : Char).toNat - 48 = 0 := rfl
      rw [this]
      ring

theorem restStop_facts (rest : List Char) (h : restStop rest = true) :
    ∀ c r', rest = c :: r' →
      isDigitChar c = false ∧ c ≠ '.' ∧ c ≠ 'e' ∧ c ≠ 'E' ∧ c ≠ '-' := by
  intro c r' he
  subst he
  simp only [restStop, Bool.or_eq_true, decide_eq_true_eq] at h
  rcases h with (h | h) | h <;> rw [h] <;>
    exact ⟨by decide, by decide, by decide, by decide, by decide⟩

theorem digit_ne_minus (c : Char) (h : isDigitChar c = true) : c ≠ '-' := by
  intro he
  subst he
  exact absurd h (by decide)

theorem digit_ne_dot (c : Char) (h : isDigitChar c = true) : c ≠ '.' := by
  intro he
  subst he
  exact absurd h (by decide)

theorem spanDigits_exact (ds : List Char) (rest : List Char)
    (hd : ∀ c ∈ ds, isDigitChar c = true)
    (hr : ∀ c r', rest = c :: r' → isDigitChar c = false) :
    spanDigits (ds ++ rest) = (ds, rest) := by
  induction ds with
  | nil =>
      simp only [List.nil_append]
      cases rest with
      | nil => rfl
      | cons c r' =>
          have hc := hr c r' rfl
          simp [spanDigits, hc]
  | cons c t ih =>
      have hc : isDigitChar c = true := hd c (List.mem_cons_self _ _)
      have ih2 := ih (fun x hx => hd x (List.mem_cons_of_mem _ hx))
      simp only [List.cons_append, spanDigits, hc, if_true]
      have ih3 : spanDigits (t.append rest) = (t, rest) := ih2
      rw [ih3]

theorem stripF_exit (f : Nat) (m e : Int) (h : ¬m % 10 = 0) :
    Dec.stripF f m e = ⟨m, e⟩ := by
  cases f with
  | zero => rfl
  | succ f =>
      have hc : ¬(m ≠ 0 ∧ m % 10 = 0) := fun hand => h hand.2
      show (if m ≠ 0 ∧ m % 10 = 0 then Dec.stripF f (m / 10) (e + 1)
          else ⟨m, e⟩) = ⟨m, e⟩
      rw [if_neg hc]

theorem stripF_shift : ∀ (k f : Nat) (m : Int) (e : Int), ¬m % 10 = 0 → k ≤ f →
    Dec.stripF f (m * 10 ^ k) e = ⟨m, e + k⟩ := by
  intro k
  induction k with
  | zero =>
      intro f m e hmod _
      rw [pow_zero, mul_one, stripF_exit f m e hmod]
      simp
  | succ k ih =>
      intro f m e hmod hkf
      cases f with
      | zero => omega
      | succ f =>
          by_cases hm : m = 0
          · subst hm
            exact absurd (by decide : (0 : Int) % 10 = 0) hmod
          · have hcond : m * 10 ^ (k + 1) ≠ 0 ∧ m * 10 ^ (k + 1) % 10 = 0 := by
              constructor
              · exact mul_ne_zero hm (by positivity)
              · have : m * 10 ^ (k + 1) = m * 10 ^ k * 10 := by ring
                omega
            have hdiv : m * 10 ^ (k + 1) / 10 = m * 10 ^ k := by
              have : m * 10 ^ (k + 1) = m * 10 ^ k * 10 := by ring
              rw [this]
              exact Int.mul_ediv_cancel _ (by norm_num)
            show (if m * 10 ^ (k + 1) ≠ 0 ∧ m * 10 ^ (k + 1) % 10 = 0 then
                Dec.stripF f (m * 10 ^ (k + 1) / 10) (e + 1)
              else ⟨m * 10 ^ (k + 1), e⟩) = ⟨m, e + ((k + 1 : Nat) : Int)⟩
            rw [if_pos hcond, hdiv, ih f m (e + 1) hmod (by omega)]
            rw [Dec.mk.injEq]
            exact ⟨rfl, by push_cast; ring⟩

theorem norm_mul_pow (m : Int) (k : Nat) (hm : m ≠ 0) (hmod : ¬m % 10 = 0) :
    Dec.norm ⟨m * 10 ^ k, 0⟩ = ⟨m, (k : Int)⟩ := by
  have hM : m * 10 ^ k ≠ 0 := mul_ne_zero hm (by positivity)
  rw [Dec.norm]
  simp only [hM, if_false]
  rw [Dec.strip]
  have hfuel : k ≤ (m * 10 ^ k).natAbs := by
    have h1 : (10 : Nat) ^ k ≤ (m * 10 ^ k).natAbs := by
      rw [Int.natAbs_mul]
      have h2 : ((10 : Int) ^ k).natAbs = 10 ^ k := by
        rw [Int.natAbs_pow]
        rfl
      rw [h2]
      exact Nat.le_mul_of_pos_left _ (by omega)
    have h4 : k < 10 ^ k := Nat.lt_pow_self (by norm_num) k
    omega
  rw [stripF_shift k _ m 0 hmod hfuel]
  simp

theorem norm_canon_exit (c : Dec) (h : ¬c.m % 10 = 0) : Dec.norm c = c := by
  have hm : c.m ≠ 0 := by
    intro h0
    rw [h0] at h
    exact h (by decide)
  rw [Dec.norm]
  simp only [hm, if_false]
  rw [Dec.strip, stripF_exit _ _ _ h]

theorem norm_canonical (d : Dec) :
    (d.m = 0 ∧ Dec.norm d = ⟨0, 0⟩) ∨ ((Dec.norm d).m ≠ 0 ∧ ¬(Dec.norm d).m % 10 = 0 ∧
      ∃ k : Nat, (Dec.norm d).m * 10 ^ k = d.m ∧ (Dec.norm d).e = d.e + k) := by
  by_cases hm : d.m = 0
  · left
    refine ⟨hm, ?_⟩
    rw [Dec.norm]
    simp [hm]
  · right
    rw [Dec.norm]
    simp only [hm, if_false]
    rw [Dec.strip]
    have hgen : ∀ (f : Nat) (m e : Int), m ≠ 0 → m.natAbs ≤ f →
        (Dec.stripF f m e).m ≠ 0 ∧ ¬(Dec.stripF f m e).m % 10 = 0 ∧
          ∃ k : Nat, (Dec.stripF f m e).m * 10 ^ k = m ∧ (Dec.stripF f m e).e = e + k := by
      intro f
      induction f with
      | zero =>
          intro m e hm0 habs
          omega
      | succ f ih =>
          intro m e hm0 habs
          by_cases hdiv : m % 10 = 0
          · have hcond : m ≠ 0 ∧ m % 10 = 0 := ⟨hm0, hdiv⟩
            have hred : Dec.stripF (f + 1) m e = Dec.stripF f (m / 10) (e + 1) := by
              show (if m ≠ 0 ∧ m % 10 = 0 then Dec.stripF f (m / 10) (e + 1)
                  else ⟨m, e⟩) = _
              rw [if_pos hcond]
            rw [hred]
            have hne : m / 10 ≠ 0 := by omega
            have habs2 : (m / 10).natAbs ≤ f := by omega
            obtain ⟨h1, h2, k, hk1, hk2⟩ := ih (m / 10) (e + 1) hne habs2
            refine ⟨h1, h2, k + 1, ?_, ?_⟩
            · have hx : (Dec.stripF f (m / 10) (e + 1)).m * 10 ^ (k + 1) =
                  (Dec.stripF f (m / 10) (e + 1)).m * 10 ^ k * 10 := by ring
              rw [hx, hk1]
              omega
            · rw [hk2]
              push_cast
              ring
          · rw [stripF_exit _ _ _ hdiv]
            exact ⟨hm0, hdiv, 0, by simp, by simp⟩
    exact hgen d.m.natAbs d.m d.e hm (le_refl _)

theorem restStop_cons (c : Char) (r : List Char) :
    restStop (c :: r) = (decide (c = ',') || decide (c = ']') || decide (c = rbrace)) := rfl

theorem parseNumTok_int_core (ids rest : List Char)
    (hne : ids ≠ []) (hdig : ∀ c ∈ ids, isDigitChar c = true)
    (hlead : ¬(1 < ids.length ∧ ids.headI = '0'))
    (hstop : restStop rest = true) :
    parseNumTok (ids ++ rest) = some (Dec.norm ⟨(digitsNat ids : Int), 0⟩, rest) := by
  obtain ⟨c0, t0, rfl⟩ : ∃ c0 t0, ids = c0 :: t0 := by
    cases ids with
    | nil => exact absurd rfl hne
    | cons a b => exact ⟨a, b, rfl⟩
  have hc0 : isDigitChar c0 = true := hdig c0 (List.mem_cons_self _ _)
  have hc0m : c0 ≠ '-' := digit_ne_minus c0 hc0
  have hspan : spanDigits ((c0 :: t0) ++ rest) = (c0 :: t0, rest) :=
    spanDigits_exact _ _ hdig (fun c r' he => (restStop_facts rest hstop c r' he).1)
  unfold parseNumTok
  split
  rename_i p neg cs1 heq
  split at heq
  · rename_i cs r hbad
    injection hbad with h1 h2
    exact absurd h1 hc0m
  · injection heq with hneg hcs1
    subst hneg
    subst hcs1
    rw [hspan]
    dsimp only []
    rw [if_neg (by simp : ¬((c0 :: t0).isEmpty = true))]
    rw [if_neg hlead]
    split
    · rename_i hfrac
      split at hfrac
      · exact absurd hstop (by rw [restStop_cons]; decide)
      · exact absurd hfrac (by simp)
    · rename_i fds cs3 hfrac
      split at hfrac
      · exact absurd hstop (by rw [restStop_cons]; decide)
      · injection hfrac with hfrac2
        injection hfrac2 with hfds hcs3
        subst hfds
        subst hcs3
        split
        · rename_i hexp
          split at hexp
          · exact absurd hstop (by rw [restStop_cons]; decide)
          · exact absurd hstop (by rw [restStop_cons]; decide)
          · exact absurd hexp (by simp)
        · rename_i ex cs4 hexp
          split at hexp
          · exact absurd hstop (by rw [restStop_cons]; decide)
          · exact absurd hstop (by rw [restStop_cons]; decide)
          · injection hexp with hexp2
            injection hexp2 with hex hcs4
            subst hex
            subst hcs4
            simp

theorem parseNumTok_int_neg (ids rest : List Char)
    (hne : ids ≠ []) (hdig : ∀ c ∈ ids, isDigitChar c = true)
    (hlead : ¬(1 < ids.length ∧ ids.headI = '0'))
    (hstop : restStop rest = true) :
    parseNumTok ('-' :: (ids ++ rest)) =
      some (Dec.norm ⟨-(digitsNat ids : Int), 0⟩, rest) := by
  obtain ⟨c0, t0, rfl⟩ : ∃ c0 t0, ids = c0 :: t0 := by
    cases ids with
    | nil => exact absurd rfl hne
    | cons a b => exact ⟨a, b, rfl⟩
  have hspan : spanDigits ((c0 :: t0) ++ rest) = (c0 :: t0, rest) :=
    spanDigits_exact _ _ hdig (fun c r' he => (restStop_facts rest hstop c r' he).1)
  unfold parseNumTok
  split
  rename_i p neg cs1 heq
  split at heq
  · rename_i cs r hbad
    injection hbad with h1 h2
    injection heq with hneg hcs1
    subst hneg
    subst h2
    subst hcs1
    rw [hspan]
    dsimp only []
    rw [if_neg (by simp : ¬((c0 :: t0).isEmpty = true))]
    rw [if_neg hlead]
    split
    · rename_i hfrac
      split at hfrac
      · exact absurd hstop (by rw [restStop_cons]; decide)
      · exact absurd hfrac (by simp)
    · rename_i fds cs3 hfrac
      split at hfrac
      · exact absurd hstop (by rw [restStop_cons]; decide)
      · injection hfrac with hfrac2
        injection hfrac2 with hfds hcs3
        subst hfds
        subst hcs3
        split
        · rename_i hexp
          split at hexp
          · exact absurd hstop (by rw [restStop_cons]; decide)
          · exact absurd hstop (by rw [restStop_cons]; decide)
          · exact absurd hexp (by simp)
        · rename_i ex cs4 hexp
          split at hexp
          · exact absurd hstop (by rw [restStop_cons]; decide)
          · exact absurd hstop (by rw [restStop_cons]; decide)
          · injection hexp with hexp2
            injection hexp2 with hex hcs4
            subst hex
            subst hcs4
            simp
  · rename_i hnm
    exact (hnm (c0 :: t0 ++ rest) rfl).elim

theorem parseNumTok_frac_core (ids fds rest : List Char)
    (hne : ids ≠ []) (hdig : ∀ c ∈ ids, isDigitChar c = true)
    (hlead : ¬(1 < ids.length ∧ ids.headI = '0'))
    (hfne : fds ≠ []) (hfdig : ∀ c ∈ fds, isDigitChar c = true)
    (hstop : restStop rest = true) :
    parseNumTok (ids ++ '.' :: (fds ++ rest)) =
      some (Dec.norm ⟨(digitsNat (ids ++ fds) : Int), -(fds.length : Int)⟩, rest) := by
  obtain ⟨c0, t0, rfl⟩ : ∃ c0 t0, ids = c0 :: t0 := by
    cases ids with
    | nil => exact absurd rfl hne
    | cons a b => exact ⟨a, b, rfl⟩
  have hc0 : isDigitChar c0 = true := hdig c0 (List.mem_cons_self _ _)
  have hc0m : c0 ≠ '-' := digit_ne_minus c0 hc0
  have hspan : spanDigits ((c0 :: t0) ++ ('.' :: (fds ++ rest))) =
      (c0 :: t0, '.' :: (fds ++ rest)) :=
    spanDigits_exact _ _ hdig (fun c r' he => by
      injection he with h1 h2
      rw [← h1]
      decide)
  have hspan2 : spanDigits (fds ++ rest) = (fds, rest) :=
    spanDigits_exact _ _ hfdig (fun c r' he => (restStop_facts rest hstop c r' he).1)
  unfold parseNumTok
  split
  rename_i p neg cs1 heq
  split at heq
  · rename_i cs r hbad
    injection hbad with h1 h2
    exact absurd h1 hc0m
  · injection heq with hneg hcs1
    subst hneg
    subst hcs1
    rw [hspan]
    dsimp only []
    rw [if_neg (by simp : ¬((c0 :: t0).isEmpty = true))]
    rw [if_neg hlead]
    split
    · rename_i hfrac
      split at hfrac
      · rename_i r hdot
        injection hdot with h1 h2
        subst h2
        rw [hspan2] at hfrac
        dsimp only [] at hfrac
        rw [if_neg (by simp [hfne] : ¬(fds.isEmpty = true))] at hfrac
        exact absurd hfrac (by simp)
      · rename_i hnotdot
        exact absurd rfl (hnotdot (fds ++ rest))
    · rename_i fds2 cs3 hfrac
      split at hfrac
      · rename_i r hdot
        injection hdot with h1 h2
        subst h2
        rw [hspan2] at hfrac
        dsimp only [] at hfrac
        rw [if_neg (by simp [hfne] : ¬(fds.isEmpty = true))] at hfrac
        injection hfrac with hfrac2
        injection hfrac2 with hfds hcs3
        subst hfds
        subst hcs3
        split
        · rename_i hexp
          split at hexp
          · exact absurd hstop (by rw [restStop_cons]; decide)
          · exact absurd hstop (by rw [restStop_cons]; decide)
          · exact absurd hexp (by simp)
        · rename_i ex cs4 hexp
          split at hexp
          · exact absurd hstop (by rw [restStop_cons]; decide)
          · exact absurd hstop (by rw [restStop_cons]; decide)
          · injection hexp with hexp2
            injection hexp2 with hex hcs4
            subst hex
            subst hcs4
            simp
      · rename_i hnotdot
        exact absurd rfl (hnotdot (fds ++ rest))


theorem parseNumTok_frac_neg (ids fds rest : List Char)
    (hne : ids ≠ []) (hdig : ∀ c ∈ ids, isDigitChar c = true)
    (hlead : ¬(1 < ids.length ∧ ids.headI = '0'))
    (hfne : fds ≠ []) (hfdig : ∀ c ∈ fds, isDigitChar c = true)
    (hstop : restStop rest = true) :
    parseNumTok ('-' :: (ids ++ '.' :: (fds ++ rest))) =
      some (Dec.norm ⟨-(digitsNat (ids ++ fds) : Int), -(fds.length : Int)⟩, rest) := by
  obtain ⟨c0, t0, rfl⟩ : ∃ c0 t0, ids = c0 :: t0 := by
    cases ids with
    | nil => exact absurd rfl hne
    | cons a b => exact ⟨a, b, rfl⟩
  have hspan : spanDigits ((c0 :: t0) ++ ('.' :: (fds ++ rest))) =
      (c0 :: t0, '.' :: (fds ++ rest)) :=
    spanDigits_exact _ _ hdig (fun c r' he => by
      injection he with h1 h2
      rw [← h1]
      decide)
  have hspan2 : spanDigits (fds ++ rest) = (fds, rest) :=
    spanDigits_exact _ _ hfdig (fun c r' he => (restStop_facts rest hstop c r' he).1)
  unfold parseNumTok
  split
  rename_i p neg cs1 heq
  split at heq
  · rename_i cs r hbad
    injection hbad with h1 h2
    injection heq with hneg hcs1
    subst hneg
    subst h2
    subst hcs1
    rw [hspan]
    dsimp only []
    rw [if_neg (by simp : ¬((c0 :: t0).isEmpty = true))]
    rw [if_neg hlead]
    split
    · rename_i hfrac
      split at hfrac
      · rename_i r hdot
        injection hdot with h1 h2
        subst h2
        rw [hspan2] at hfrac
        dsimp only [] at hfrac
        rw [if_neg (by simp [hfne] : ¬(fds.isEmpty = true))] at hfrac
        exact absurd hfrac (by simp)
      · rename_i hnotdot
        exact absurd rfl (hnotdot (fds ++ rest))
    · rename_i fds2 cs3 hfrac
      split at hfrac
      · rename_i r hdot
        injection hdot with h1 h2
        subst h2
        rw [hspan2] at hfrac
        dsimp only [] at hfrac
        rw [if_neg (by simp [hfne] : ¬(fds.isEmpty = true))] at hfrac
        injection hfrac with hfrac2
        injection hfrac2 with hfds hcs3
        subst hfds
        subst hcs3
        split
        · rename_i hexp
          split at hexp
          · exact absurd hstop (by rw [restStop_cons]; decide)
          · exact absurd hstop (by rw [restStop_cons]; decide)
          · exact absurd hexp (by simp)
        · rename_i ex cs4 hexp
          split at hexp
          · exact absurd hstop (by rw [restStop_cons]; decide)
          · exact absurd hstop (by rw [restStop_cons]; decide)
          · injection hexp with hexp2
            injection hexp2 with hex hcs4
            subst hex
            subst hcs4
            simp
      · rename_i hnotdot
        exact absurd rfl (hnotdot (fds ++ rest))
  · rename_i hnm
    exact (hnm (c0 :: t0 ++ '.' :: (fds ++ rest)) rfl).elim


theorem headI_take (l : List Char) (n : Nat) (hn : n ≠ 0) :
    (l.take n).headI = l.headI := by
  cases l with
  | nil => simp
  | cons a t =>
      cases n with
      | zero => exact absurd rfl hn
      | succ n => rfl

theorem parseNumTok_decChars (d : Dec) (rest : List Char)
    (hstop : restStop rest = true) :
    parseNumTok (decChars (Dec.norm d) ++ rest) = some (Dec.norm d, rest) := by
  rcases norm_canonical d with ⟨hm0, hz⟩ | ⟨hm, hmod, k0, hk1, hk2⟩
  · rw [hz]
    have hdc : decChars ⟨0, 0⟩ = ['0'] := rfl
    rw [hdc]
    rw [parseNumTok_int_core ['0'] rest (by simp) (by decide) (by decide) hstop]
    rfl
  · set c := Dec.norm d with hc
    clear hk1 hk2
    have hmk : (⟨c.m, c.e⟩ : Dec) = c := rfl
    by_cases he : 0 ≤ c.e
    · -- integer rendering: digits of |m| followed by e zeros
      have hdc : decChars c = intChars c.m ++ List.replicate c.e.toNat '0' := by
        rw [decChars, if_pos he]
      obtain ⟨hval, hdig, hne⟩ := natDigits_spec c.m.natAbs
      have habs0 : c.m.natAbs ≠ 0 := by omega
      have hdigall : ∀ x ∈ natDigits c.m.natAbs ++ List.replicate c.e.toNat '0',
          isDigitChar x = true := by
        intro x hx
        rcases List.mem_append.mp hx with hx | hx
        · exact hdig x hx
        · rw [List.eq_of_mem_replicate hx]
          decide
      have hne2 : natDigits c.m.natAbs ++ List.replicate c.e.toNat '0' ≠ [] := by
        simp [hne]
      have hlead2 : ¬(1 < (natDigits c.m.natAbs ++ List.replicate c.e.toNat '0').length ∧
          (natDigits c.m.natAbs ++ List.replicate c.e.toNat '0').headI = '0') := by
        intro hand
        rw [headI_append_of_ne_nil _ _ hne] at hand
        exact natDigits_headI c.m.natAbs habs0 hand.2
      have hnum : digitsNat (natDigits c.m.natAbs ++ List.replicate c.e.toNat '0') =
          c.m.natAbs * 10 ^ c.e.toNat := by
        rw [digitsNat_append_zeros, hval]
      have hres : Dec.norm ⟨c.m * 10 ^ c.e.toNat, 0⟩ = c := by
        rw [norm_mul_pow c.m c.e.toNat hm hmod, Int.toNat_of_nonneg he]
      by_cases hmn : c.m < 0
      · have hshape : decChars c ++ rest =
            '-' :: ((natDigits c.m.natAbs ++ List.replicate c.e.toNat '0') ++ rest) := by
          rw [hdc, intChars, if_pos hmn]
          simp [List.append_assoc]
        rw [hshape, parseNumTok_int_neg _ rest hne2 hdigall hlead2 hstop, hnum]
        have hmant : -((c.m.natAbs * 10 ^ c.e.toNat : Nat) : Int) =
            c.m * 10 ^ c.e.toNat := by
          push_cast
          rw [abs_of_neg hmn]
          ring
        rw [hmant, hres]
      · have hshape : decChars c ++ rest =
            (natDigits c.m.natAbs ++ List.replicate c.e.toNat '0') ++ rest := by
          rw [hdc, intChars, if_neg hmn]
          simp [List.append_assoc]
        rw [hshape, parseNumTok_int_core _ rest hne2 hdigall hlead2 hstop, hnum]
        have hmant : ((c.m.natAbs * 10 ^ c.e.toNat : Nat) : Int) =
            c.m * 10 ^ c.e.toNat := by
          push_cast
          rw [abs_of_nonneg (by omega : (0 : Int) ≤ c.m)]
        rw [hmant, hres]
    · -- decimal-point rendering
      have hk : 1 ≤ (-c.e).toNat := by omega
      obtain ⟨hval, hdig, hnd⟩ := natDigits_spec c.m.natAbs
      have habs0 : c.m.natAbs ≠ 0 := by omega
      set k := (-c.e).toNat with hkdef
      set ds := natDigits c.m.natAbs with hds
      set pad := List.replicate (k + 1 - ds.length) '0' ++ ds with hpad
      have hpadlen : k + 1 ≤ pad.length := by
        rw [hpad]
        simp [List.length_append, List.length_replicate]
        omega
      have hpaddig : ∀ x ∈ pad, isDigitChar x = true := by
        intro x hx
        rcases List.mem_append.mp hx with hx | hx
        · rw [List.eq_of_mem_replicate hx]
          decide
        · exact hdig x hx
      set ids := pad.take (pad.length - k) with hids
      set fds := pad.drop (pad.length - k) with hfds
      have hsplit : ids ++ fds = pad := List.take_append_drop _ _
      have hidslen : ids.length = pad.length - k := by
        rw [hids, List.length_take]
        omega
      have hfdslen : fds.length = k := by
        rw [hfds, List.length_drop]
        omega
      have hidne : ids ≠ [] := by
        intro h0
        have := congrArg List.length h0
        rw [hidslen] at this
        simp at this
        omega
      have hfdne : fds ≠ [] := by
        intro h0
        have := congrArg List.length h0
        rw [hfdslen] at this
        simp at this
        omega
      have hidsdig : ∀ x ∈ ids, isDigitChar x = true := fun x hx =>
        hpaddig x (List.mem_of_mem_take hx)
      have hfdsdig : ∀ x ∈ fds, isDigitChar x = true := fun x hx =>
        hpaddig x (List.mem_of_mem_drop hx)
      have hlead2 : ¬(1 < ids.length ∧ ids.headI = '0') := by
        by_cases hlen : ds.length ≤ k
        · intro hand
          have : ids.length = 1 := by
            rw [hidslen, hpad]
            simp [List.length_append, List.length_replicate]
            omega
          omega
        · intro hand
          have hrep0 : k + 1 - ds.length = 0 := by omega
          have hpadds : pad = ds := by
            rw [hpad, hrep0]
            simp
          have hh : ids.headI = ds.headI := by
            rw [hids, hpadds, headI_take]
            omega
          rw [hh] at hand
          exact natDigits_headI c.m.natAbs habs0 hand.2
      have hnum : digitsNat (ids ++ fds) = c.m.natAbs := by
        rw [hsplit, hpad, digitsNat_zeros_prefix, hval]
      have hres : Dec.norm ⟨c.m, -(k : Int)⟩ = c := by
        have hke : -(k : Int) = c.e := by omega
        rw [hke, hmk]
        exact norm_canon_exit c hmod
      by_cases hmn : c.m < 0
      · have hshape : decChars c ++ rest = '-' :: (ids ++ '.' :: (fds ++ rest)) := by
          rw [decChars, if_neg he]
          rw [if_pos hmn]
          simp only [← hkdef, ← hds, ← hpad, ← hids, ← hfds]
          simp [List.append_assoc]
        rw [hshape, parseNumTok_frac_neg ids fds rest hidne hidsdig hlead2 hfdne
          hfdsdig hstop, hnum, hfdslen]
        have hmant : -(c.m.natAbs : Int) = c.m := by omega
        rw [hmant, hres]
      · have hshape : decChars c ++ rest = ids ++ '.' :: (fds ++ rest) := by
          rw [decChars, if_neg he]
          rw [if_neg hmn]
          simp only [← hkdef, ← hds, ← hpad, ← hids, ← hfds]
          simp [List.append_assoc]
        rw [hshape, parseNumTok_frac_core ids fds rest hidne hidsdig hlead2 hfdne
          hfdsdig hstop, hnum, hfdslen]
        have hmant : (c.m.natAbs : Int) = c.m := by omega
        rw [hmant, hres]


theorem parseNumTok_intChars (n : Int) (rest : List Char)
    (hstop : restStop rest = true) :
    parseNumTok (intChars n ++ rest) = some (Dec.norm ⟨n, 0⟩, rest) := by
  obtain ⟨hval, hdig, hne⟩ := natDigits_spec n.natAbs
  have hlead2 : ¬(1 < (natDigits n.natAbs).length ∧ (natDigits n.natAbs).headI = '0') := by
    by_cases h0 : n.natAbs = 0
    · rw [h0]
      decide
    · intro hand
      exact natDigits_headI _ h0 hand.2
  by_cases hmn : n < 0
  · have hshape : intChars n ++ rest = '-' :: (natDigits n.natAbs ++ rest) := by
      rw [intChars, if_pos hmn]
      simp
    rw [hshape, parseNumTok_int_neg _ rest hne hdig hlead2 hstop, hval]
    have hmant : -(n.natAbs : Int) = n := by omega
    rw [hmant]
  · have hshape : intChars n ++ rest = natDigits n.natAbs ++ rest := by
      rw [intChars, if_neg hmn]
      simp
    rw [hshape, parseNumTok_int_core _ rest hne hdig hlead2 hstop, hval]
    have hmant : (n.natAbs : Int) = n := by omega
    rw [hmant]

theorem hexDigVal_hexDigitChar (k : Nat) (h : k < 16) :
    hexDigVal (hexDigitChar k) = some k := by
  interval_cases k <;> rfl

theorem hex4Val_hex4Chars (n : Nat) (h : n < 65536) :
    hex4Val (hexDigitChar (n / 4096 % 16)) (hexDigitChar (n / 256 % 16))
      (hexDigitChar (n / 16 % 16)) (hexDigitChar (n % 16)) = some n := by
  simp [hex4Val, hexDigVal_hexDigitChar _ (by omega : n / 4096 % 16 < 16),
    hexDigVal_hexDigitChar _ (by omega : n / 256 % 16 < 16),
    hexDigVal_hexDigitChar _ (by omega : n / 16 % 16 < 16),
    hexDigVal_hexDigitChar _ (by omega : n % 16 < 16)]
  omega


theorem parseStrBodyF_escaped :
    ∀ (l : List Char) (f : Nat) (acc rest : List Char), l.length + 1 ≤ f →
      parseStrBodyF f acc (l.flatMap escapeChar ++ '"' :: rest) =
        some (⟨acc.reverse ++ l⟩, rest) := by
  intro l
  induction l with
  | nil =>
      intro f acc rest hf
      cases f with
      | zero => omega
      | succ f =>
          simp only [List.flatMap_nil, List.nil_append, parseStrBodyF,
            List.append_nil]
  | cons c t ih =>
      intro f acc rest hf
      cases f with
      | zero => simp at hf
      | succ f =>
          have hf2 : t.length + 1 ≤ f := by
            simp only [List.length_cons] at hf
            omega
          have hacc : ∀ ch : Char, ((ch :: acc).reverse : List Char) ++ t =
              acc.reverse ++ ch :: t := by
            intro ch
            simp
          by_cases h1 : c = '"'
          · subst h1
            have hstep : parseStrBodyF (f + 1) acc
                (('"' :: t).flatMap escapeChar ++ '"' :: rest) =
                parseStrBodyF f ('"' :: acc) (t.flatMap escapeChar ++ '"' :: rest) := rfl
            rw [hstep, ih f _ rest hf2, hacc]
          · by_cases h2 : c = '\\'
            · subst h2
              have hstep : parseStrBodyF (f + 1) acc
                  (('\\' :: t).flatMap escapeChar ++ '"' :: rest) =
                  parseStrBodyF f ('\\' :: acc) (t.flatMap escapeChar ++ '"' :: rest) := rfl
              rw [hstep, ih f _ rest hf2, hacc]
            · by_cases h3 : c = '\n'
              · subst h3
                have hstep : parseStrBodyF (f + 1) acc
                    (('\n' :: t).flatMap escapeChar ++ '"' :: rest) =
                    parseStrBodyF f ('\n' :: acc) (t.flatMap escapeChar ++ '"' :: rest) := rfl
                rw [hstep, ih f _ rest hf2, hacc]
              · by_cases h4 : c = '\r'
                · subst h4
                  have hstep : parseStrBodyF (f + 1) acc
                      (('\r' :: t).flatMap escapeChar ++ '"' :: rest) =
                      parseStrBodyF f ('\r' :: acc) (t.flatMap escapeChar ++ '"' :: rest) := rfl
                  rw [hstep, ih f _ rest hf2, hacc]
                · by_cases h5 : c = '\t'
                  · subst h5
                    have hstep : parseStrBodyF (f + 1) acc
                        (('\t' :: t).flatMap escapeChar ++ '"' :: rest) =
                        parseStrBodyF f ('\t' :: acc) (t.flatMap escapeChar ++ '"' :: rest) := rfl
                    rw [hstep, ih f _ rest hf2, hacc]
                  · by_cases h6 : c.toNat < 0x20 ∨ c = '<' ∨ c = '>' ∨ c = '&' ∨
                        c.toNat = 0x2028 ∨ c.toNat = 0x2029
                    · -- the \uXXXX escape
                      have hn : c.toNat < 65536 ∧ ¬(0xD800 ≤ c.toNat ∧ c.toNat < 0xDC00) ∧
                          ¬(0xDC00 ≤ c.toNat ∧ c.toNat < 0xE000) := by
                        rcases h6 with h | h | h | h | h | h
                        · omega
                        · rw [h]; refine ⟨by decide, by decide, by decide⟩
                        · rw [h]; refine ⟨by decide, by decide, by decide⟩
                        · rw [h]; refine ⟨by decide, by decide, by decide⟩
                        · omega
                        · omega
                      have hesc : escapeChar c = '\\' :: 'u' :: hex4Chars c.toNat := by
                        rw [escapeChar, if_neg h1, if_neg h2, if_neg h3, if_neg h4,
                          if_neg h5, if_pos h6]
                      have hshape : (c :: t).flatMap escapeChar ++ '"' :: rest =
                          '\\' :: 'u' :: hexDigitChar (c.toNat / 4096 % 16) ::
                            hexDigitChar (c.toNat / 256 % 16) ::
                            hexDigitChar (c.toNat / 16 % 16) ::
                            hexDigitChar (c.toNat % 16) ::
                            (t.flatMap escapeChar ++ '"' :: rest) := by
                        simp only [List.flatMap_cons, hesc, hex4Chars, List.cons_append,
                          List.append_assoc, List.nil_append]
                      rw [hshape]
                      simp only [parseStrBodyF]
                      rw [hex4Val_hex4Chars c.toNat hn.1]
                      simp only []
                      rw [if_neg hn.2.1, if_neg hn.2.2]
                      rw [Char.ofNat_toNat]
                      rw [ih f _ rest hf2, hacc]
                    · -- raw character
                      have hesc : escapeChar c = [c] := by
                        rw [escapeChar, if_neg h1, if_neg h2, if_neg h3, if_neg h4,
                          if_neg h5, if_neg h6]
                      have hshape : (c :: t).flatMap escapeChar ++ '"' :: rest =
                          c :: (t.flatMap escapeChar ++ '"' :: rest) := by
                        simp only [List.flatMap_cons, hesc, List.cons_append,
                          List.singleton_append, List.append_assoc, List.nil_append]
                      rw [hshape]
                      have hctrl : ¬c.toNat < 0x20 := by
                        intro hc
                        exact h6 (Or.inl hc)
                      -- reduce the parser one step on a plain character
                      simp only [parseStrBodyF]
                      split
                      · rename_i r heq
                        injection heq with hx
                        exact absurd hx h1
                      · rename_i a b c2 d2 r heq
                        injection heq with hx
                        exact absurd hx h2
                      · rename_i e2 r heq
                        injection heq with hx
                        exact absurd hx h2
                      · rename_i c2 r heq
                        injection heq with hx1 hx2
                        subst hx1
                        subst hx2
                        rw [if_neg hctrl, ih f _ rest hf2, hacc]
                      · rename_i heq
                        exact absurd heq (by simp)


theorem flatMap_escapeChar_len (l : List Char) :
    l.length ≤ (l.flatMap escapeChar).length := by
  induction l with
  | nil => simp
  | cons c t ih =>
      rw [List.flatMap_cons, List.length_append, List.length_cons]
      have h1 : 1 ≤ (escapeChar c).length := by
        rw [escapeChar]
        repeat' split
        all_goals simp
      omega

theorem parseStrBody_marshal (s : String) (rest : List Char) :
    parseStrBody [] (s.toList.flatMap escapeChar ++ '"' :: rest) = some (s, rest) := by
  rw [parseStrBody]
  have hfuel : s.toList.length + 1 ≤
      (s.toList.flatMap escapeChar ++ '"' :: rest).length + 1 := by
    rw [List.length_append]
    have := flatMap_escapeChar_len s.toList
    simp only [List.length_cons]
    omega
  rw [parseStrBodyF_escaped s.toList _ [] rest hfuel]
  rfl

theorem szV_pos (v : GoVal) : 1 ≤ szV v := by
  cases v <;> simp [szV]

theorem restStop_comma (r : List Char) : restStop (',' :: r) = true := rfl

theorem restStop_rbracket (r : List Char) : restStop (']' :: r) = true := rfl

theorem restStop_rbrace (r : List Char) : restStop (rbrace :: r) = true := rfl

theorem decChars_shape (c0 : Dec) :
    ∃ c l, decChars c0 = c :: l ∧ (c = '-' ∨ isDigitChar c = true) := by
  rw [decChars]
  by_cases he : 0 ≤ c0.e
  · rw [if_pos he]
    obtain ⟨hval, hdig, hne⟩ := natDigits_spec c0.m.natAbs
    by_cases hmn : c0.m < 0
    · rw [intChars, if_pos hmn]
      exact ⟨'-', _, rfl, Or.inl rfl⟩
    · rw [intChars, if_neg hmn]
      obtain ⟨c, l, hcl⟩ : ∃ c l, natDigits c0.m.natAbs = c :: l := by
        cases h : natDigits c0.m.natAbs with
        | nil => exact absurd h hne
        | cons a b => exact ⟨a, b, rfl⟩
      have hc : isDigitChar c = true := hdig c (hcl ▸ List.mem_cons_self _ _)
      refine ⟨c, l ++ List.replicate c0.e.toNat '0', ?_, Or.inr hc⟩
      show natDigits c0.m.natAbs ++ List.replicate c0.e.toNat '0' =
          c :: (l ++ List.replicate c0.e.toNat '0')
      rw [hcl]
      rfl
  · rw [if_neg he]
    obtain ⟨hval, hdig, hne⟩ := natDigits_spec c0.m.natAbs
    set k := (-c0.e).toNat with hk
    set ds := natDigits c0.m.natAbs with hds
    set pad := List.replicate (k + 1 - ds.length) '0' ++ ds with hpad
    have hpadlen : k + 1 ≤ pad.length := by
      rw [hpad]
      simp only [List.length_append, List.length_replicate]
      have : ds.length ≠ 0 := fun h0 => hne (List.length_eq_zero.mp h0)
      omega
    have hpadne : pad ≠ [] := by
      intro h0
      rw [h0] at hpadlen
      simp at hpadlen
    have hpaddig : ∀ x ∈ pad, isDigitChar x = true := by
      intro x hx
      rcases List.mem_append.mp hx with hx | hx
      · rw [List.eq_of_mem_replicate hx]
        decide
      · exact hdig x hx
    by_cases hmn : c0.m < 0
    · rw [if_pos hmn]
      exact ⟨'-', _, rfl, Or.inl rfl⟩
    · rw [if_neg hmn]
      obtain ⟨c, l, hcl⟩ : ∃ c l, pad.take (pad.length - k) = c :: l := by
        cases h : pad.take (pad.length - k) with
        | nil =>
            have := congrArg List.length h
            rw [List.length_take] at this
            simp at this
            omega
        | cons a b => exact ⟨a, b, rfl⟩
      have hc : isDigitChar c = true :=
        hpaddig c (List.mem_of_mem_take (hcl ▸ List.mem_cons_self _ _))
      refine ⟨c, l ++ '.' :: pad.drop (pad.length - k), ?_, Or.inr hc⟩
      show pad.take (pad.length - k) ++ '.' :: pad.drop (pad.length - k) =
          c :: (l ++ '.' :: pad.drop (pad.length - k))
      rw [hcl]
      rfl

theorem marshalRaw_shape (v : GoVal) :
    ∃ c l, marshalRaw v = c :: l ∧ isWsChar c = false ∧ c ≠ ']' ∧
      c ≠ rbrace ∧ c ≠ ',' := by
  have hdigfacts : ∀ c : Char, (c = '-' ∨ isDigitChar c = true) →
      isWsChar c = false ∧ c ≠ ']' ∧ c ≠ rbrace ∧ c ≠ ',' := by
    intro c hc
    rcases hc with rfl | hc
    · exact ⟨by decide, by decide, by decide, by decide⟩
    · simp only [isDigitChar, Bool.and_eq_true, decide_eq_true_eq] at hc
      refine ⟨?_, ?_, ?_, ?_⟩
      · simp only [isWsChar, Bool.or_eq_false_iff, beq_eq_false_iff_ne]
        refine ⟨⟨⟨?_, ?_⟩, ?_⟩, ?_⟩ <;>
          (intro h0; rw [h0] at hc; exact absurd hc (by decide))
      · intro h0; rw [h0] at hc; exact absurd hc (by decide)
      · intro h0; rw [h0] at hc; exact absurd hc (by decide)
      · intro h0; rw [h0] at hc; exact absurd hc (by decide)
  match v with
  | .vnil => exact ⟨'n', _, rfl, by decide, by decide, by decide, by decide⟩
  | .vbool true => exact ⟨'t', _, rfl, by decide, by decide, by decide, by decide⟩
  | .vbool false => exact ⟨'f', _, rfl, by decide, by decide, by decide, by decide⟩
  | .vstr s => exact ⟨'"', _, rfl, by decide, by decide, by decide, by decide⟩
  | .varr xs => exact ⟨'[', _, rfl, by decide, by decide, by decide, by decide⟩
  | .vobj kvs => exact ⟨lbrace, _, rfl, by decide, by decide, by decide, by decide⟩
  | .vint n =>
      by_cases hmn : n < 0
      · have hshape : marshalRaw (GoVal.vint n) = '-' :: natDigits n.natAbs := by
          show intChars n = _
          rw [intChars, if_pos hmn]
          rfl
        exact ⟨'-', _, hshape, by decide, by decide, by decide, by decide⟩
      · obtain ⟨hval, hdig, hne⟩ := natDigits_spec n.natAbs
        obtain ⟨c, l, hcl⟩ : ∃ c l, natDigits n.natAbs = c :: l := by
          cases h : natDigits n.natAbs with
          | nil => exact absurd h hne
          | cons a b => exact ⟨a, b, rfl⟩
        have hc : isDigitChar c = true := hdig c (hcl ▸ List.mem_cons_self _ _)
        obtain ⟨h1, h2, h3, h4⟩ := hdigfacts c (Or.inr hc)
        refine ⟨c, l, ?_, h1, h2, h3, h4⟩
        show intChars n = _
        rw [intChars, if_neg hmn, hcl]
        simp
  | .vfloat d =>
      obtain ⟨c, l, hcl, hc⟩ := decChars_shape (Dec.norm d)
      obtain ⟨h1, h2, h3, h4⟩ := hdigfacts c hc
      exact ⟨c, l, hcl, h1, h2, h3, h4⟩

theorem rtNumObj_keys (kvs : List (String × GoVal)) :
    (rtNumObj kvs).map Prod.fst = kvs.map Prod.fst := by
  induction kvs with
  | nil => rfl
  | cons kv t ih =>
      obtain ⟨k, v⟩ := kv
      simp [rtNumObj, ih]

theorem noDupKeys_iff (l : List String) : noDupKeys l = true ↔ l.Nodup := by
  induction l with
  | nil => simp [noDupKeys]
  | cons k t ih =>
      rw [noDupKeys, Bool.and_eq_true, decide_eq_true_eq, ih, List.nodup_cons]
      constructor
      · rintro ⟨h1, h2⟩
        exact ⟨fun hmem => h1 (List.elem_iff.mpr hmem), h2⟩
      · rintro ⟨h1, h2⟩
        exact ⟨fun hc => h1 (List.elem_iff.mp hc), h2⟩

theorem setKV_append_fresh (acc : List (String × GoVal)) (k : String) (v : GoVal)
    (h : k ∉ acc.map Prod.fst) : setKV acc k v = acc ++ [(k, v)] := by
  induction acc with
  | nil => rfl
  | cons kv t ih =>
      obtain ⟨k0, v0⟩ := kv
      have hk0 : k0 ≠ k := by
        intro h0
        exact h (h0 ▸ List.mem_cons_self _ _)
      rw [setKV.eq_def]
      simp only [if_neg hk0]
      rw [ih (fun hm => h (List.mem_cons_of_mem _ hm))]
      simp

theorem objFromPairs_nodup (ps : List (String × GoVal))
    (h : (ps.map Prod.fst).Nodup) : objFromPairs ps = ps := by
  have hgen : ∀ (ps acc : List (String × GoVal)),
      (acc.map Prod.fst ++ ps.map Prod.fst).Nodup →
      ps.foldl (fun a kv => setKV a kv.1 kv.2) acc = acc ++ ps := by
    intro ps
    induction ps with
    | nil => intro acc _; simp
    | cons kv t ih =>
        intro acc hnd
        obtain ⟨k, v⟩ := kv
        simp only [List.foldl_cons]
        have hk : k ∉ acc.map Prod.fst := by
          simp only [List.map_cons, List.nodup_append] at hnd
          intro hmem
          exact hnd.2.2 hmem (List.mem_cons_self _ _)
        rw [setKV_append_fresh acc k v hk]
        rw [ih (acc ++ [(k, v)]) (by simpa using hnd)]
        simp
  have h2 := hgen ps [] (by simpa using h)
  rw [objFromPairs, h2]
  simp


theorem skipWsL_cons (c : Char) (l : List Char) (h : isWsChar c = false) :
    skipWsL (c :: l) = c :: l := by
  simp [skipWsL, h]

theorem intChars_shape (n : Int) :
    ∃ c l, intChars n = c :: l ∧ (c = '-' ∨ isDigitChar c = true) := by
  by_cases hmn : n < 0
  · refine ⟨'-', natDigits n.natAbs, ?_, Or.inl rfl⟩
    rw [intChars, if_pos hmn]
    rfl
  · obtain ⟨hval, hdig, hne⟩ := natDigits_spec n.natAbs
    obtain ⟨c, l, hcl⟩ : ∃ c l, natDigits n.natAbs = c :: l := by
      cases h : natDigits n.natAbs with
      | nil => exact absurd h hne
      | cons a b => exact ⟨a, b, rfl⟩
    refine ⟨c, l, ?_, Or.inr (hdig c (hcl ▸ List.mem_cons_self _ _))⟩
    rw [intChars, if_neg hmn, hcl]
    rfl

theorem pVal_step_num (f : Nat) (c : Char) (l : List Char)
    (hc : c = '-' ∨ isDigitChar c = true) (d : Dec) (r2 : List Char)
    (hnum : parseNumTok (c :: l) = some (d, r2)) :
    pVal (f + 1) (c :: l) = some (.vfloat d, r2) := by
  have hws : isWsChar c = false := by
    rcases hc with rfl | hc
    · decide
    · simp only [isDigitChar, Bool.and_eq_true, decide_eq_true_eq] at hc
      simp only [isWsChar, Bool.or_eq_false_iff, beq_eq_false_iff_ne]
      refine ⟨⟨⟨?_, ?_⟩, ?_⟩, ?_⟩ <;>
        (intro h0; rw [h0] at hc; exact absurd hc (by decide))
  have hlit : c ≠ 'n' ∧ c ≠ 't' ∧ c ≠ 'f' ∧ c ≠ '"' ∧ c ≠ '[' ∧ c ≠ lbrace := by
    rcases hc with rfl | hc
    · exact ⟨by decide, by decide, by decide, by decide, by decide, by decide⟩
    · simp only [isDigitChar, Bool.and_eq_true, decide_eq_true_eq] at hc
      refine ⟨?_, ?_, ?_, ?_, ?_, ?_⟩ <;>
        (intro h0; rw [h0] at hc; exact absurd hc (by decide))
  have hcond : (c = '-' || isDigitChar c) = true := by
    rcases hc with rfl | hc
    · rfl
    · rw [hc]
      simp
  simp only [pVal]
  rw [skipWsL_cons c l hws]
  split
  · rename_i r heq
    injection heq with hx
    exact absurd hx hlit.1
  · rename_i r heq
    injection heq with hx
    exact absurd hx hlit.2.1
  · rename_i r heq
    injection heq with hx
    exact absurd hx hlit.2.2.1
  · rename_i r heq
    injection heq with hx
    exact absurd hx hlit.2.2.2.1
  · rename_i r heq
    injection heq with hx
    exact absurd hx hlit.2.2.2.2.1
  · rename_i c2 r heq
    injection heq with hx1 hx2
    subst hx1
    subst hx2
    rw [if_neg hlit.2.2.2.2.2, if_pos hcond, hnum]
  · rename_i heq
    exact absurd heq (by simp)


theorem pVal_marshal_main : ∀ f : Nat,
    (∀ (v : GoVal) (rest : List Char), wfKeys v = true → szV v ≤ f →
      restStop rest = true →
      pVal f (marshalRaw v ++ rest) = some (rtNum v, rest)) ∧
    (∀ (xs : List GoVal) (rest : List Char), xs ≠ [] → wfKeysArr xs = true →
      szElems xs ≤ f → restStop rest = true →
      pElems f (joinComma (marshalArr xs) ++ ']' :: rest) = some (rtNumArr xs, rest)) ∧
    (∀ (kvs : List (String × GoVal)) (rest : List Char), kvs ≠ [] →
      wfKeysObj kvs = true → szMembers kvs ≤ f → restStop rest = true →
      pMembers f (joinComma (marshalFields kvs) ++ rbrace :: rest) =
        some (rtNumObj kvs, rest)) := by
  intro f
  induction f using Nat.strong_induction_on with
  | _ f ih =>
  match f with
  | 0 =>
      refine ⟨?_, ?_, ?_⟩
      · intro v rest _ hsz _
        have := szV_pos v
        omega
      · intro xs rest hne _ hsz _
        cases xs with
        | nil => exact absurd rfl hne
        | cons x t =>
            have := szV_pos x
            simp only [szElems] at hsz
            omega
      · intro kvs rest hne _ hsz _
        cases kvs with
        | nil => exact absurd rfl hne
        | cons kv t =>
            have := szV_pos kv.2
            simp only [szMembers] at hsz
            omega
  | f + 1 =>
  have ihf := ih f (Nat.lt_succ_self f)
  refine ⟨?_, ?_, ?_⟩
  · -- pVal
    intro v rest hwf hsz hstop
    match v with
    | .vnil => rfl
    | .vbool true => rfl
    | .vbool false => rfl
    | .vint n =>
        obtain ⟨c, l, hcl, hc⟩ := intChars_shape n
        have hlist : marshalRaw (.vint n) ++ rest = c :: (l ++ rest) := by
          show intChars n ++ rest = _
          rw [hcl]
          rfl
        rw [hlist]
        have hnum : parseNumTok (c :: (l ++ rest)) = some (Dec.norm ⟨n, 0⟩, rest) := by
          rw [show c :: (l ++ rest) = intChars n ++ rest from by rw [hcl]; rfl]
          exact parseNumTok_intChars n rest hstop
        exact pVal_step_num f c (l ++ rest) hc _ rest hnum
    | .vfloat d =>
        obtain ⟨c, l, hcl, hc⟩ := decChars_shape (Dec.norm d)
        have hlist : marshalRaw (.vfloat d) ++ rest = c :: (l ++ rest) := by
          show floatChars d ++ rest = _
          rw [floatChars, hcl]
          rfl
        rw [hlist]
        have hnum : parseNumTok (c :: (l ++ rest)) = some (Dec.norm d, rest) := by
          rw [show c :: (l ++ rest) = decChars (Dec.norm d) ++ rest from by
            rw [hcl]; rfl]
          exact parseNumTok_decChars d rest hstop
        exact pVal_step_num f c (l ++ rest) hc _ rest hnum
    | .vstr s =>
        have hlist : marshalRaw (.vstr s) ++ rest =
            '"' :: (s.toList.flatMap escapeChar ++ '"' :: rest) := by
          show marshalStr s ++ rest = _
          rw [marshalStr]
          simp
        rw [hlist]
        have hstep : pVal (f + 1) ('"' :: (s.toList.flatMap escapeChar ++ '"' :: rest)) =
            (match parseStrBody [] (s.toList.flatMap escapeChar ++ '"' :: rest) with
             | some (t, r2) => some (GoVal.vstr t, r2)
             | none => none) := rfl
        rw [hstep, parseStrBody_marshal s rest]
        rfl
    | .varr xs =>
        cases xs with
        | nil => rfl
        | cons x t =>
            obtain ⟨c, l, hcl, hws, hbr1, hbr2, hcm⟩ := marshalRaw_shape x
            have hJC : ∃ K, joinComma (marshalArr (x :: t)) = marshalRaw x ++ K := by
              cases t with
              | nil => exact ⟨[], by simp [marshalArr, joinComma]⟩
              | cons y t2 => exact ⟨',' :: joinComma (marshalArr (y :: t2)), rfl⟩
            obtain ⟨K, hK⟩ := hJC
            have hlist : marshalRaw (.varr (x :: t)) ++ rest =
                '[' :: (joinComma (marshalArr (x :: t)) ++ ']' :: rest) := by
              show '[' :: (joinComma (marshalArr (x :: t)) ++ [']']) ++ rest = _
              simp
            rw [hlist]
            have hskip : skipWsL (joinComma (marshalArr (x :: t)) ++ ']' :: rest) =
                joinComma (marshalArr (x :: t)) ++ ']' :: rest := by
              rw [hK, hcl]
              simp only [List.cons_append, List.append_assoc]
              exact skipWsL_cons c _ hws
            have hstep : pVal (f + 1)
                ('[' :: (joinComma (marshalArr (x :: t)) ++ ']' :: rest)) =
                (match skipWsL (joinComma (marshalArr (x :: t)) ++ ']' :: rest) with
                 | ']' :: r2 => some (GoVal.varr [], r2)
                 | cs2 =>
                     match pElems f cs2 with
                     | some (vs, r2) => some (GoVal.varr vs, r2)
                     | none => none) := rfl
            rw [hstep, hskip]
            split
            · rename_i r2 heq
              rw [hK, hcl] at heq
              simp only [List.cons_append, List.append_assoc] at heq
              injection heq with hx
              exact absurd hx hbr1
            · have hpe := ihf.2.1 (x :: t) rest (by simp) hwf
                (by simp only [szV] at hsz; omega) hstop
              rw [hpe]
              rfl
    | .vobj kvs =>
        cases kvs with
        | nil => rfl
        | cons kv t =>
            obtain ⟨k, v0⟩ := kv
            have hJC : ∃ K, joinComma (marshalFields ((k, v0) :: t)) =
                (marshalStr k ++ ':' :: marshalRaw v0) ++ K := by
              cases t with
              | nil => exact ⟨[], by simp [marshalFields, joinComma]⟩
              | cons kv2 t2 => exact ⟨',' :: joinComma (marshalFields (kv2 :: t2)), rfl⟩
            obtain ⟨K, hK⟩ := hJC
            have hlist : marshalRaw (.vobj ((k, v0) :: t)) ++ rest =
                lbrace :: (joinComma (marshalFields ((k, v0) :: t)) ++ rbrace :: rest) := by
              show lbrace :: (joinComma (marshalFields ((k, v0) :: t)) ++ [rbrace]) ++ rest = _
              simp
            rw [hlist]
            have hskip : skipWsL (joinComma (marshalFields ((k, v0) :: t)) ++ rbrace :: rest) =
                joinComma (marshalFields ((k, v0) :: t)) ++ rbrace :: rest := by
              rw [hK, marshalStr]
              simp only [List.cons_append, List.append_assoc]
              exact skipWsL_cons '"' _ (by decide)
            have hstep : pVal (f + 1)
                (lbrace :: (joinComma (marshalFields ((k, v0) :: t)) ++ rbrace :: rest)) =
                (match skipWsL (joinComma (marshalFields ((k, v0) :: t)) ++ rbrace :: rest) with
                 | c2 :: r2 =>
                     if c2 = rbrace then some (GoVal.vobj [], r2)
                     else
                       match pMembers f (c2 :: r2) with
                       | some (ms, r3) => some (GoVal.vobj (objFromPairs ms), r3)
                       | none => none
                 | [] => none) := rfl
            rw [hstep, hskip]
            split
            · rename_i c2 r2 heq
              have heq2 := heq
              rw [hK, marshalStr] at heq2
              simp only [List.cons_append, List.append_assoc] at heq2
              injection heq2 with h1 h2
              subst h1
              rw [if_neg (by decide : ¬('"' : Char) = rbrace), ← heq]
              have hnd : (((k, v0) :: t).map Prod.fst).Nodup ∧
                  wfKeysObj ((k, v0) :: t) = true := by
                have h := hwf
                rw [wfKeys, Bool.and_eq_true] at h
                exact ⟨(noDupKeys_iff _).mp h.1, h.2⟩
              have hpm := ihf.2.2 ((k, v0) :: t) rest (by simp) hnd.2
                (by simp only [szV] at hsz; omega) hstop
              rw [hpm]
              show some (GoVal.vobj (objFromPairs (rtNumObj ((k, v0) :: t))), rest) =
                some (rtNum (GoVal.vobj ((k, v0) :: t)), rest)
              rw [objFromPairs_nodup _ (by rw [rtNumObj_keys]; exact hnd.1)]
              rfl
            · rename_i heq
              rw [hK, marshalStr] at heq
              simp only [List.cons_append, List.append_assoc] at heq
              exact absurd heq (by simp)
  · -- pElems
    intro xs rest hne hwf hsz hstop
    cases xs with
    | nil => exact absurd rfl hne
    | cons x t =>
        have hwfx : wfKeys x = true ∧ wfKeysArr t = true := by
          have h := hwf
          rw [wfKeysArr, Bool.and_eq_true] at h
          exact h
        cases t with
        | nil =>
            have hcs : joinComma (marshalArr [x]) ++ ']' :: rest =
                marshalRaw x ++ ']' :: rest := rfl
            rw [hcs]
            have hstep : pElems (f + 1) (marshalRaw x ++ ']' :: rest) =
                (match pVal f (marshalRaw x ++ ']' :: rest) with
                 | none => none
                 | some (v, r) =>
                     match skipWsL r with
                     | ',' :: r2 =>
                         (match pElems f r2 with
                          | some (vs, r3) => some (v :: vs, r3)
                          | none => none)
                     | ']' :: r2 => some ([v], r2)
                     | _ => none) := rfl
            rw [hstep, ihf.1 x (']' :: rest) hwfx.1
              (by simp only [szElems] at hsz; omega) (restStop_rbracket rest)]
            rfl
        | cons y t2 =>
            have hcs : joinComma (marshalArr (x :: y :: t2)) ++ ']' :: rest =
                marshalRaw x ++ (',' :: (joinComma (marshalArr (y :: t2)) ++ ']' :: rest)) := by
              show (marshalRaw x ++ ',' :: joinComma (marshalArr (y :: t2))) ++ ']' :: rest = _
              simp
            rw [hcs]
            have hstep : pElems (f + 1)
                (marshalRaw x ++ (',' :: (joinComma (marshalArr (y :: t2)) ++ ']' :: rest))) =
                (match pVal f (marshalRaw x ++
                    (',' :: (joinComma (marshalArr (y :: t2)) ++ ']' :: rest))) with
                 | none => none
                 | some (v, r) =>
                     match skipWsL r with
                     | ',' :: r2 =>
                         (match pElems f r2 with
                          | some (vs, r3) => some (v :: vs, r3)
                          | none => none)
                     | ']' :: r2 => some ([v], r2)
                     | _ => none) := rfl
            rw [hstep, ihf.1 x _ hwfx.1
              (by
                have hh : szElems (x :: y :: t2) = 1 + szV x + szElems (y :: t2) := rfl
                rw [hh] at hsz
                omega) (restStop_comma _)]
            show (match pElems f (joinComma (marshalArr (y :: t2)) ++ ']' :: rest) with
                  | some (vs, r3) => some (rtNum x :: vs, r3)
                  | none => none) = some (rtNumArr (x :: y :: t2), rest)
            rw [ihf.2.1 (y :: t2) rest (by simp) hwfx.2
              (by
                have hh : szElems (x :: y :: t2) = 1 + szV x + szElems (y :: t2) := rfl
                rw [hh] at hsz
                omega) hstop]
            rfl
  · -- pMembers
    intro kvs rest hne hwf hsz hstop
    cases kvs with
    | nil => exact absurd rfl hne
    | cons kv t =>
        obtain ⟨k, v0⟩ := kv
        have hwfx : wfKeys v0 = true ∧ wfKeysObj t = true := by
          have h := hwf
          rw [wfKeysObj, Bool.and_eq_true] at h
          exact h
        cases t with
        | nil =>
            have hcs : joinComma (marshalFields [(k, v0)]) ++ rbrace :: rest =
                '"' :: (k.toList.flatMap escapeChar ++
                  '"' :: (':' :: (marshalRaw v0 ++ rbrace :: rest))) := by
              show (marshalStr k ++ ':' :: marshalRaw v0) ++ rbrace :: rest = _
              rw [marshalStr]
              simp
            rw [hcs]
            have hstep : pMembers (f + 1)
                ('"' :: (k.toList.flatMap escapeChar ++
                  '"' :: (':' :: (marshalRaw v0 ++ rbrace :: rest)))) =
                (match parseStrBody [] (k.toList.flatMap escapeChar ++
                    '"' :: (':' :: (marshalRaw v0 ++ rbrace :: rest))) with
                 | none => none
                 | some (key, r1) =>
                     match skipWsL r1 with
                     | ':' :: r2 =>
                         (match pVal f r2 with
                          | none => none
                          | some (v, r3) =>
                              match skipWsL r3 with
                              | ',' :: r4 =>
                                  (match pMembers f r4 with
                                   | some (ms, r5) => some ((key, v) :: ms, r5)
                                   | none => none)
                              | c :: r4 => if c = rbrace then some ([(key, v)], r4) else none
                              | [] => none)
                     | _ => none) := rfl
            rw [hstep, parseStrBody_marshal k _]
            show (match pVal f (marshalRaw v0 ++ rbrace :: rest) with
                  | none => none
                  | some (v, r3) =>
                      match skipWsL r3 with
                      | ',' :: r4 =>
                          (match pMembers f r4 with
                           | some (ms, r5) => some ((k, v) :: ms, r5)
                           | none => none)
                      | c :: r4 => if c = rbrace then some ([(k, v)], r4) else none
                      | [] => none) = some (rtNumObj [(k, v0)], rest)
            rw [ihf.1 v0 _ hwfx.1 (by simp only [szMembers] at hsz; omega)
              (restStop_rbrace rest)]
            rfl
        | cons kv2 t2 =>
            have hcs : joinComma (marshalFields ((k, v0) :: kv2 :: t2)) ++ rbrace :: rest =
                '"' :: (k.toList.flatMap escapeChar ++
                  '"' :: (':' :: (marshalRaw v0 ++
                    (',' :: (joinComma (marshalFields (kv2 :: t2)) ++ rbrace :: rest))))) := by
              show ((marshalStr k ++ ':' :: marshalRaw v0) ++
                  ',' :: joinComma (marshalFields (kv2 :: t2))) ++ rbrace :: rest = _
              rw [marshalStr]
              simp
            rw [hcs]
            have hstep : pMembers (f + 1)
                ('"' :: (k.toList.flatMap escapeChar ++
                  '"' :: (':' :: (marshalRaw v0 ++
                    (',' :: (joinComma (marshalFields (kv2 :: t2)) ++ rbrace :: rest)))))) =
                (match parseStrBody [] (k.toList.flatMap escapeChar ++
                    '"' :: (':' :: (marshalRaw v0 ++
                      (',' :: (joinComma (marshalFields (kv2 :: t2)) ++ rbrace :: rest))))) with
                 | none => none
                 | some (key, r1) =>
                     match skipWsL r1 with
                     | ':' :: r2 =>
                         (match pVal f r2 with
                          | none => none
                          | some (v, r3) =>
                              match skipWsL r3 with
                              | ',' :: r4 =>
                                  (match pMembers f r4 with
                                   | some (ms, r5) => some ((key, v) :: ms, r5)
                                   | none => none)
                              | c :: r4 => if c = rbrace then some ([(key, v)], r4) else none
                              | [] => none)
                     | _ => none) := rfl
            rw [hstep, parseStrBody_marshal k _]
            show (match pVal f (marshalRaw v0 ++
                    (',' :: (joinComma (marshalFields (kv2 :: t2)) ++ rbrace :: rest))) with
                  | none => none
                  | some (v, r3) =>
                      match skipWsL r3 with
                      | ',' :: r4 =>
                          (match pMembers f r4 with
                           | some (ms, r5) => some ((k, v) :: ms, r5)
                           | none => none)
                      | c :: r4 => if c = rbrace then some ([(k, v)], r4) else none
                      | [] => none) = some (rtNumObj ((k, v0) :: kv2 :: t2), rest)
            rw [ihf.1 v0 _ hwfx.1 (by
                have hh : szMembers ((k, v0) :: kv2 :: t2) =
                    1 + szV v0 + szMembers (kv2 :: t2) := rfl
                rw [hh] at hsz
                omega)
              (restStop_comma _)]
            show (match pMembers f (joinComma (marshalFields (kv2 :: t2)) ++ rbrace :: rest) with
                  | some (ms, r5) => some ((k, rtNum v0) :: ms, r5)
                  | none => none) = some (rtNumObj ((k, v0) :: kv2 :: t2), rest)
            rw [ihf.2.2 (kv2 :: t2) rest (by simp) hwfx.2
              (by
                have hh : szMembers ((k, v0) :: kv2 :: t2) =
                    1 + szV v0 + szMembers (kv2 :: t2) := rfl
                rw [hh] at hsz
                omega) hstop]
            rfl


theorem marshalRaw_ne_nil (v : GoVal) : marshalRaw v ≠ [] := by
  obtain ⟨c, l, hcl, _⟩ := marshalRaw_shape v
  rw [hcl]
  simp

theorem szV_le_marshal_len : ∀ n : Nat,
    (∀ v : GoVal, szV v ≤ n → szV v ≤ (marshalRaw v).length) ∧
    (∀ xs : List GoVal, xs ≠ [] → szElems xs ≤ n →
      szElems xs ≤ (joinComma (marshalArr xs)).length + 1) ∧
    (∀ kvs : List (String × GoVal), kvs ≠ [] → szMembers kvs ≤ n →
      szMembers kvs ≤ (joinComma (marshalFields kvs)).length + 1) := by
  intro n
  induction n using Nat.strong_induction_on with
  | _ n ih =>
  match n with
  | 0 =>
      refine ⟨?_, ?_, ?_⟩
      · intro v hsz
        have := szV_pos v
        omega
      · intro xs hne hsz
        cases xs with
        | nil => exact absurd rfl hne
        | cons x t =>
            have := szV_pos x
            have hh : szElems (x :: t) = 1 + szV x + szElems t := rfl
            omega
      · intro kvs hne hsz
        cases kvs with
        | nil => exact absurd rfl hne
        | cons kv t =>
            have := szV_pos kv.2
            have hh : szMembers (kv :: t) = 1 + szV kv.2 + szMembers t := rfl
            omega
  | n + 1 =>
  have ihn := ih n (Nat.lt_succ_self n)
  refine ⟨?_, ?_, ?_⟩
  · intro v hsz
    match v with
    | .vnil => decide
    | .vbool true => decide
    | .vbool false => decide
    | .vint m =>
        have h1 : (marshalRaw (.vint m)).length = (intChars m).length := rfl
        obtain ⟨c, l, hcl, _⟩ := intChars_shape m
        have h2 : szV (.vint m) = 1 := rfl
        rw [h1, h2, hcl]
        simp
    | .vfloat d =>
        have h1 : (marshalRaw (.vfloat d)).length = (decChars (Dec.norm d)).length := rfl
        obtain ⟨c, l, hcl, _⟩ := decChars_shape (Dec.norm d)
        have h2 : szV (.vfloat d) = 1 := rfl
        rw [h1, h2, hcl]
        simp
    | .vstr s =>
        have h2 : szV (.vstr s) = 1 := rfl
        have h1 : (marshalRaw (.vstr s)).length = (marshalStr s).length := rfl
        rw [h1, h2, marshalStr]
        simp
    | .varr xs =>
        cases xs with
        | nil => decide
        | cons x t =>
            have h1 : (marshalRaw (.varr (x :: t))).length =
                (joinComma (marshalArr (x :: t))).length + 2 := by
              show ('[' :: (joinComma (marshalArr (x :: t)) ++ [']'])).length = _
              simp
            have h2 : szV (.varr (x :: t)) = 1 + szElems (x :: t) := rfl
            have h3 := ihn.2.1 (x :: t) (by simp)
              (by
                have hh : szV (.varr (x :: t)) = 1 + szElems (x :: t) := rfl
                omega)
            omega
    | .vobj kvs =>
        cases kvs with
        | nil => decide
        | cons kv t =>
            have h1 : (marshalRaw (.vobj (kv :: t))).length =
                (joinComma (marshalFields (kv :: t))).length + 2 := by
              show (lbrace :: (joinComma (marshalFields (kv :: t)) ++ [rbrace])).length = _
              simp
            have h2 : szV (.vobj (kv :: t)) = 1 + szMembers (kv :: t) := rfl
            have h3 := ihn.2.2 (kv :: t) (by simp)
              (by
                have hh : szV (.vobj (kv :: t)) = 1 + szMembers (kv :: t) := rfl
                omega)
            omega
  · intro xs hne hsz
    cases xs with
    | nil => exact absurd rfl hne
    | cons x t =>
        have hh : szElems (x :: t) = 1 + szV x + szElems t := rfl
        have hx := ihn.1 x (by have := szV_pos x; omega)
        cases t with
        | nil =>
            have h1 : joinComma (marshalArr [x]) = marshalRaw x := rfl
            have h2 : szElems ([] : List GoVal) = 0 := rfl
            rw [h1]
            omega
        | cons y t2 =>
            have h1 : joinComma (marshalArr (x :: y :: t2)) =
                marshalRaw x ++ ',' :: joinComma (marshalArr (y :: t2)) := rfl
            have ht := ihn.2.1 (y :: t2) (by simp)
              (by
                have := szV_pos x
                omega)
            rw [h1]
            rw [List.length_append, List.length_cons]
            omega
  · intro kvs hne hsz
    cases kvs with
    | nil => exact absurd rfl hne
    | cons kv t =>
        obtain ⟨k, v0⟩ := kv
        have hh : szMembers ((k, v0) :: t) = 1 + szV v0 + szMembers t := rfl
        have hx := ihn.1 v0 (by have := szV_pos v0; omega)
        cases t with
        | nil =>
            have h1 : joinComma (marshalFields [(k, v0)]) =
                marshalStr k ++ ':' :: marshalRaw v0 := rfl
            rw [h1, List.length_append, List.length_cons]
            have h2 : szMembers ([] : List (String × GoVal)) = 0 := rfl
            omega
        | cons kv2 t2 =>
            have h1 : joinComma (marshalFields ((k, v0) :: kv2 :: t2)) =
                (marshalStr k ++ ':' :: marshalRaw v0) ++
                  ',' :: joinComma (marshalFields (kv2 :: t2)) := rfl
            have ht := ihn.2.2 (kv2 :: t2) (by simp)
              (by
                have := szV_pos v0
                omega)
            rw [h1]
            simp only [List.length_append, List.length_cons]
            omega


theorem insertKV_perm (kv : String × GoVal) (l : List (String × GoVal)) :
    (insertKV kv l).Perm (kv :: l) := by
  induction l with
  | nil => exact List.Perm.refl _
  | cons h t ih =>
      rw [insertKV]
      split
      · exact List.Perm.refl _
      · exact (List.Perm.cons h ih).trans (List.Perm.swap kv h t)

theorem sortKV_perm (l : List (String × GoVal)) : (sortKV l).Perm l := by
  induction l with
  | nil => exact List.Perm.refl _
  | cons kv t ih =>
      have h1 : sortKV (kv :: t) = insertKV kv (sortKV t) := rfl
      rw [h1]
      exact (insertKV_perm kv (sortKV t)).trans (List.Perm.cons kv ih)

theorem wfKeysObj_iff (l : List (String × GoVal)) :
    wfKeysObj l = true ↔ ∀ kv ∈ l, wfKeys kv.2 = true := by
  induction l with
  | nil => simp [wfKeysObj]
  | cons kv t ih =>
      obtain ⟨k, v⟩ := kv
      rw [wfKeysObj, Bool.and_eq_true, ih]
      constructor
      · rintro ⟨h1, h2⟩ kv2 hm
        rcases List.mem_cons.mp hm with rfl | hm
        · exact h1
        · exact h2 kv2 hm
      · intro h
        exact ⟨h (k, v) (List.mem_cons_self _ _),
          fun kv2 hm => h kv2 (List.mem_cons_of_mem _ hm)⟩

theorem wfKeysArr_iff (l : List GoVal) :
    wfKeysArr l = true ↔ ∀ x ∈ l, wfKeys x = true := by
  induction l with
  | nil => simp [wfKeysArr]
  | cons x t ih =>
      rw [wfKeysArr, Bool.and_eq_true, ih]
      constructor
      · rintro ⟨h1, h2⟩ y hm
        rcases List.mem_cons.mp hm with rfl | hm
        · exact h1
        · exact h2 y hm
      · intro h
        exact ⟨h x (List.mem_cons_self _ _),
          fun y hm => h y (List.mem_cons_of_mem _ hm)⟩

theorem sortAllObj_eq_map (kvs : List (String × GoVal)) :
    sortAllObj kvs = kvs.map (fun kv => (kv.1, sortAllKV kv.2)) := by
  induction kvs with
  | nil => rfl
  | cons kv t ih =>
      obtain ⟨k, v⟩ := kv
      rw [sortAllObj, ih]
      rfl

theorem sortAllArr_eq_map (xs : List GoVal) :
    sortAllArr xs = xs.map sortAllKV := by
  induction xs with
  | nil => rfl
  | cons x t ih =>
      rw [sortAllArr, ih]
      rfl

theorem szV_le_szElems (x : GoVal) (xs : List GoVal) (hx : x ∈ xs) :
    szV x ≤ szElems xs := by
  induction xs with
  | nil => exact absurd hx (by simp)
  | cons z t ih =>
      have hh : szElems (z :: t) = 1 + szV z + szElems t := rfl
      rcases List.mem_cons.mp hx with rfl | hx2
      · omega
      · have := ih hx2
        omega

theorem szV_le_szMembers (kv : String × GoVal) (kvs : List (String × GoVal))
    (hx : kv ∈ kvs) : szV kv.2 ≤ szMembers kvs := by
  induction kvs with
  | nil => exact absurd hx (by simp)
  | cons z t ih =>
      have hh : szMembers (z :: t) = 1 + szV z.2 + szMembers t := rfl
      rcases List.mem_cons.mp hx with rfl | hx2
      · omega
      · have := ih hx2
        omega

theorem wfKeys_sortAllKV : ∀ n : Nat,
    ∀ v : GoVal, szV v ≤ n → wfKeys v = true → wfKeys (sortAllKV v) = true := by
  intro n
  induction n using Nat.strong_induction_on with
  | _ n ih =>
  match n with
  | 0 =>
      intro v hsz
      have := szV_pos v
      omega
  | n + 1 =>
  intro v hsz hwf
  match v with
  | .vnil => exact hwf
  | .vbool b => exact hwf
  | .vint m => exact hwf
  | .vfloat d => exact hwf
  | .vstr s => exact hwf
  | .varr xs =>
      have h1 : sortAllKV (.varr xs) = .varr (sortAllArr xs) := rfl
      rw [h1]
      have h2 : wfKeys (.varr (sortAllArr xs)) = wfKeysArr (sortAllArr xs) := rfl
      have h3 : wfKeys (.varr xs) = wfKeysArr xs := rfl
      rw [h2]
      rw [h3] at hwf
      rw [wfKeysArr_iff] at hwf ⊢
      rw [sortAllArr_eq_map]
      intro y hy
      obtain ⟨x, hx, rfl⟩ := List.mem_map.mp hy
      have hszx : szV x ≤ n := by
        have hle := szV_le_szElems x xs hx
        have hh : szV (.varr xs) = 1 + szElems xs := rfl
        omega
      exact ih n (Nat.lt_succ_self n) x hszx (hwf x hx)
  | .vobj kvs =>
      have h1 : sortAllKV (.vobj kvs) = .vobj (sortKV (sortAllObj kvs)) := rfl
      rw [h1]
      have h2 : wfKeys (.vobj (sortKV (sortAllObj kvs))) =
          (noDupKeys ((sortKV (sortAllObj kvs)).map Prod.fst) &&
            wfKeysObj (sortKV (sortAllObj kvs))) := rfl
      have h3 : wfKeys (.vobj kvs) =
          (noDupKeys (kvs.map Prod.fst) && wfKeysObj kvs) := rfl
      rw [h2]
      rw [h3, Bool.and_eq_true] at hwf
      rw [Bool.and_eq_true]
      constructor
      · rw [noDupKeys_iff]
        have hperm : ((sortKV (sortAllObj kvs)).map Prod.fst).Perm
            ((sortAllObj kvs).map Prod.fst) := (sortKV_perm _).map _
        rw [hperm.nodup_iff]
        rw [sortAllObj_eq_map, List.map_map]
        have hsame : (kvs.map (Prod.fst ∘ fun kv => (kv.1, sortAllKV kv.2))) =
            kvs.map Prod.fst := by
          apply List.map_congr_left
          intro kv _
          rfl
        rw [hsame]
        exact (noDupKeys_iff _).mp hwf.1
      · rw [wfKeysObj_iff]
        intro kv2 hm
        have hm2 : kv2 ∈ sortAllObj kvs := (sortKV_perm _).mem_iff.mp hm
        rw [sortAllObj_eq_map] at hm2
        obtain ⟨kv0, hkv0, rfl⟩ := List.mem_map.mp hm2
        have hwfv : wfKeys kv0.2 = true := (wfKeysObj_iff kvs).mp hwf.2 kv0 hkv0
        have hszv : szV kv0.2 ≤ n := by
          have hle := szV_le_szMembers kv0 kvs hkv0
          have hh : szV (.vobj kvs) = 1 + szMembers kvs := rfl
          omega
        exact ih n (Nat.lt_succ_self n) kv0.2 hszv hwfv

theorem jsonParse_marshal (v : GoVal) (hwf : wfKeys v = true) :
    jsonParse (marshal v) = some (jsonRT v) := by
  have hwfs : wfKeys (sortAllKV v) = true :=
    wfKeys_sortAllKV (szV v) v (le_refl _) hwf
  have hsz : szV (sortAllKV v) ≤ (marshalRaw (sortAllKV v)).length :=
    (szV_le_marshal_len (szV (sortAllKV v))).1 _ (le_refl _)
  have hmain := (pVal_marshal_main ((marshalRaw (sortAllKV v)).length + 1)).1
    (sortAllKV v) [] hwfs (by omega) rfl
  rw [List.append_nil] at hmain
  rw [jsonParse]
  have htl : (marshal v).toList = marshalRaw (sortAllKV v) := rfl
  rw [htl, hmain]
  rfl


theorem mem_setKV (m : List (String × GoVal)) (k : String) (v : GoVal)
    (kv : String × GoVal) (h : kv ∈ setKV m k v) : kv ∈ m ∨ kv = (k, v) := by
  induction m with
  | nil =>
      simp only [setKV, List.mem_singleton] at h
      exact Or.inr h
  | cons kv0 t ih =>
      obtain ⟨k0, v0⟩ := kv0
      rw [setKV.eq_def] at h
      by_cases hk : k0 = k
      · simp only [if_pos hk] at h
        rcases List.mem_cons.mp h with rfl | hm
        · exact Or.inr (by rw [hk])
        · exact Or.inl (List.mem_cons_of_mem _ hm)
      · simp only [if_neg hk] at h
        rcases List.mem_cons.mp h with rfl | hm
        · exact Or.inl (List.mem_cons_self _ _)
        · rcases ih hm with hm2 | hm2
          · exact Or.inl (List.mem_cons_of_mem _ hm2)
          · exact Or.inr hm2

theorem setKV_keys (m : List (String × GoVal)) (k : String) (v : GoVal)
    (a : String) (h : a ∈ (setKV m k v).map Prod.fst) :
    a ∈ m.map Prod.fst ∨ a = k := by
  obtain ⟨kv, hm, rfl⟩ := List.mem_map.mp h
  rcases mem_setKV m k v kv hm with hm2 | rfl
  · exact Or.inl (List.mem_map_of_mem _ hm2)
  · exact Or.inr rfl

theorem setKV_keys_nodup (m : List (String × GoVal)) (k : String) (v : GoVal)
    (h : (m.map Prod.fst).Nodup) : ((setKV m k v).map Prod.fst).Nodup := by
  induction m with
  | nil => simp [setKV]
  | cons kv0 t ih =>
      obtain ⟨k0, v0⟩ := kv0
      rw [setKV.eq_def]
      simp only [List.map_cons, List.nodup_cons] at h
      by_cases hk : k0 = k
      · simp only [if_pos hk, List.map_cons, List.nodup_cons]
        exact h
      · simp only [if_neg hk, List.map_cons, List.nodup_cons]
        refine ⟨?_, ih h.2⟩
        intro hmem
        rcases setKV_keys t k v k0 hmem with hm2 | hm2
        · exact h.1 hm2
        · exact hk hm2

theorem objFromPairs_wf (ms : List (String × GoVal))
    (hv : ∀ kv ∈ ms, wfKeys kv.2 = true) :
    wfKeys (.vobj (objFromPairs ms)) = true := by
  have hgen : ∀ (ms acc : List (String × GoVal)),
      (∀ kv ∈ ms, wfKeys kv.2 = true) →
      (acc.map Prod.fst).Nodup → (∀ kv ∈ acc, wfKeys kv.2 = true) →
      ((ms.foldl (fun a kv => setKV a kv.1 kv.2) acc).map Prod.fst).Nodup ∧
        (∀ kv ∈ ms.foldl (fun a kv => setKV a kv.1 kv.2) acc, wfKeys kv.2 = true) := by
    intro ms
    induction ms with
    | nil => intro acc _ h1 h2; exact ⟨h1, h2⟩
    | cons kv t ih =>
        intro acc hms h1 h2
        simp only [List.foldl_cons]
        apply ih
        · intro kv2 hm
          exact hms kv2 (List.mem_cons_of_mem _ hm)
        · exact setKV_keys_nodup acc kv.1 kv.2 h1
        · intro kv2 hm
          rcases mem_setKV acc kv.1 kv.2 kv2 hm with hm2 | rfl
          · exact h2 kv2 hm2
          · exact hms kv (List.mem_cons_self _ _)
  obtain ⟨hnd, hval⟩ := hgen ms [] hv (by simp) (by simp)
  have h1 : wfKeys (.vobj (objFromPairs ms)) =
      (noDupKeys ((objFromPairs ms).map Prod.fst) && wfKeysObj (objFromPairs ms)) := rfl
  rw [h1, Bool.and_eq_true, noDupKeys_iff, wfKeysObj_iff]
  exact ⟨hnd, hval⟩


theorem pVal_wf : ∀ f : Nat,
    (∀ cs v r, pVal f cs = some (v, r) → wfKeys v = true) ∧
    (∀ cs vs r, pElems f cs = some (vs, r) → wfKeysArr vs = true) ∧
    (∀ cs ms r, pMembers f cs = some (ms, r) →
      ∀ kv ∈ ms, wfKeys kv.2 = true) := by
  intro f
  induction f using Nat.strong_induction_on with
  | _ f ih =>
  match f with
  | 0 =>
      refine ⟨?_, ?_, ?_⟩ <;> (intro cs a r h; exact absurd h (by simp [pVal, pElems, pMembers]))
  | f + 1 =>
  have ihf := ih f (Nat.lt_succ_self f)
  refine ⟨?_, ?_, ?_⟩
  · intro cs v r h
    simp only [pVal] at h
    split at h
    · injection h with h2
      injection h2 with hv hr
      rw [← hv]
      rfl
    · injection h with h2
      injection h2 with hv hr
      rw [← hv]
      rfl
    · injection h with h2
      injection h2 with hv hr
      rw [← hv]
      rfl
    · split at h
      · injection h with h2
        injection h2 with hv hr
        rw [← hv]
        rfl
      · exact absurd h (by simp)
    · split at h
      · injection h with h2
        injection h2 with hv hr
        rw [← hv]
        rfl
      · split at h
        · rename_i xs r2 hpe
          injection h with h2
          injection h2 with hv hr
          rw [← hv]
          exact ihf.2.1 _ xs r2 hpe
        · exact absurd h (by simp)
    · split at h
      · split at h
        · rename_i c2 r2
          split at h
          · injection h with h2
            injection h2 with hv hr
            rw [← hv]
            rfl
          · split at h
            · rename_i ms r3 hpm
              injection h with h2
              injection h2 with hv hr
              rw [← hv]
              exact objFromPairs_wf ms (ihf.2.2 _ ms r3 hpm)
            · exact absurd h (by simp)
        · exact absurd h (by simp)
      · split at h
        · split at h
          · rename_i d r2
            injection h with h2
            injection h2 with hv hr
            rw [← hv]
            rfl
          · exact absurd h (by simp)
        · exact absurd h (by simp)
    · exact absurd h (by simp)
  · intro cs vs r h
    simp only [pElems] at h
    split at h
    · exact absurd h (by simp)
    · rename_i v r2 hpv
      split at h
      · split at h
        · rename_i vs2 r3 hpe
          injection h with h2
          injection h2 with hv hr
          rw [← hv]
          have h1 : wfKeysArr (v :: vs2) = (wfKeys v && wfKeysArr vs2) := rfl
          rw [h1, Bool.and_eq_true]
          exact ⟨ihf.1 _ v r2 hpv, ihf.2.1 _ vs2 r3 hpe⟩
        · exact absurd h (by simp)
      · injection h with h2
        injection h2 with hv hr
        rw [← hv]
        have h1 : wfKeysArr [v] = (wfKeys v && true) := rfl
        rw [h1, Bool.and_eq_true]
        exact ⟨ihf.1 _ v r2 hpv, rfl⟩
      · exact absurd h (by simp)
  · intro cs ms r h
    simp only [pMembers] at h
    split at h
    · split at h
      · exact absurd h (by simp)
      · rename_i k r1 hps
        split at h
        · split at h
          · exact absurd h (by simp)
          · rename_i v r3 hpv
            split at h
            · split at h
              · rename_i ms2 r5 hpm
                injection h with h2
                injection h2 with hv hr
                rw [← hv]
                intro kv hm
                rcases List.mem_cons.mp hm with rfl | hm2
                · exact ihf.1 _ v r3 hpv
                · exact ihf.2.2 _ ms2 r5 hpm kv hm2
              · exact absurd h (by simp)
            · split at h
              · injection h with h2
                injection h2 with hv hr
                rw [← hv]
                intro kv hm
                rcases List.mem_singleton.mp hm with rfl
                exact ihf.1 _ v r3 hpv
              · exact absurd h (by simp)
            · exact absurd h (by simp)
        · exact absurd h (by simp)
    · exact absurd h (by simp)

theorem jsonParse_wf (s : String) (v : GoVal) (h : jsonParse s = some v) :
    wfKeys v = true := by
  rw [jsonParse] at h
  split at h
  · rename_i v2 r hpv
    split at h
    · injection h with hv
      rw [← hv]
      exact (pVal_wf _).1 _ v2 r hpv
    · exact absurd h (by simp)
  · exact absurd h (by simp)


theorem wfKeys_vobj_iff (m : List (String × GoVal)) :
    wfKeys (.vobj m) = true ↔
      (m.map Prod.fst).Nodup ∧ ∀ kv ∈ m, wfKeys kv.2 = true := by
  have h1 : wfKeys (.vobj m) =
      (noDupKeys (m.map Prod.fst) && wfKeysObj m) := rfl
  rw [h1, Bool.and_eq_true, noDupKeys_iff, wfKeysObj_iff]

theorem wfKeys_varr_iff (xs : List GoVal) :
    wfKeys (.varr xs) = true ↔ ∀ x ∈ xs, wfKeys x = true := by
  have h1 : wfKeys (.varr xs) = wfKeysArr xs := rfl
  rw [h1, wfKeysArr_iff]

theorem wfKeys_setKV_obj (m : List (String × GoVal)) (k : String) (v : GoVal)
    (hm : wfKeys (.vobj m) = true) (hv : wfKeys v = true) :
    wfKeys (.vobj (setKV m k v)) = true := by
  rw [wfKeys_vobj_iff] at hm ⊢
  refine ⟨setKV_keys_nodup m k v hm.1, ?_⟩
  intro kv hkv
  rcases mem_setKV m k v kv hkv with h2 | rfl
  · exact hm.2 kv h2
  · exact hv

theorem lookupKV_mem (m : List (String × GoVal)) (q : String) (v : GoVal)
    (h : lookupKV m q = some v) : (q, v) ∈ m := by
  induction m with
  | nil => exact absurd h (by simp [lookupKV])
  | cons kv t ih =>
      obtain ⟨k0, v0⟩ := kv
      rw [lookupKV] at h
      by_cases hk : k0 = q
      · rw [if_pos hk] at h
        injection h with h2
        rw [← hk, ← h2]
        exact List.mem_cons_self _ _
      · rw [if_neg hk] at h
        exact List.mem_cons_of_mem _ (ih h)

theorem lookupKV_wf (m : List (String × GoVal)) (q : String) (v : GoVal)
    (hm : wfKeys (.vobj m) = true) (h : lookupKV m q = some v) :
    wfKeys v = true :=
  ((wfKeys_vobj_iff m).mp hm).2 (q, v) (lookupKV_mem m q v h)

theorem sanitizeValueF_wf : ∀ (f : Nat) (v : GoVal),
    wfKeys v = true → wfKeys (sanitizeValueF f v) = true := by
  intro f
  induction f using Nat.strong_induction_on with
  | _ f ih =>
  match f with
  | 0 => intro v hv; exact hv
  | f + 1 =>
  have ihf := ih f (Nat.lt_succ_self f)
  intro v hv
  match v with
  | .vnil => exact hv
  | .vbool b => exact hv
  | .vint n => exact hv
  | .vfloat d => exact hv
  | .vstr t =>
      rw [sanitizeValueF]
      split
      · split
        · rename_i parsed hp
          exact ihf parsed (jsonParse_wf _ parsed hp)
        · rfl
      · rfl
  | .varr xs =>
      have h1 : sanitizeValueF (f + 1) (.varr xs) =
          .varr (xs.map (sanitizeValueF f)) := rfl
      rw [h1]
      rw [wfKeys_varr_iff] at hv ⊢
      intro y hy
      obtain ⟨x, hx, rfl⟩ := List.mem_map.mp hy
      exact ihf x (hv x hx)
  | .vobj kvs =>
      have h1 : sanitizeValueF (f + 1) (.vobj kvs) =
          .vobj (kvs.map fun kv => (kv.1, sanitizeValueF f kv.2)) := rfl
      rw [h1]
      rw [wfKeys_vobj_iff] at hv ⊢
      constructor
      · rw [List.map_map]
        have hsame : (kvs.map (Prod.fst ∘ fun kv => (kv.1, sanitizeValueF f kv.2))) =
            kvs.map Prod.fst := by
          apply List.map_congr_left
          intro kv _
          rfl
        rw [hsame]
        exact hv.1
      · intro kv2 hm
        obtain ⟨kv0, hkv0, rfl⟩ := List.mem_map.mp hm
        exact ihf kv0.2 (hv.2 kv0 hkv0)

theorem sanitizeValue_wf (v : GoVal) (hv : wfKeys v = true) :
    wfKeys (sanitizeValue v) = true :=
  sanitizeValueF_wf _ v hv

theorem mergeAttrs_wf (cfgAttrs attrs : List (String × GoVal))
    (hc : ∀ kv ∈ cfgAttrs, wfKeys kv.2 = true)
    (ha : wfKeys (.vobj attrs) = true) :
    wfKeys (.vobj (mergeAttrs cfgAttrs attrs).1) = true := by
  rw [mergeAttrs]
  have hgen : ∀ (l : List (String × GoVal)) (acc : List (String × GoVal) × Bool),
      (∀ kv ∈ l, wfKeys kv.2 = true) → wfKeys (.vobj acc.1) = true →
      wfKeys (.vobj (l.foldl
        (fun acc kv =>
          let nv := sanitizeValue kv.2
          match lookupKV acc.1 kv.1 with
          | none => (setKV acc.1 kv.1 nv, true)
          | some ov =>
              if deepEqualJSONish ov nv then acc
              else (setKV acc.1 kv.1 nv, true)) acc).1) = true := by
    intro l
    induction l with
    | nil => intro acc _ h; exact h
    | cons kv t ih =>
        intro acc hl hacc
        rw [List.foldl_cons]
        refine ih _ (fun kv2 hm => hl kv2 (List.mem_cons_of_mem _ hm)) ?_
        have hnv : wfKeys (sanitizeValue kv.2) = true :=
          sanitizeValue_wf _ (hl kv (List.mem_cons_self _ _))
        show wfKeys (.vobj ((match lookupKV acc.1 kv.1 with
            | none => (setKV acc.1 kv.1 (sanitizeValue kv.2), true)
            | some ov =>
                if deepEqualJSONish ov (sanitizeValue kv.2) then acc
                else (setKV acc.1 kv.1 (sanitizeValue kv.2), true) :
              List (String × GoVal) × Bool).1)) = true
        split
        · exact wfKeys_setKV_obj _ _ _ hacc hnv
        · split
          · exact hacc
          · exact wfKeys_setKV_obj _ _ _ hacc hnv
  exact hgen cfgAttrs (attrs, false) hc ha

theorem asObj_wf (m : List (String × GoVal)) (q : String)
    (hm : wfKeys (.vobj m) = true) :
    wfKeys (.vobj (asObj (lookupKV m q))) = true := by
  rcases h : lookupKV m q with _ | v
  · rfl
  · have hv := lookupKV_wf m q v hm h
    match v with
    | .vobj kvs => exact hv
    | .vnil => rfl
    | .vbool b => rfl
    | .vint n => rfl
    | .vfloat d => rfl
    | .vstr s => rfl
    | .varr xs => rfl

theorem mergeInstance_wf (cfgAttrs : List (String × GoVal)) (inst : GoVal)
    (hc : ∀ kv ∈ cfgAttrs, wfKeys kv.2 = true) (hi : wfKeys inst = true) :
    wfKeys (mergeInstance cfgAttrs inst).1 = true := by
  match inst with
  | .vobj im =>
      have h1 : (mergeInstance cfgAttrs (.vobj im)).1 =
          .vobj (setKV im "attributes"
            (.vobj (mergeAttrs cfgAttrs (asObj (lookupKV im "attributes"))).1)) := rfl
      rw [h1]
      exact wfKeys_setKV_obj _ _ _ hi
        (mergeAttrs_wf _ _ hc (asObj_wf im "attributes" hi))
  | .vnil => exact hi
  | .vbool b => exact hi
  | .vint n => exact hi
  | .vfloat d => exact hi
  | .vstr s => exact hi
  | .varr xs => exact hi

theorem newInstance_wf (cfgAttrs : List (String × GoVal))
    (hc : wfKeys (.vobj cfgAttrs) = true) :
    wfKeys (newInstance cfgAttrs) = true := by
  rw [wfKeys_vobj_iff] at hc
  rw [newInstance, wfKeys_vobj_iff]
  constructor
  · show (["attributes", "schema_version"] : List String).Nodup
    decide
  · intro kv hm
    rcases List.mem_cons.mp hm with rfl | hm2
    · rw [wfKeys_vobj_iff]
      constructor
      · rw [sanitizeMapKVs, List.map_map]
        have hsame : (cfgAttrs.map (Prod.fst ∘ fun kv => (kv.1, sanitizeValue kv.2))) =
            cfgAttrs.map Prod.fst := by
          apply List.map_congr_left
          intro kv _
          rfl
        rw [hsame]
        exact hc.1
      · intro kv2 hm3
        rw [sanitizeMapKVs] at hm3
        obtain ⟨kv0, hkv0, rfl⟩ := List.mem_map.mp hm3
        exact sanitizeValue_wf _ (hc.2 kv0 hkv0)
    · rcases List.mem_singleton.mp hm2 with rfl
      rfl

theorem newResource_wf (mod ty name : String) (cfgAttrs : List (String × GoVal))
    (hc : wfKeys (.vobj cfgAttrs) = true) :
    wfKeys (newResource mod ty name cfgAttrs) = true := by
  rw [newResource, wfKeys_vobj_iff]
  by_cases hmod : mod = ""
  · rw [if_pos hmod]
    constructor
    · show (["mode", "type", "name", "provider", "instances"] : List String).Nodup
      decide
    · intro kv hm
      simp only [List.nil_append, List.mem_cons, List.mem_singleton,
        List.not_mem_nil, or_false] at hm
      rcases hm with rfl | rfl | rfl | rfl | rfl
      · rfl
      · rfl
      · rfl
      · rfl
      · rw [wfKeys_varr_iff]
        intro x hx
        rcases List.mem_singleton.mp hx with rfl
        exact newInstance_wf cfgAttrs hc
  · rw [if_neg hmod]
    constructor
    · show ("module" :: ["mode", "type", "name", "provider", "instances"] :
          List String).Nodup
      decide
    · intro kv hm
      simp only [List.cons_append, List.nil_append, List.mem_cons,
        List.mem_singleton, List.not_mem_nil, or_false] at hm
      rcases hm with rfl | rfl | rfl | rfl | rfl | rfl
      · rfl
      · rfl
      · rfl
      · rfl
      · rfl
      · rw [wfKeys_varr_iff]
        intro x hx
        rcases List.mem_singleton.mp hx with rfl
        exact newInstance_wf cfgAttrs hc

theorem mergeOne_wf (st : MergeState) (rc : ResourceConfig)
    (hres : ∀ r ∈ st.resources, wfKeys r = true)
    (hc : wfKeys (.vobj rc.attrs) = true) :
    ∀ r ∈ (mergeOne st rc).resources, wfKeys r = true := by
  have hcv : ∀ kv ∈ rc.attrs, wfKeys kv.2 = true := ((wfKeys_vobj_iff _).mp hc).2
  intro r hr
  dsimp only [mergeOne] at hr
  split at hr
  · split at hr
    · rename_i m hget
      split at hr
      · rcases List.mem_or_eq_of_mem_set hr with hmem | heqr
        · exact hres r hmem
        · rw [heqr]
          have hm : wfKeys (.vobj m) = true := hres _ (List.get?_mem hget)
          have hm1 : wfKeys (.vobj (setKV m "provider"
              (.vstr (providerAddressForType rc.type)))) = true :=
            wfKeys_setKV_obj _ _ _ hm rfl
          apply wfKeys_setKV_obj _ _ _ hm1
          rw [wfKeys_varr_iff]
          intro x hx
          split at hx
          · rcases List.mem_singleton.mp hx with rfl
            exact newInstance_wf _ hc
          · obtain ⟨p, hp, rfl⟩ := List.mem_map.mp hx
            obtain ⟨inst, hinst, rfl⟩ := List.mem_map.mp hp
            apply mergeInstance_wf _ _ hcv
            rcases hlook : lookupKV (setKV m "provider"
                (.vstr (providerAddressForType rc.type))) "instances" with _ | iv
            · rw [hlook] at hinst
              exact absurd hinst (by simp [asArr])
            · have hwiv := lookupKV_wf _ "instances" iv hm1 hlook
              rw [hlook] at hinst
              match iv, hwiv with
              | .varr ys, hwiv =>
                  rw [wfKeys_varr_iff] at hwiv
                  exact hwiv inst hinst
              | .vnil, _ => exact absurd hinst (by simp [asArr])
              | .vbool b, _ => exact absurd hinst (by simp [asArr])
              | .vint n, _ => exact absurd hinst (by simp [asArr])
              | .vfloat d, _ => exact absurd hinst (by simp [asArr])
              | .vstr s, _ => exact absurd hinst (by simp [asArr])
              | .vobj kvs2, _ => exact absurd hinst (by simp [asArr])
      · rcases List.mem_or_eq_of_mem_set hr with hmem | heqr
        · exact hres r hmem
        · rw [heqr]
          have hm : wfKeys (.vobj m) = true := hres _ (List.get?_mem hget)
          apply wfKeys_setKV_obj _ _ _ hm
          rw [wfKeys_varr_iff]
          intro x hx
          split at hx
          · rcases List.mem_singleton.mp hx with rfl
            exact newInstance_wf _ hc
          · obtain ⟨p, hp, rfl⟩ := List.mem_map.mp hx
            obtain ⟨inst, hinst, rfl⟩ := List.mem_map.mp hp
            apply mergeInstance_wf _ _ hcv
            rcases hlook : lookupKV m "instances" with _ | iv
            · rw [hlook] at hinst
              exact absurd hinst (by simp [asArr])
            · have hwiv := lookupKV_wf m "instances" iv hm hlook
              rw [hlook] at hinst
              match iv, hwiv with
              | .varr ys, hwiv =>
                  rw [wfKeys_varr_iff] at hwiv
                  exact hwiv inst hinst
              | .vnil, _ => exact absurd hinst (by simp [asArr])
              | .vbool b, _ => exact absurd hinst (by simp [asArr])
              | .vint n, _ => exact absurd hinst (by simp [asArr])
              | .vfloat d, _ => exact absurd hinst (by simp [asArr])
              | .vstr s, _ => exact absurd hinst (by simp [asArr])
              | .vobj kvs2, _ => exact absurd hinst (by simp [asArr])
    · exact hres r hr
  · rcases List.mem_append.mp hr with hin | hnew
    · exact hres r hin
    · rcases List.mem_singleton.mp hnew with rfl
      exact newResource_wf _ _ _ _ hc

theorem mergeAll_wf (cfgs : List ResourceConfig) (resources : List GoVal)
    (hres : ∀ r ∈ resources, wfKeys r = true)
    (hc : ∀ rc ∈ cfgs, wfKeys (.vobj rc.attrs) = true) :
    ∀ r ∈ (mergeAll cfgs resources).1, wfKeys r = true := by
  have hgen : ∀ (l : List ResourceConfig) (st : MergeState),
      (∀ r ∈ st.resources, wfKeys r = true) →
      (∀ rc ∈ l, wfKeys (.vobj rc.attrs) = true) →
      ∀ r ∈ (l.foldl mergeOne st).resources, wfKeys r = true := by
    intro l
    induction l with
    | nil => intro st h _; exact h
    | cons c t ih =>
        intro st h hcl
        exact ih _ (mergeOne_wf st c h (hcl c (List.mem_cons_self _ _)))
          (fun rc hm => hcl rc (List.mem_cons_of_mem _ hm))
  exact hgen cfgs _ hres hc



theorem lookupKV_map_values (l : List (String × GoVal)) (g : GoVal → GoVal)
    (q : String) :
    lookupKV (l.map fun kv => (kv.1, g kv.2)) q = (lookupKV l q).map g := by
  induction l with
  | nil => rfl
  | cons kv t ih =>
      obtain ⟨k0, v0⟩ := kv
      rw [List.map_cons]
      rw [lookupKV, lookupKV]
      by_cases hk : k0 = q
      · rw [if_pos hk, if_pos hk]
        rfl
      · rw [if_neg hk, if_neg hk]
        exact ih

theorem rtNumObj_eq_map (l : List (String × GoVal)) :
    rtNumObj l = l.map fun kv => (kv.1, rtNum kv.2) := by
  induction l with
  | nil => rfl
  | cons kv t ih =>
      obtain ⟨k0, v0⟩ := kv
      rw [rtNumObj, ih]
      rfl

theorem lookupKV_insertKV (kv : String × GoVal) (l : List (String × GoVal))
    (q : String) (h : kv.1 ∉ l.map Prod.fst) :
    lookupKV (insertKV kv l) q = if kv.1 = q then some kv.2 else lookupKV l q := by
  induction l with
  | nil => rfl
  | cons h0 t ih =>
      rw [insertKV]
      split
      · rfl
      · obtain ⟨k0, v0⟩ := h0
        have hk0 : k0 ≠ kv.1 := by
          intro he
          exact h (he ▸ List.mem_cons_self _ _)
        rw [lookupKV, ih (fun hm => h (List.mem_cons_of_mem _ hm))]
        by_cases hq : k0 = q
        · rw [if_pos hq]
          rw [lookupKV, if_pos hq]
          have : ¬kv.1 = q := fun he => hk0 (hq ▸ he.symm ▸ rfl)
          rw [if_neg this]
        · rw [if_neg hq, lookupKV, if_neg hq]

theorem lookupKV_sortKV (l : List (String × GoVal)) (q : String)
    (hnd : (l.map Prod.fst).Nodup) : lookupKV (sortKV l) q = lookupKV l q := by
  induction l with
  | nil => rfl
  | cons kv t ih =>
      have h1 : sortKV (kv :: t) = insertKV kv (sortKV t) := rfl
      rw [h1]
      simp only [List.map_cons, List.nodup_cons] at hnd
      have hk : kv.1 ∉ (sortKV t).map Prod.fst := by
        intro hm
        exact hnd.1 (((sortKV_perm t).map Prod.fst).mem_iff.mp hm)
      rw [lookupKV_insertKV kv (sortKV t) q hk, ih hnd.2]
      obtain ⟨k0, v0⟩ := kv
      rfl

theorem sortAllObj_keys (l : List (String × GoVal)) :
    (sortAllObj l).map Prod.fst = l.map Prod.fst := by
  rw [sortAllObj_eq_map, List.map_map]
  apply List.map_congr_left
  intro kv _
  rfl

theorem lookupKV_jsonRT (L : List (String × GoVal)) (q : String)
    (hnd : (L.map Prod.fst).Nodup) (v : GoVal) (h : lookupKV L q = some v) :
    lookupKV (rtNumObj (sortKV (sortAllObj L))) q = some (rtNum (sortAllKV v)) := by
  rw [rtNumObj_eq_map, lookupKV_map_values]
  rw [lookupKV_sortKV _ _ (by rw [sortAllObj_keys]; exact hnd)]
  rw [sortAllObj_eq_map, lookupKV_map_values, h]
  rfl

theorem toInt_nonneg (d : Dec) (h : ¬Dec.nonpos d = true) : 0 ≤ Dec.toInt d := by
  rw [Dec.nonpos] at h
  simp only [decide_eq_true_eq, not_le] at h
  rw [Dec.toInt]
  split
  · positivity
  · exact Int.tdiv_nonneg (le_of_lt h) (by positivity)

theorem serial_norm_facts (k : Int) (hk : 1 ≤ k) :
    Dec.nonpos (Dec.norm ⟨k, 0⟩) = false ∧ Dec.toInt (Dec.norm ⟨k, 0⟩) = k := by
  rcases norm_canonical ⟨k, 0⟩ with ⟨hm0, _⟩ | ⟨hm, hmod, j, hj1, hj2⟩
  · simp only at hm0
    omega
  · simp only at hj1 hj2
    have he : (Dec.norm ⟨k, 0⟩).e = (j : Int) := by
      rw [hj2]
      ring
    have hmpos : 0 < (Dec.norm ⟨k, 0⟩).m := by
      by_contra hneg
      push_neg at hneg
      have h10 : (0 : Int) < 10 ^ j := by positivity
      nlinarith [hj1]
    constructor
    · rw [Dec.nonpos]
      simp only [decide_eq_false_iff_not, not_le]
      exact hmpos
    · rw [Dec.toInt, he]
      rw [if_pos (by positivity : (0 : Int) ≤ (j : Int))]
      rw [Int.toNat_natCast]
      exact hj1


theorem ensureOutputs_serial (st : List (String × GoVal)) :
    lookupKV (ensureOutputs st) "serial" = lookupKV st "serial" := by
  rw [ensureOutputs]
  split
  · exact lookupKV_setKV_ne st "outputs" "serial" _ (by decide)
  · rfl

theorem ensureOutputs_wf (st : List (String × GoVal))
    (h : wfKeys (.vobj st) = true) : wfKeys (.vobj (ensureOutputs st)) = true := by
  rw [ensureOutputs]
  split
  · exact wfKeys_setKV_obj st "outputs" _ h rfl
  · exact h

theorem bump_wf (st : List (String × GoVal)) (h : wfKeys (.vobj st) = true) :
    wfKeys (.vobj (bumpSerialVersion st)) = true := by
  dsimp only [bumpSerialVersion]
  have hstep : ∀ st1 : List (String × GoVal), wfKeys (.vobj st1) = true →
      wfKeys (.vobj (match lookupKV st1 "serial" with
        | some (.vfloat d) =>
            if Dec.nonpos d then setKV st1 "serial" (.vint 1)
            else setKV st1 "serial" (.vint (Dec.toInt d + 1))
        | some (.vint n) =>
            if n ≤ 0 then setKV st1 "serial" (.vint 1)
            else setKV st1 "serial" (.vint (n + 1))
        | _ => setKV st1 "serial" (.vint 1))) = true := by
    intro st1 h1
    split
    · split
      · exact wfKeys_setKV_obj _ _ _ h1 rfl
      · exact wfKeys_setKV_obj _ _ _ h1 rfl
    · split
      · exact wfKeys_setKV_obj _ _ _ h1 rfl
      · exact wfKeys_setKV_obj _ _ _ h1 rfl
    · exact wfKeys_setKV_obj _ _ _ h1 rfl
  apply hstep
  split
  · split
    · exact wfKeys_setKV_obj st "version" (.vint 4) h rfl
    · exact h
  · split
    · exact wfKeys_setKV_obj st "version" (.vint 4) h rfl
    · exact h
  · exact wfKeys_setKV_obj st "version" (.vint 4) h rfl

theorem bump_serial_out (st : List (String × GoVal)) :
    ∃ k : Int, 1 ≤ k ∧ lookupKV (bumpSerialVersion st) "serial" = some (.vint k) ∧
      ∀ d, lookupKV st "serial" = some (.vfloat d) →
        k = if Dec.nonpos d = true then 1 else Dec.toInt d + 1 := by
  dsimp only [bumpSerialVersion]
  have hstep : ∀ st1 : List (String × GoVal),
      lookupKV st1 "serial" = lookupKV st "serial" →
      ∃ k : Int, 1 ≤ k ∧
        lookupKV (match lookupKV st1 "serial" with
          | some (.vfloat d) =>
              if Dec.nonpos d then setKV st1 "serial" (.vint 1)
              else setKV st1 "serial" (.vint (Dec.toInt d + 1))
          | some (.vint n) =>
              if n ≤ 0 then setKV st1 "serial" (.vint 1)
              else setKV st1 "serial" (.vint (n + 1))
          | _ => setKV st1 "serial" (.vint 1)) "serial" = some (.vint k) ∧
        ∀ d, lookupKV st "serial" = some (.vfloat d) →
          k = if Dec.nonpos d = true then 1 else Dec.toInt d + 1 := by
    intro st1 hsame
    split
    · rename_i d hd
      by_cases hnp : Dec.nonpos d = true
      · rw [if_pos hnp]
        refine ⟨1, le_refl _, lookupKV_setKV_eq _ _ _, ?_⟩
        intro d2 hd2
        rw [hsame, hd2] at hd
        injection hd with hd3
        injection hd3 with hd4
        subst hd4
        rw [if_pos hnp]
      · rw [if_neg hnp]
        refine ⟨Dec.toInt d + 1, by have := toInt_nonneg d hnp; omega,
          lookupKV_setKV_eq _ _ _, ?_⟩
        intro d2 hd2
        rw [hsame, hd2] at hd
        injection hd with hd3
        injection hd3 with hd4
        subst hd4
        rw [if_neg hnp]
    · rename_i n hn
      by_cases hle : n ≤ 0
      · rw [if_pos hle]
        refine ⟨1, le_refl _, lookupKV_setKV_eq _ _ _, ?_⟩
        intro d2 hd2
        rw [hsame, hd2] at hn
        exact absurd hn (by simp)
      · rw [if_neg hle]
        refine ⟨n + 1, by omega, lookupKV_setKV_eq _ _ _, ?_⟩
        intro d2 hd2
        rw [hsame, hd2] at hn
        exact absurd hn (by simp)
    · rename_i hother1 hother2
      refine ⟨1, le_refl _, lookupKV_setKV_eq _ _ _, ?_⟩
      intro d2 hd2
      exact ((hother1 d2) (by rw [hsame, hd2])).elim
  refine hstep _ ?_
  split
  · split
    · exact lookupKV_setKV_ne st "version" "serial" _ (by decide)
    · rfl
  · split
    · exact lookupKV_setKV_ne st "version" "serial" _ (by decide)
    · rfl
  · exact lookupKV_setKV_ne st "version" "serial" _ (by decide)

theorem asArr_wf (m : List (String × GoVal)) (q : String)
    (hm : wfKeys (.vobj m) = true) :
    ∀ x ∈ asArr (lookupKV m q), wfKeys x = true := by
  rcases h : lookupKV m q with _ | v
  · simp [asArr]
  · have hv := lookupKV_wf m q v hm h
    match v with
    | .varr xs =>
        rw [wfKeys_varr_iff] at hv
        exact hv
    | .vnil => simp [asArr]
    | .vbool b => simp [asArr]
    | .vint n => simp [asArr]
    | .vfloat d => simp [asArr]
    | .vstr s => simp [asArr]
    | .vobj kvs => simp [asArr]

/-- Claim C6: every write a patch operation performs produces bytes that
differ from the bytes read before the mutation.  `PatchStateFromConfig`
and `writeStateBump` enforce this with an explicit byte guard; the
literal patcher guarantees it because a changing write always bumps
`serial`, so the written document can never re-parse to the document it
read (the configured attribute maps are Go maps, hence have distinct
keys hereditarily). -/
theorem c6_write_differs :
    (∀ (cfgs : List ResourceConfig) (b nb : String),
        patchFromConfig cfgs b = some (nb, true) → nb ≠ b) ∧
    (∀ (st : List (String × GoVal)) (old nb : String),
        writeStateBump st old = (nb, true) → nb ≠ old) ∧
    ∀ (cfgs : List ResourceConfig) (b nb : String),
      (∀ rc ∈ cfgs, wfKeys (.vobj rc.attrs) = true) →
      patchLiterals cfgs b = some (nb, true) → nb ≠ b := by
  refine ⟨?_, ?_, ?_⟩
  · intro cfgs b nb h
    simp only [patchFromConfig] at h
    split at h
    · split at h
      · split at h
        · injection h with h2
          injection h2 with h3 h4
          exact absurd h4 (by simp)
        · rename_i hne0
          injection h with h2
          injection h2 with h3 h4
          rw [← h3]
          exact hne0
      · injection h with h2
        injection h2 with h3 h4
        exact absurd h4 (by simp)
    · exact absurd h (by simp)
  · intro st old nb h
    simp only [writeStateBump] at h
    split at h
    · injection h with h3 h4
      exact absurd h4 (by simp)
    · rename_i hne0
      injection h with h3 h4
      rw [← h3]
      exact hne0
  · intro cfgs b nb hc h heq
    simp only [patchLiterals] at h
    split at h
    · rename_i st0 hparse
      split at h
      · rename_i hchanged
        injection h with h2
        injection h2 with h3 h4
        have hwf0 : wfKeys (.vobj st0) = true := jsonParse_wf b _ hparse
        have hwf1 : wfKeys (.vobj (ensureOutputs st0)) = true :=
          ensureOutputs_wf _ hwf0
        have hres : ∀ r ∈ asArr (lookupKV (ensureOutputs st0) "resources"),
            wfKeys r = true := asArr_wf _ _ hwf1
        have hres2 : ∀ r ∈ (mergeAll cfgs
            (asArr (lookupKV (ensureOutputs st0) "resources"))).1,
            wfKeys r = true := mergeAll_wf _ _ hres hc
        have hwf2 : wfKeys (.vobj (setKV (ensureOutputs st0) "resources"
            (.varr (mergeAll cfgs
              (asArr (lookupKV (ensureOutputs st0) "resources"))).1))) = true :=
          wfKeys_setKV_obj _ _ _ hwf1 (by rw [wfKeys_varr_iff]; exact hres2)
        have hwfL : wfKeys (.vobj (bumpSerialVersion
            (setKV (ensureOutputs st0) "resources"
              (.varr (mergeAll cfgs
                (asArr (lookupKV (ensureOutputs st0) "resources"))).1)))) = true :=
          bump_wf _ hwf2
        obtain ⟨k, hk1, hkser, hkval⟩ := bump_serial_out
          (setKV (ensureOutputs st0) "resources"
            (.varr (mergeAll cfgs
              (asArr (lookupKV (ensureOutputs st0) "resources"))).1))
        have hrt : jsonParse nb = some (jsonRT (.vobj (bumpSerialVersion
            (setKV (ensureOutputs st0) "resources"
              (.varr (mergeAll cfgs
                (asArr (lookupKV (ensureOutputs st0) "resources"))).1))))) := by
          rw [← h3]
          exact jsonParse_marshal _ hwfL
        rw [heq, hparse] at hrt
        injection hrt with hrt2
        have hjr : jsonRT (.vobj (bumpSerialVersion
            (setKV (ensureOutputs st0) "resources"
              (.varr (mergeAll cfgs
                (asArr (lookupKV (ensureOutputs st0) "resources"))).1)))) =
            .vobj (rtNumObj (sortKV (sortAllObj (bumpSerialVersion
              (setKV (ensureOutputs st0) "resources"
                (.varr (mergeAll cfgs
                  (asArr (lookupKV (ensureOutputs st0) "resources"))).1)))))) := rfl
        rw [hjr] at hrt2
        injection hrt2 with hst0
        have hnd : ((bumpSerialVersion
            (setKV (ensureOutputs st0) "resources"
              (.varr (mergeAll cfgs
                (asArr (lookupKV (ensureOutputs st0) "resources"))).1))).map
            Prod.fst).Nodup := ((wfKeys_vobj_iff _).mp hwfL).1
        have hser0 : lookupKV st0 "serial" = some (.vfloat (Dec.norm ⟨k, 0⟩)) := by
          rw [hst0, lookupKV_jsonRT _ _ hnd _ hkser]
          rfl
        have hser2 : lookupKV
            (setKV (ensureOutputs st0) "resources"
              (.varr (mergeAll cfgs
                (asArr (lookupKV (ensureOutputs st0) "resources"))).1)) "serial" =
            some (.vfloat (Dec.norm ⟨k, 0⟩)) := by
          rw [lookupKV_setKV_ne _ "resources" "serial" _ (by decide),
            ensureOutputs_serial, hser0]
        have hk2 := hkval (Dec.norm ⟨k, 0⟩) hser2
        obtain ⟨hnp, hti⟩ := serial_norm_facts k hk1
        rw [hnp, hti] at hk2
        simp at hk2
      · injection h with h2
        injection h2 with h3 h4
        exact absurd h4 (by simp)
    · exact absurd h (by simp)

/-- The three byte-guards of C6, exercised at concrete inputs: patching
a fresh initial state with one `null_resource` configuration writes new
bytes, and a bumped fresh state differs from an unrelated old blob. -/
theorem c6_witness :
    ((patchFromConfig [c3Cfg] c4Bytes0).getD ("", false)).1 ≠ c4Bytes0 ∧
    marshal (.vobj (bumpSerialVersion (initialState "L"))) ≠ "x" ∧
    ((patchLiterals [c3Cfg] c4Bytes0).getD ("", false)).1 ≠ c4Bytes0 :=
  ⟨c6_write_differs.1 [c3Cfg] c4Bytes0 _ (by rfl),
   c6_write_differs.2.1 (initialState "L") "x" _ (by rfl),
   c6_write_differs.2.2 [c3Cfg] c4Bytes0 _
     (by intro rc hm; rw [List.mem_singleton] at hm; subst hm; rfl)
     (by rfl)⟩

theorem rtNumArr_eq_map (xs : List GoVal) : rtNumArr xs = xs.map rtNum := by
  induction xs with
  | nil => rfl
  | cons x t ih => rw [rtNumArr, ih]; rfl

theorem lookupKV_of_mem (m : List (String × GoVal)) (q : String) (v : GoVal)
    (hnd : (m.map Prod.fst).Nodup) (hm : (q, v) ∈ m) : lookupKV m q = some v := by
  induction m with
  | nil => exact absurd hm (by simp)
  | cons kv t ih =>
      obtain ⟨k0, v0⟩ := kv
      simp only [List.map_cons, List.nodup_cons] at hnd
      rcases List.mem_cons.mp hm with h1 | h1
      · injection h1 with h2 h3
        rw [lookupKV, if_pos h2.symm, h3]
      · have hk0 : k0 ≠ q := by
          intro he
          exact hnd.1 (he ▸ (List.mem_map.mpr ⟨(q, v), h1, rfl⟩))
        rw [lookupKV, if_neg hk0]
        exact ih hnd.2 h1

theorem lookupKV_eq_none_iff (m : List (String × GoVal)) (q : String) :
    lookupKV m q = none ↔ q ∉ m.map Prod.fst := by
  induction m with
  | nil => simp [lookupKV]
  | cons kv t ih =>
      obtain ⟨k0, v0⟩ := kv
      rw [lookupKV]
      by_cases hk : k0 = q
      · subst hk
        simp
      · rw [if_neg hk]
        rw [ih]
        simp only [List.map_cons, List.mem_cons]
        constructor
        · intro hn hc
          rcases hc with hc | hc
          · exact hk hc.symm
          · exact hn hc
        · intro hn hc
          exact hn (Or.inr hc)

theorem setKV_self (m : List (String × GoVal)) (k : String) (v : GoVal)
    (h : lookupKV m k = some v) : setKV m k v = m := by
  induction m with
  | nil => exact absurd h (by simp [lookupKV])
  | cons kv t ih =>
      obtain ⟨k0, v0⟩ := kv
      rw [lookupKV] at h
      rw [setKV]
      by_cases hk : k0 = k
      · rw [if_pos hk] at h
        injection h with h2
        rw [if_pos hk, hk, h2]
      · rw [if_neg hk] at h
        rw [if_neg hk, ih h]

theorem listSet_self (l : List GoVal) (i : Nat) (x : GoVal)
    (h : l.get? i = some x) : l.set i x = l := by
  induction l generalizing i with
  | nil => exact absurd h (by simp)
  | cons y t ih =>
      cases i with
      | zero =>
          rw [List.get?_cons_zero] at h
          injection h with h2
          rw [h2, List.set_cons_zero]
      | succ j =>
          rw [List.get?_cons_succ] at h
          rw [List.set_cons_succ, ih j h]

theorem deq_refl (d : Dec) : Dec.deq d d = true := by
  rw [Dec.deq]
  simp

theorem deq_norm (d : Dec) : Dec.deq (Dec.norm d) d = true := by
  rcases norm_canonical d with ⟨hm0, hz⟩ | ⟨hm, hmod, k, hmul, he⟩
  · rw [hz, Dec.deq]
    by_cases he : (0 : Int) ≤ d.e
    · have h1 : ((⟨0, 0⟩ : Dec)).e ≤ d.e := he
      rw [if_pos h1]
      simp [hm0]
    · have h1 : ¬((⟨0, 0⟩ : Dec)).e ≤ d.e := he
      rw [if_neg h1]
      simp [hm0]
  · rw [Dec.deq]
    by_cases hk : k = 0
    · subst hk
      have h1 : (Dec.norm d).e ≤ d.e := by omega
      rw [if_pos h1]
      have h2 : (d.e - (Dec.norm d).e).toNat = 0 := by omega
      rw [h2]
      simp only [pow_zero, mul_one]
      simp only [pow_zero, mul_one] at hmul
      simp [hmul]
    · have h1 : ¬(Dec.norm d).e ≤ d.e := by omega
      rw [if_neg h1]
      have h2 : ((Dec.norm d).e - d.e).toNat = k := by omega
      rw [h2]
      simp [hmul]

theorem lookupKV_jsonRT_none (L : List (String × GoVal)) (q : String)
    (h : lookupKV L q = none) :
    lookupKV (rtNumObj (sortKV (sortAllObj L))) q = none := by
  rw [lookupKV_eq_none_iff] at h ⊢
  intro hmem
  apply h
  rw [rtNumObj_eq_map, List.map_map] at hmem
  have h2 : ((sortKV (sortAllObj L)).map (Prod.fst ∘ fun kv => (kv.1, rtNum kv.2)))
      = (sortKV (sortAllObj L)).map Prod.fst := by
    apply List.map_congr_left
    intro kv _
    rfl
  rw [h2] at hmem
  have h3 := ((sortKV_perm (sortAllObj L)).map Prod.fst).mem_iff.mp hmem
  rw [sortAllObj_keys] at h3
  exact h3

theorem deepEqualArr_rt_of (xs : List GoVal)
    (h : ∀ x ∈ xs, deepEqualJSONish (rtNum (sortAllKV x)) x = true) :
    deepEqualArr (rtNumArr (sortAllArr xs)) xs = true := by
  induction xs with
  | nil => rfl
  | cons x t ih =>
      have hstep : rtNumArr (sortAllArr (x :: t)) =
          rtNum (sortAllKV x) :: rtNumArr (sortAllArr t) := rfl
      rw [hstep, deepEqualArr, Bool.and_eq_true]
      exact ⟨h x (List.mem_cons_self _ _),
        ih (fun y hy => h y (List.mem_cons_of_mem _ hy))⟩

theorem deepEqualObj_of (l ys : List (String × GoVal))
    (h : ∀ kv ∈ l, deepEqualJSONish kv.2 ((lookupKV ys kv.1).getD .vnil) = true) :
    deepEqualObj l ys = true := by
  induction l with
  | nil => rfl
  | cons kv t ih =>
      obtain ⟨k0, v0⟩ := kv
      rw [deepEqualObj, Bool.and_eq_true]
      exact ⟨h _ (List.mem_cons_self _ _),
        ih (fun y hy => h y (List.mem_cons_of_mem _ hy))⟩

theorem rt_obj_length (kvs : List (String × GoVal)) :
    (rtNumObj (sortKV (sortAllObj kvs))).length = kvs.length := by
  rw [rtNumObj_eq_map, List.length_map, (sortKV_perm _).length_eq,
    sortAllObj_eq_map, List.length_map]

theorem deepEqual_rt_main : ∀ n : Nat, ∀ v : GoVal, szV v ≤ n →
    wfKeys v = true → deepEqualJSONish (rtNum (sortAllKV v)) v = true := by
  intro n
  induction n using Nat.strong_induction_on with
  | _ n ih =>
    intro v hsz hwf
    match v with
    | .vnil => rfl
    | .vbool b =>
        show (b == b) = true
        simp
    | .vstr s =>
        show (s == s) = true
        simp
    | .vint k =>
        show Dec.deq (Dec.norm ⟨k, 0⟩) ⟨k, 0⟩ = true
        exact deq_norm _
    | .vfloat d =>
        show Dec.deq (Dec.norm d) d = true
        exact deq_norm d
    | .varr xs =>
        show deepEqualArr (rtNumArr (sortAllArr xs)) xs = true
        have hsz2 : szV (.varr xs) = 1 + szElems xs := rfl
        rw [hsz2] at hsz
        apply deepEqualArr_rt_of
        intro x hx
        have hszx : szV x ≤ szElems xs := szV_le_szElems x xs hx
        have hwx : wfKeys x = true := (wfKeys_varr_iff xs).mp hwf x hx
        exact ih (szElems xs) (by omega) x hszx hwx
    | .vobj kvs =>
        show ((rtNumObj (sortKV (sortAllObj kvs))).length == kvs.length
            && deepEqualObj (rtNumObj (sortKV (sortAllObj kvs))) kvs) = true
        have hsz2 : szV (.vobj kvs) = 1 + szMembers kvs := rfl
        rw [hsz2] at hsz
        rw [Bool.and_eq_true]
        constructor
        · rw [rt_obj_length]
          simp
        · apply deepEqualObj_of
          intro kv hkv
          rw [rtNumObj_eq_map] at hkv
          rcases List.mem_map.mp hkv with ⟨kv1, hkv1, heq1⟩
          have hkv2 : kv1 ∈ sortAllObj kvs := (sortKV_perm _).mem_iff.mp hkv1
          rw [sortAllObj_eq_map] at hkv2
          rcases List.mem_map.mp hkv2 with ⟨kv0, hkv0, heq0⟩
          obtain ⟨k0, v0⟩ := kv0
          have hnd : (kvs.map Prod.fst).Nodup := ((wfKeys_vobj_iff kvs).mp hwf).1
          have hl : lookupKV kvs k0 = some v0 := lookupKV_of_mem kvs k0 v0 hnd hkv0
          rw [← heq1, ← heq0]
          show deepEqualJSONish (rtNum (sortAllKV v0)) ((lookupKV kvs k0).getD .vnil) = true
          rw [hl]
          show deepEqualJSONish (rtNum (sortAllKV v0)) v0 = true
          have hwv : wfKeys v0 = true :=
            ((wfKeys_vobj_iff kvs).mp hwf).2 (k0, v0) hkv0
          have hszv : szV v0 ≤ szMembers kvs := szV_le_szMembers (k0, v0) kvs hkv0
          exact ih (szMembers kvs) (by omega) v0 hszv hwv

theorem deepEqual_jsonRT (v : GoVal) (h : wfKeys v = true) :
    deepEqualJSONish (rtNum (sortAllKV v)) v = true :=
  deepEqual_rt_main (szV v) v le_rfl h

theorem mergeAttrs_id (cfgAttrs : List (String × GoVal)) :
    ∀ A : List (String × GoVal),
    (∀ kv ∈ cfgAttrs, ∃ s, lookupKV A kv.1 = some s ∧
        deepEqualJSONish s (sanitizeValue kv.2) = true) →
    mergeAttrs cfgAttrs A = (A, false) := by
  induction cfgAttrs with
  | nil =>
      intro A _
      rfl
  | cons kv t ih =>
      intro A h
      obtain ⟨s, hl, hd⟩ := h kv (List.mem_cons_self _ _)
      have hF : (fun (acc : List (String × GoVal) × Bool) (kv : String × GoVal) =>
          let nv := sanitizeValue kv.2
          match lookupKV acc.1 kv.1 with
          | none => (setKV acc.1 kv.1 nv, true)
          | some ov => if deepEqualJSONish ov nv then acc
              else (setKV acc.1 kv.1 nv, true)) (A, false) kv = (A, false) := by
        show (match lookupKV A kv.1 with
          | none => (setKV A kv.1 (sanitizeValue kv.2), true)
          | some ov => if deepEqualJSONish ov (sanitizeValue kv.2) then (A, false)
              else (setKV A kv.1 (sanitizeValue kv.2), true)) = (A, false)
        rw [hl]
        show (if deepEqualJSONish s (sanitizeValue kv.2) then ((A, false) : List (String × GoVal) × Bool)
            else (setKV A kv.1 (sanitizeValue kv.2), true)) = (A, false)
        rw [if_pos hd]
      have h1 : mergeAttrs (kv :: t) A = List.foldl
          (fun (acc : List (String × GoVal) × Bool) (kv : String × GoVal) =>
            let nv := sanitizeValue kv.2
            match lookupKV acc.1 kv.1 with
            | none => (setKV acc.1 kv.1 nv, true)
            | some ov => if deepEqualJSONish ov nv then acc
                else (setKV acc.1 kv.1 nv, true))
          ((fun (acc : List (String × GoVal) × Bool) (kv : String × GoVal) =>
            let nv := sanitizeValue kv.2
            match lookupKV acc.1 kv.1 with
            | none => (setKV acc.1 kv.1 nv, true)
            | some ov => if deepEqualJSONish ov nv then acc
                else (setKV acc.1 kv.1 nv, true)) (A, false) kv) t := rfl
      rw [h1, hF]
      exact ih A (fun y hy => h y (List.mem_cons_of_mem _ hy))

theorem foldl_mergeOne_fix (cfgs : List ResourceConfig) (S : MergeState)
    (h : ∀ rc ∈ cfgs, mergeOne S rc = S) :
    cfgs.foldl mergeOne S = S := by
  induction cfgs with
  | nil => rfl
  | cons rc t ih =>
      rw [List.foldl_cons, h rc (List.mem_cons_self _ _)]
      exact ih (fun y hy => h y (List.mem_cons_of_mem _ hy))

theorem lookupIdx_mem_of (ix : List (String × Nat)) (q : String) (i : Nat)
    (h : lookupIdx ix q = some i) : (q, i) ∈ ix := by
  induction ix with
  | nil => exact absurd h (by simp [lookupIdx])
  | cons kv t ih =>
      obtain ⟨k0, i0⟩ := kv
      rw [lookupIdx] at h
      by_cases hk : k0 = q
      · rw [if_pos hk] at h
        injection h with h2
        rw [← hk, ← h2]
        exact List.mem_cons_self _ _
      · rw [if_neg hk] at h
        exact List.mem_cons_of_mem _ (ih h)

theorem lookupIdx_isSome_of_mem (ix : List (String × Nat)) (q : String) (i : Nat)
    (h : (q, i) ∈ ix) : ∃ j, lookupIdx ix q = some j := by
  induction ix with
  | nil => exact absurd h (by simp)
  | cons kv t ih =>
      obtain ⟨k0, i0⟩ := kv
      by_cases hk : k0 = q
      · exact ⟨i0, by rw [lookupIdx, if_pos hk]⟩
      · rcases List.mem_cons.mp h with h1 | h1
        · injection h1 with h2 h3
          exact absurd h2.symm hk
        · obtain ⟨j, hj⟩ := ih h1
          exact ⟨j, by rw [lookupIdx, if_neg hk]; exact hj⟩

theorem buildResIndex_snoc_obj (R : List GoVal) (m : List (String × GoVal)) :
    buildResIndex (R ++ [.vobj m]) =
      if asStr (lookupKV m "mode") = "managed"
      then (resObjKey m, R.length) :: buildResIndex R
      else buildResIndex R := by
  rw [buildResIndex, buildResIndex, List.enum_append, List.foldl_append]
  show (if asStr (lookupKV m "mode") = "managed"
      then (resObjKey m, R.length) :: _ else _) =
    (if asStr (lookupKV m "mode") = "managed"
      then (resObjKey m, R.length) :: _ else _)
  split
  · rfl
  · rfl

theorem buildResIndex_snoc_arr (R : List GoVal) (xs : List GoVal) :
    buildResIndex (R ++ [.varr xs]) = buildResIndex R := by
  rw [buildResIndex, buildResIndex, List.enum_append, List.foldl_append]
  rfl

theorem buildResIndex_snoc_nil (R : List GoVal) :
    buildResIndex (R ++ [.vnil]) = buildResIndex R := by
  rw [buildResIndex, buildResIndex, List.enum_append, List.foldl_append]
  rfl

theorem buildResIndex_snoc_bool (R : List GoVal) (b : Bool) :
    buildResIndex (R ++ [.vbool b]) = buildResIndex R := by
  rw [buildResIndex, buildResIndex, List.enum_append, List.foldl_append]
  rfl

theorem buildResIndex_snoc_int (R : List GoVal) (n : Int) :
    buildResIndex (R ++ [.vint n]) = buildResIndex R := by
  rw [buildResIndex, buildResIndex, List.enum_append, List.foldl_append]
  rfl

theorem buildResIndex_snoc_float (R : List GoVal) (d : Dec) :
    buildResIndex (R ++ [.vfloat d]) = buildResIndex R := by
  rw [buildResIndex, buildResIndex, List.enum_append, List.foldl_append]
  rfl

theorem buildResIndex_snoc_str (R : List GoVal) (s : String) :
    buildResIndex (R ++ [.vstr s]) = buildResIndex R := by
  rw [buildResIndex, buildResIndex, List.enum_append, List.foldl_append]
  rfl

theorem buildResIndex_sound (R : List GoVal) :
    ∀ k i, (k, i) ∈ buildResIndex R →
      ∃ m, R.get? i = some (.vobj m) ∧ resObjKey m = k ∧
        asStr (lookupKV m "mode") = "managed" := by
  induction R using List.reverseRecOn with
  | nil =>
      intro k i h
      exact absurd h (by simp [buildResIndex])
  | append_singleton R x ih =>
      intro k i h
      have hold : (k, i) ∈ buildResIndex R →
          ∃ m, (R ++ [x]).get? i = some (.vobj m) ∧ resObjKey m = k ∧
            asStr (lookupKV m "mode") = "managed" := by
        intro h2
        obtain ⟨m, hg, hk, hmode⟩ := ih k i h2
        refine ⟨m, ?_, hk, hmode⟩
        have hlen : i < R.length := by
          by_contra hge
          rw [List.get?_eq_none.mpr (by omega)] at hg
          exact absurd hg (by simp)
        rw [List.get?_append hlen]
        exact hg
      cases x with
      | vnil => rw [buildResIndex_snoc_nil] at h; exact hold h
      | vbool b => rw [buildResIndex_snoc_bool] at h; exact hold h
      | vint n => rw [buildResIndex_snoc_int] at h; exact hold h
      | vfloat d => rw [buildResIndex_snoc_float] at h; exact hold h
      | vstr s => rw [buildResIndex_snoc_str] at h; exact hold h
      | varr xs => rw [buildResIndex_snoc_arr] at h; exact hold h
      | vobj m =>
          rw [buildResIndex_snoc_obj] at h
          by_cases hm : asStr (lookupKV m "mode") = "managed"
          · rw [if_pos hm] at h
            rcases List.mem_cons.mp h with h1 | h1
            · injection h1 with h2 h3
              subst h3
              exact ⟨m, by rw [List.get?_concat_length], h2.symm, hm⟩
            · exact hold h1
          · rw [if_neg hm] at h
            exact hold h

theorem buildResIndex_complete (R : List GoVal) :
    ∀ p m, R.get? p = some (.vobj m) →
      asStr (lookupKV m "mode") = "managed" →
      (resObjKey m, p) ∈ buildResIndex R := by
  induction R using List.reverseRecOn with
  | nil =>
      intro p m hg _
      exact absurd hg (by simp)
  | append_singleton R x ih =>
      intro p m hg hmode
      by_cases hp : p < R.length
      · rw [List.get?_append hp] at hg
        have hmem := ih p m hg hmode
        cases x with
        | vnil => rw [buildResIndex_snoc_nil]; exact hmem
        | vbool b => rw [buildResIndex_snoc_bool]; exact hmem
        | vint n => rw [buildResIndex_snoc_int]; exact hmem
        | vfloat d => rw [buildResIndex_snoc_float]; exact hmem
        | vstr s => rw [buildResIndex_snoc_str]; exact hmem
        | varr xs => rw [buildResIndex_snoc_arr]; exact hmem
        | vobj m2 =>
            rw [buildResIndex_snoc_obj]
            by_cases hm2 : asStr (lookupKV m2 "mode") = "managed"
            · rw [if_pos hm2]
              exact List.mem_cons_of_mem _ hmem
            · rw [if_neg hm2]
              exact hmem
      · have hlen : p < (R ++ [x]).length := by
          rcases Nat.lt_or_ge p (R ++ [x]).length with h1 | h1
          · exact h1
          · rw [List.get?_eq_none.mpr h1] at hg
            exact absurd hg (by simp)
        have hpe : p = R.length := by
          rw [List.length_append] at hlen
          simp at hlen
          omega
        subst hpe
        rw [List.get?_concat_length] at hg
        injection hg with hg2
        cases x with
        | vnil => exact absurd hg2 (by intro hc; injection hc)
        | vbool b => exact absurd hg2 (by intro hc; injection hc)
        | vint n => exact absurd hg2 (by intro hc; injection hc)
        | vfloat d => exact absurd hg2 (by intro hc; injection hc)
        | vstr s => exact absurd hg2 (by intro hc; injection hc)
        | varr xs => exact absurd hg2 (by intro hc; injection hc)
        | vobj m2 =>
            injection hg2 with hg3
            subst hg3
            rw [buildResIndex_snoc_obj, if_pos hmode]
            exact List.mem_cons_self _ _

theorem bump_lookup_other (st : List (String × GoVal)) (q : String)
    (h1 : ("version" : String) ≠ q) (h2 : ("serial" : String) ≠ q) :
    lookupKV (bumpSerialVersion st) q = lookupKV st q := by
  dsimp only [bumpSerialVersion]
  have hstep : ∀ st1 : List (String × GoVal), lookupKV st1 q = lookupKV st q →
      lookupKV (match lookupKV st1 "serial" with
        | some (.vfloat d) =>
            if Dec.nonpos d then setKV st1 "serial" (.vint 1)
            else setKV st1 "serial" (.vint (Dec.toInt d + 1))
        | some (.vint n) =>
            if n ≤ 0 then setKV st1 "serial" (.vint 1)
            else setKV st1 "serial" (.vint (n + 1))
        | _ => setKV st1 "serial" (.vint 1)) q = lookupKV st q := by
    intro st1 hh
    split
    · split
      · rw [lookupKV_setKV_ne _ _ _ _ h2]
        exact hh
      · rw [lookupKV_setKV_ne _ _ _ _ h2]
        exact hh
    · split
      · rw [lookupKV_setKV_ne _ _ _ _ h2]
        exact hh
      · rw [lookupKV_setKV_ne _ _ _ _ h2]
        exact hh
    · rw [lookupKV_setKV_ne _ _ _ _ h2]
      exact hh
  apply hstep
  split
  · split
    · exact lookupKV_setKV_ne _ _ _ _ h1
    · rfl
  · split
    · exact lookupKV_setKV_ne _ _ _ _ h1
    · rfl
  · exact lookupKV_setKV_ne _ _ _ _ h1

theorem resOf_eq (rc : ResourceConfig) : resOf rc = .vobj (resFields rc) := rfl

theorem rt_resOf (rc : ResourceConfig) :
    rtNum (sortAllKV (resOf rc)) = .vobj (mRT rc) := rfl

theorem resFields_keys_nodup (rc : ResourceConfig) :
    ((resFields rc).map Prod.fst).Nodup := by
  simp only [resFields]
  split
  · show (["mode", "type", "name", "provider", "instances"] : List String).Nodup
    decide
  · show (["module", "mode", "type", "name", "provider", "instances"] :
      List String).Nodup
    decide

theorem resFields_mode (rc : ResourceConfig) :
    lookupKV (resFields rc) "mode" = some (.vstr "managed") := by
  simp only [resFields]
  split
  · rfl
  · rfl

theorem resFields_type (rc : ResourceConfig) :
    lookupKV (resFields rc) "type" = some (.vstr rc.type) := by
  simp only [resFields]
  split
  · rfl
  · rfl

theorem resFields_name (rc : ResourceConfig) :
    lookupKV (resFields rc) "name" = some (.vstr rc.name) := by
  simp only [resFields]
  split
  · rfl
  · rfl

theorem resFields_provider (rc : ResourceConfig) :
    lookupKV (resFields rc) "provider" =
      some (.vstr (providerAddressForType rc.type)) := by
  simp only [resFields]
  split
  · rfl
  · rfl

theorem resFields_instances (rc : ResourceConfig) :
    lookupKV (resFields rc) "instances" =
      some (.varr [newInstance rc.attrs]) := by
  simp only [resFields]
  split
  · rfl
  · rfl

theorem mRT_mode (rc : ResourceConfig) :
    lookupKV (mRT rc) "mode" = some (.vstr "managed") :=
  lookupKV_jsonRT _ _ (resFields_keys_nodup rc) _ (resFields_mode rc)

theorem mRT_type (rc : ResourceConfig) :
    lookupKV (mRT rc) "type" = some (.vstr rc.type) :=
  lookupKV_jsonRT _ _ (resFields_keys_nodup rc) _ (resFields_type rc)

theorem mRT_name (rc : ResourceConfig) :
    lookupKV (mRT rc) "name" = some (.vstr rc.name) :=
  lookupKV_jsonRT _ _ (resFields_keys_nodup rc) _ (resFields_name rc)

theorem mRT_provider (rc : ResourceConfig) :
    lookupKV (mRT rc) "provider" =
      some (.vstr (providerAddressForType rc.type)) :=
  lookupKV_jsonRT _ _ (resFields_keys_nodup rc) _ (resFields_provider rc)

theorem mRT_instances (rc : ResourceConfig) :
    lookupKV (mRT rc) "instances" =
      some (.varr [rtNum (sortAllKV (newInstance rc.attrs))]) :=
  lookupKV_jsonRT _ _ (resFields_keys_nodup rc) _ (resFields_instances rc)

theorem mRT_module (rc : ResourceConfig) :
    lookupKV (mRT rc) "module" =
      (if modulePathToString rc.modulePath = "" then none
       else some (.vstr (modulePathToString rc.modulePath))) := by
  by_cases hmod : modulePathToString rc.modulePath = ""
  · rw [if_pos hmod]
    show lookupKV (rtNumObj (sortKV (sortAllObj (resFields rc)))) "module" = none
    apply lookupKV_jsonRT_none
    simp only [resFields]
    rw [if_pos hmod]
    rfl
  · rw [if_neg hmod]
    have hl : lookupKV (resFields rc) "module" =
        some (.vstr (modulePathToString rc.modulePath)) := by
      simp only [resFields]
      rw [if_neg hmod]
      rfl
    exact lookupKV_jsonRT _ _ (resFields_keys_nodup rc) _ hl

theorem mRT_managed (rc : ResourceConfig) :
    asStr (lookupKV (mRT rc) "mode") = "managed" := by
  rw [mRT_mode]
  rfl

theorem mRT_key (rc : ResourceConfig) : resObjKey (mRT rc) = keyOf rc := by
  rw [resObjKey, mRT_module, mRT_type, mRT_name]
  by_cases hmod : modulePathToString rc.modulePath = ""
  · rw [if_pos hmod]
    show resourceKey "" rc.type rc.name = keyOf rc
    rw [keyOf, hmod]
  · rw [if_neg hmod]
    rfl

theorem mergeFold_fresh (cfgs : List ResourceConfig) :
    ∀ (R : List GoVal) (ix : List (String × Nat)) (c : Bool),
    (∀ rc ∈ cfgs, lookupIdx ix (keyOf rc) = none) →
    (cfgs.map keyOf).Nodup →
    (cfgs.foldl mergeOne ⟨R, ix, c⟩).resources = R ++ cfgs.map resOf ∧
    (cfgs.foldl mergeOne ⟨R, ix, c⟩).changed = (c || !cfgs.isEmpty) := by
  induction cfgs with
  | nil =>
      intro R ix c _ _
      constructor
      · simp
      · simp
  | cons rc t ih =>
      intro R ix c h hnd
      rw [List.foldl_cons]
      have hnone : lookupIdx ix
          (resourceKey (modulePathToString rc.modulePath) rc.type rc.name) =
          none := h rc (List.mem_cons_self _ _)
      have hstep : mergeOne ⟨R, ix, c⟩ rc =
          ⟨R ++ [resOf rc], (keyOf rc, R.length) :: ix, true⟩ := by
        simp only [mergeOne]
        rw [hnone]
        rfl
      rw [hstep]
      simp only [List.map_cons, List.nodup_cons] at hnd
      have hnone2 : ∀ rc2 ∈ t,
          lookupIdx ((keyOf rc, R.length) :: ix) (keyOf rc2) = none := by
        intro rc2 hm
        rw [lookupIdx]
        have hne : keyOf rc ≠ keyOf rc2 := by
          intro he
          exact hnd.1 (he ▸ List.mem_map.mpr ⟨rc2, hm, rfl⟩)
        rw [if_neg hne]
        exact h rc2 (List.mem_cons_of_mem _ hm)
      obtain ⟨h1, h2⟩ := ih (R ++ [resOf rc]) ((keyOf rc, R.length) :: ix) true
        hnone2 hnd.2
      constructor
      · rw [h1, List.append_assoc]
        rfl
      · rw [h2]
        simp

theorem mergeAll_fresh (cfgs : List ResourceConfig)
    (hnd : (cfgs.map keyOf).Nodup) :
    mergeAll cfgs [] = (cfgs.map resOf, !cfgs.isEmpty) := by
  have h0 : ∀ rc ∈ cfgs, lookupIdx ([] : List (String × Nat)) (keyOf rc) = none :=
    fun rc _ => rfl
  obtain ⟨h1, h2⟩ := mergeFold_fresh cfgs [] [] false h0 hnd
  have hmain : mergeAll cfgs [] =
      ((cfgs.foldl mergeOne ⟨[], [], false⟩).resources,
        (cfgs.foldl mergeOne ⟨[], [], false⟩).changed) := rfl
  rw [hmain, h1, h2]
  simp

theorem mergeAttrs_rt (rc : ResourceConfig)
    (hwf : wfKeys (.vobj rc.attrs) = true) :
    mergeAttrs rc.attrs (rtNumObj (sortKV (sortAllObj (sanitizeMapKVs rc.attrs)))) =
      (rtNumObj (sortKV (sortAllObj (sanitizeMapKVs rc.attrs))), false) := by
  apply mergeAttrs_id
  intro kv hkv
  have hndA : (rc.attrs.map Prod.fst).Nodup := ((wfKeys_vobj_iff _).mp hwf).1
  have hlv : lookupKV rc.attrs kv.1 = some kv.2 :=
    lookupKV_of_mem _ _ _ hndA hkv
  have hsm : lookupKV (sanitizeMapKVs rc.attrs) kv.1 =
      some (sanitizeValue kv.2) := by
    rw [sanitizeMapKVs, lookupKV_map_values, hlv]
    rfl
  have hndS : ((sanitizeMapKVs rc.attrs).map Prod.fst).Nodup := by
    rw [sanitizeMapKVs, List.map_map]
    have hc : (rc.attrs.map (Prod.fst ∘ fun kv => (kv.1, sanitizeValue kv.2)))
        = rc.attrs.map Prod.fst := by
      apply List.map_congr_left
      intro y _
      rfl
    rw [hc]
    exact hndA
  refine ⟨rtNum (sortAllKV (sanitizeValue kv.2)), ?_, ?_⟩
  · exact lookupKV_jsonRT _ _ hndS _ hsm
  · exact deepEqual_jsonRT _ (sanitizeValue_wf _
      (((wfKeys_vobj_iff _).mp hwf).2 kv hkv))

theorem mergeInstance_rt (rc : ResourceConfig)
    (hwf : wfKeys (.vobj rc.attrs) = true) :
    mergeInstance rc.attrs (rtNum (sortAllKV (newInstance rc.attrs))) =
      (rtNum (sortAllKV (newInstance rc.attrs)), false) := by
  have hshape : rtNum (sortAllKV (newInstance rc.attrs)) =
      .vobj [("attributes",
          .vobj (rtNumObj (sortKV (sortAllObj (sanitizeMapKVs rc.attrs))))),
        ("schema_version", .vfloat ⟨0, 0⟩)] := rfl
  rw [hshape]
  have hattrs : asObj (lookupKV [("attributes",
      (.vobj (rtNumObj (sortKV (sortAllObj (sanitizeMapKVs rc.attrs)))) : GoVal)),
      ("schema_version", .vfloat ⟨0, 0⟩)] "attributes") =
      rtNumObj (sortKV (sortAllObj (sanitizeMapKVs rc.attrs))) := rfl
  show ((GoVal.vobj (setKV [("attributes",
      .vobj (rtNumObj (sortKV (sortAllObj (sanitizeMapKVs rc.attrs))))),
      ("schema_version", .vfloat ⟨0, 0⟩)] "attributes"
        (.vobj (mergeAttrs rc.attrs (asObj (lookupKV [("attributes",
          (.vobj (rtNumObj (sortKV (sortAllObj (sanitizeMapKVs rc.attrs)))) : GoVal)),
          ("schema_version", .vfloat ⟨0, 0⟩)] "attributes"))).1))),
      (mergeAttrs rc.attrs (asObj (lookupKV [("attributes",
        (.vobj (rtNumObj (sortKV (sortAllObj (sanitizeMapKVs rc.attrs)))) : GoVal)),
        ("schema_version", .vfloat ⟨0, 0⟩)] "attributes"))).2) =
    (.vobj [("attributes",
        .vobj (rtNumObj (sortKV (sortAllObj (sanitizeMapKVs rc.attrs))))),
      ("schema_version", .vfloat ⟨0, 0⟩)], false)
  rw [hattrs, mergeAttrs_rt rc hwf]
  rfl

theorem mergeOne_found_one (st : MergeState) (rc : ResourceConfig) (j : Nat)
    (m : List (String × GoVal)) (pv inst : GoVal)
    (hj : lookupIdx st.index
        (resourceKey (modulePathToString rc.modulePath) rc.type rc.name) = some j)
    (hget : st.resources.get? j = some (.vobj m))
    (hprov : lookupKV m "provider" = some pv)
    (hinst : lookupKV m "instances" = some (.varr [inst])) :
    mergeOne st rc =
      { resources := st.resources.set j (.vobj (setKV m "instances"
          (.varr [(mergeInstance rc.attrs inst).1]))),
        index := st.index,
        changed := st.changed || ((mergeInstance rc.attrs inst).2 || false) } := by
  simp only [mergeOne]
  rw [hj]
  dsimp only []
  rw [hget]
  dsimp only []
  have hprovne : ¬((lookupKV m "provider").isNone = true) := by
    rw [hprov]
    simp
  rw [if_neg hprovne, hinst]
  rfl

theorem mergeOne_rt_fix (cfgs : List ResourceConfig)
    (hnd : (cfgs.map keyOf).Nodup)
    (hwf : ∀ rc2 ∈ cfgs, wfKeys (.vobj rc2.attrs) = true)
    (rc : ResourceConfig) (hm : rc ∈ cfgs) :
    mergeOne ⟨cfgs.map (fun r => .vobj (mRT r)),
      buildResIndex (cfgs.map (fun r => .vobj (mRT r))), false⟩ rc =
    ⟨cfgs.map (fun r => .vobj (mRT r)),
      buildResIndex (cfgs.map (fun r => .vobj (mRT r))), false⟩ := by
  obtain ⟨p, hp⟩ := List.mem_iff_get?.mp hm
  have hgetp : (cfgs.map (fun r => GoVal.vobj (mRT r))).get? p =
      some (.vobj (mRT rc)) := by
    rw [List.get?_map, hp]
    rfl
  have hmem : (keyOf rc, p) ∈
      buildResIndex (cfgs.map (fun r => GoVal.vobj (mRT r))) := by
    have h1 := buildResIndex_complete _ p (mRT rc) hgetp (mRT_managed rc)
    rw [mRT_key] at h1
    exact h1
  obtain ⟨j, hj⟩ := lookupIdx_isSome_of_mem _ _ _ hmem
  have hjmem := lookupIdx_mem_of _ _ _ hj
  obtain ⟨m2, hget2, hkey2, hmode2⟩ := buildResIndex_sound _ _ _ hjmem
  have hgj : (cfgs.get? j).map (fun r => GoVal.vobj (mRT r)) =
      some (.vobj m2) := by
    rw [← List.get?_map]
    exact hget2
  cases hq : cfgs.get? j with
  | none =>
      rw [hq] at hgj
      exact absurd hgj (by simp)
  | some rc2 =>
      rw [hq] at hgj
      injection hgj with hgj2
      injection hgj2 with hgj3
      rw [← hgj3, mRT_key] at hkey2
      have hjp : j = p := by
        have h1 : (cfgs.map keyOf).get? j = some (keyOf rc) := by
          rw [List.get?_map, hq]
          show some (keyOf rc2) = some (keyOf rc)
          rw [hkey2]
        have h2 : (cfgs.map keyOf).get? p = some (keyOf rc) := by
          rw [List.get?_map, hp]
          rfl
        have hlj : j < (cfgs.map keyOf).length := by
          by_contra hge
          rw [List.get?_eq_none.mpr (by omega)] at h1
          exact absurd h1 (by simp)
        exact List.get?_inj hlj hnd (h1.trans h2.symm)
      subst hjp
      rw [hp] at hq
      injection hq with hq2
      subst hq2
      have hget2' : (cfgs.map (fun r => GoVal.vobj (mRT r))).get? j =
          some (.vobj (mRT rc)) := by
        rw [hget2, hgj3]
      have hone := mergeOne_found_one
        ⟨cfgs.map (fun r => .vobj (mRT r)),
          buildResIndex (cfgs.map (fun r => .vobj (mRT r))), false⟩
        rc j (mRT rc) (.vstr (providerAddressForType rc.type))
        (rtNum (sortAllKV (newInstance rc.attrs)))
        hj hget2' (mRT_provider rc) (mRT_instances rc)
      rw [hone, mergeInstance_rt rc (hwf rc hm)]
      have hsetkv : setKV (mRT rc) "instances"
          (.varr [((rtNum (sortAllKV (newInstance rc.attrs)), false) :
            GoVal × Bool).1]) = mRT rc := setKV_self _ _ _ (mRT_instances rc)
      rw [hsetkv, listSet_self _ _ _ hget2']
      rfl

theorem mergeAll_rt (cfgs : List ResourceConfig)
    (hnd : (cfgs.map keyOf).Nodup)
    (hwf : ∀ rc2 ∈ cfgs, wfKeys (.vobj rc2.attrs) = true) :
    mergeAll cfgs (cfgs.map (fun r => .vobj (mRT r))) =
      (cfgs.map (fun r => .vobj (mRT r)), false) := by
  have hfix := foldl_mergeOne_fix cfgs
    ⟨cfgs.map (fun r => .vobj (mRT r)),
      buildResIndex (cfgs.map (fun r => .vobj (mRT r))), false⟩
    (fun rc hm => mergeOne_rt_fix cfgs hnd hwf rc hm)
  have hmain : mergeAll cfgs (cfgs.map (fun r => .vobj (mRT r))) =
      ((cfgs.foldl mergeOne
        ⟨cfgs.map (fun r => .vobj (mRT r)),
          buildResIndex (cfgs.map (fun r => .vobj (mRT r))), false⟩).resources,
       (cfgs.foldl mergeOne
        ⟨cfgs.map (fun r => .vobj (mRT r)),
          buildResIndex (cfgs.map (fun r => .vobj (mRT r))), false⟩).changed) := rfl
  rw [hmain, hfix]

theorem initialState_wf (lineage : String) :
    wfKeys (.vobj (initialState lineage)) = true := by
  rw [wfKeys_vobj_iff]
  constructor
  · show (["version", "serial", "lineage", "outputs", "resources"] :
      List String).Nodup
    decide
  · intro kv hm
    simp only [initialState, List.mem_cons, List.not_mem_nil, or_false] at hm
    rcases hm with rfl | rfl | rfl | rfl | rfl
    · rfl
    · rfl
    · rfl
    · rfl
    · rfl

theorem st0_rt_wf (lineage : String) :
    wfKeys (.vobj ([("lineage", .vstr lineage), ("outputs", .vobj []),
      ("resources", .varr []), ("serial", .vfloat ⟨1, 0⟩),
      ("version", .vfloat ⟨4, 0⟩)] : List (String × GoVal))) = true := by
  rw [wfKeys_vobj_iff]
  constructor
  · show (["lineage", "outputs", "resources", "serial", "version"] :
      List String).Nodup
    decide
  · intro kv hm
    simp only [List.mem_cons, List.not_mem_nil, or_false] at hm
    rcases hm with rfl | rfl | rfl | rfl | rfl
    · rfl
    · rfl
    · rfl
    · rfl
    · rfl

theorem patchLiterals_initial (lineage : String) (cfgs : List ResourceConfig)
    (hnd : (cfgs.map keyOf).Nodup) :
    patchLiterals cfgs (marshal (.vobj (initialState lineage))) =
      (if cfgs.isEmpty
       then some (marshal (.vobj (initialState lineage)), false)
       else some (marshal (.vobj (bumpSerialVersion (setKV [("lineage", .vstr lineage), ("outputs", .vobj []),
      ("resources", .varr []), ("serial", .vfloat ⟨1, 0⟩),
      ("version", .vfloat ⟨4, 0⟩)]
      "resources" (.varr (cfgs.map resOf))))), true)) := by
  have hwf0 := initialState_wf lineage
  have hparse := jsonParse_marshal (.vobj (initialState lineage)) hwf0
  have hrt : jsonRT (.vobj (initialState lineage)) =
      .vobj [("lineage", .vstr lineage), ("outputs", .vobj []),
      ("resources", .varr []), ("serial", .vfloat ⟨1, 0⟩),
      ("version", .vfloat ⟨4, 0⟩)] := rfl
  rw [hrt] at hparse
  simp only [patchLiterals]
  rw [hparse]
  dsimp only []
  have hens : ensureOutputs [("lineage", .vstr lineage), ("outputs", .vobj []),
      ("resources", .varr []), ("serial", .vfloat ⟨1, 0⟩),
      ("version", .vfloat ⟨4, 0⟩)] =
      [("lineage", .vstr lineage), ("outputs", .vobj []),
      ("resources", .varr []), ("serial", .vfloat ⟨1, 0⟩),
      ("version", .vfloat ⟨4, 0⟩)] := rfl
  rw [hens]
  have hres0 : asArr (lookupKV [("lineage", .vstr lineage), ("outputs", .vobj []),
      ("resources", .varr []), ("serial", .vfloat ⟨1, 0⟩),
      ("version", .vfloat ⟨4, 0⟩)] "resources") = ([] : List GoVal) := rfl
  rw [hres0]
  rw [mergeAll_fresh cfgs hnd]
  by_cases hemp : cfgs.isEmpty = true
  · rw [if_pos hemp, hemp]
    rfl
  · rw [if_neg hemp]
    have hf : cfgs.isEmpty = false := by
      rcases Bool.eq_false_or_eq_true cfgs.isEmpty with h1 | h1
      · exact absurd h1 hemp
      · exact h1
    rw [hf]
    rfl

theorem bool_eq_of_iff (a b : Bool) (h : a = true ↔ b = true) : a = b := by
  cases a <;> cases b <;> simp_all

theorem norm_idem (d : Dec) : Dec.norm (Dec.norm d) = Dec.norm d := by
  rcases norm_canonical d with ⟨hm0, hz⟩ | ⟨hm, hmod, k, hmul, he⟩
  · rw [hz, Dec.norm]
    simp
  · exact norm_canon_exit _ hmod

theorem natDigitsF_fuel : ∀ (f f' n : Nat), n ≤ f → n ≤ f' →
    natDigitsF f n = natDigitsF f' n := by
  intro f
  induction f with
  | zero =>
      intro f' n hf hf'
      have h0 : n = 0 := Nat.le_zero.mp hf
      subst h0
      cases f' with
      | zero => rfl
      | succ f' =>
          show [digitChar (0 % 10)] = (if 0 < 10 then [digitChar 0]
            else natDigitsF f' (0 / 10) ++ [digitChar (0 % 10)])
          rw [if_pos (by omega)]
  | succ f ih =>
      intro f' n hf hf'
      cases f' with
      | zero =>
          have h0 : n = 0 := Nat.le_zero.mp hf'
          subst h0
          show (if 0 < 10 then [digitChar 0]
            else natDigitsF f (0 / 10) ++ [digitChar (0 % 10)]) = [digitChar (0 % 10)]
          rw [if_pos (by omega)]
      | succ f2 =>
          show (if n < 10 then [digitChar n]
            else natDigitsF f (n / 10) ++ [digitChar (n % 10)]) =
            (if n < 10 then [digitChar n]
            else natDigitsF f2 (n / 10) ++ [digitChar (n % 10)])
          by_cases h10 : n < 10
          · rw [if_pos h10, if_pos h10]
          · rw [if_neg h10, if_neg h10, ih f2 (n / 10) (by omega) (by omega)]

theorem natDigits_mul10 (n : Nat) (h : n ≠ 0) :
    natDigits (n * 10) = natDigits n ++ ['0'] := by
  have hun : ∀ f n2 : Nat, natDigitsF (f + 1) n2 =
      (if n2 < 10 then [digitChar n2]
       else natDigitsF f (n2 / 10) ++ [digitChar (n2 % 10)]) := fun f n2 => rfl
  rw [natDigits, show n * 10 = (n * 10 - 1) + 1 from by omega, hun]
  rw [if_neg (by omega)]
  have hdiv : (n * 10 - 1 + 1) / 10 = n := by omega
  have hmod : (n * 10 - 1 + 1) % 10 = 0 := by omega
  rw [hdiv, hmod]
  rw [natDigitsF_fuel (n * 10 - 1) n n (by omega) (le_refl n)]
  rfl

theorem natDigits_shift (n : Nat) (h : n ≠ 0) : ∀ k : Nat,
    natDigits (n * 10 ^ k) = natDigits n ++ List.replicate k '0' := by
  intro k
  induction k with
  | zero => simp
  | succ k ih =>
      have hstep : n * 10 ^ (k + 1) = (n * 10 ^ k) * 10 := by ring
      rw [hstep, natDigits_mul10 _ (by positivity), ih,
        List.replicate_succ', List.append_assoc]

theorem intChars_decChars (n : Int) : intChars n = decChars (Dec.norm ⟨n, 0⟩) := by
  by_cases h0 : n = 0
  · subst h0
    rfl
  · rcases norm_canonical ⟨n, 0⟩ with ⟨hm0, hz⟩ | ⟨hm, hmod, k, hmul, he⟩
    · exact absurd hm0 h0
    · have hmproj : (⟨n, (0 : Int)⟩ : Dec).m = n := rfl
      have heproj : (⟨n, (0 : Int)⟩ : Dec).e = 0 := rfl
      rw [hmproj] at hmul
      rw [heproj] at he
      have hez : (Dec.norm ⟨n, 0⟩).e = (k : Int) := by omega
      rw [decChars, if_pos (by omega)]
      have hkk : (Dec.norm ⟨n, 0⟩).e.toNat = k := by omega
      rw [hkk, intChars, intChars]
      have hpow : (0 : Int) < 10 ^ k := pow_pos (by norm_num) k
      have hsig : (n < 0) ↔ ((Dec.norm ⟨n, 0⟩).m < 0) := by
        constructor
        · intro hn
          by_contra hge
          have hpos : 0 < (Dec.norm ⟨n, 0⟩).m := by omega
          have : 0 < (Dec.norm ⟨n, 0⟩).m * 10 ^ k := mul_pos hpos hpow
          omega
        · intro hn
          have : (Dec.norm ⟨n, 0⟩).m * 10 ^ k < 0 := mul_neg_of_neg_of_pos hn hpow
          omega
      have habs : n.natAbs = (Dec.norm ⟨n, 0⟩).m.natAbs * 10 ^ k := by
        have h1 := congrArg Int.natAbs hmul
        rw [Int.natAbs_mul, Int.natAbs_pow] at h1
        have h2 : (10 : Int).natAbs = 10 := rfl
        rw [h2] at h1
        exact h1.symm
      rw [habs, natDigits_shift _ (Int.natAbs_ne_zero.mpr hm) k]
      by_cases hneg : n < 0
      · rw [if_pos hneg, if_pos (hsig.mp hneg), List.append_assoc]
      · rw [if_neg hneg, if_neg (fun hc => hneg (hsig.mpr hc)), List.append_assoc]

theorem deq_shift (m e : Int) (k : Nat) (b : Dec) :
    Dec.deq ⟨m * 10 ^ k, e⟩ b = Dec.deq ⟨m, e + k⟩ b := by
  simp only [Dec.deq]
  by_cases hA : e + (k : Int) ≤ b.e
  · have hA2 : e ≤ b.e := by omega
    rw [if_pos hA, if_pos hA2]
    apply bool_eq_of_iff
    rw [beq_iff_eq, beq_iff_eq]
    have hexp : (b.e - e).toNat = (b.e - (e + (k : Int))).toNat + k := by omega
    rw [hexp, pow_add, ← mul_assoc]
    constructor
    · intro hh
      exact mul_right_cancel₀ (by positivity) hh
    · intro hh
      rw [hh]
  · by_cases hB : e ≤ b.e
    · rw [if_pos hB, if_neg hA]
      apply bool_eq_of_iff
      rw [beq_iff_eq, beq_iff_eq]
      have hexp : (b.e - e).toNat + (e + (k : Int) - b.e).toNat = k := by omega
      constructor
      · intro hh
        rw [← hexp, pow_add, mul_comm ((10 : Int) ^ (b.e - e).toNat)
          ((10 : Int) ^ (e + (k : Int) - b.e).toNat), ← mul_assoc] at hh
        exact mul_right_cancel₀ (by positivity) hh
      · intro hh
        rw [← hh, mul_assoc, ← pow_add]
        rw [show (e + (k : Int) - b.e).toNat + (b.e - e).toNat = k from by omega]
    · rw [if_neg hB, if_neg hA]
      apply bool_eq_of_iff
      rw [beq_iff_eq, beq_iff_eq]
      have hexp : (e + (k : Int) - b.e).toNat = k + (e - b.e).toNat := by omega
      rw [hexp, pow_add, ← mul_assoc]

theorem deq_zero (e : Int) (b : Dec) : Dec.deq ⟨0, e⟩ b = (b.m == 0) := by
  simp only [Dec.deq]
  by_cases h : e ≤ b.e
  · rw [if_pos h]
    apply bool_eq_of_iff
    rw [beq_iff_eq, beq_iff_eq]
    constructor
    · intro hh
      rcases mul_eq_zero.mp hh.symm with h1 | h1
      · exact h1
      · exact absurd h1 (by positivity)
    · intro hh
      rw [hh, zero_mul]
  · rw [if_neg h]
    apply bool_eq_of_iff
    rw [beq_iff_eq, beq_iff_eq, zero_mul]
    exact ⟨fun hh => hh.symm, fun hh => hh.symm⟩

theorem deq_norm_left (a b : Dec) : Dec.deq (Dec.norm a) b = Dec.deq a b := by
  rcases norm_canonical a with ⟨hm0, hz⟩ | ⟨hm, hmod, k, hmul, he⟩
  · rw [hz, deq_zero]
    obtain ⟨am, ae⟩ := a
    have hm2 : am = 0 := hm0
    subst hm2
    rw [deq_zero]
  · have hna : Dec.norm a = ⟨(Dec.norm a).m, a.e + (k : Int)⟩ := by
      rw [← he]
    rw [hna, ← deq_shift, hmul]

theorem deq_int_int (n k : Int) : Dec.deq ⟨n, 0⟩ ⟨k, 0⟩ = (n == k) := by
  simp only [Dec.deq]
  rw [if_pos (le_refl (0 : Int))]
  norm_num

theorem fmtV_float_norm (d : Dec) : fmtV (.vfloat (Dec.norm d)) = fmtV (.vfloat d) := by
  show (⟨floatChars (Dec.norm d)⟩ : String) = ⟨floatChars d⟩
  simp only [floatChars]
  rw [norm_idem]

theorem fmtV_int_norm (n : Int) : fmtV (.vfloat (Dec.norm ⟨n, 0⟩)) = fmtV (.vint n) := by
  show (⟨floatChars (Dec.norm ⟨n, 0⟩)⟩ : String) = (⟨intChars n⟩ : String)
  simp only [floatChars]
  rw [norm_idem, ← intChars_decChars]

theorem deepEqualObj_iff (l ys : List (String × GoVal)) :
    deepEqualObj l ys = true ↔
      ∀ kv ∈ l, deepEqualJSONish kv.2 ((lookupKV ys kv.1).getD .vnil) = true := by
  induction l with
  | nil => simp [deepEqualObj]
  | cons kv t ih =>
      obtain ⟨k0, v0⟩ := kv
      rw [deepEqualObj, Bool.and_eq_true, ih]
      constructor
      · rintro ⟨h1, h2⟩ kv2 hm
        rcases List.mem_cons.mp hm with rfl | hm2
        · exact h1
        · exact h2 kv2 hm2
      · intro h
        exact ⟨h _ (List.mem_cons_self _ _),
          fun kv2 hm => h kv2 (List.mem_cons_of_mem _ hm)⟩

theorem deepEqualArr_refl_of (xs : List GoVal)
    (h : ∀ x ∈ xs, deepEqualJSONish x x = true) : deepEqualArr xs xs = true := by
  induction xs with
  | nil => rfl
  | cons x t ih =>
      rw [deepEqualArr, Bool.and_eq_true]
      exact ⟨h x (List.mem_cons_self _ _),
        ih (fun y hy => h y (List.mem_cons_of_mem _ hy))⟩

theorem deepEqual_refl_main : ∀ n : Nat, ∀ v : GoVal, szV v ≤ n →
    wfKeys v = true → deepEqualJSONish v v = true := by
  intro n
  induction n using Nat.strong_induction_on with
  | _ n ih =>
    intro v hsz hwf
    match v with
    | .vnil => rfl
    | .vbool b =>
        show (b == b) = true
        simp
    | .vint k =>
        show (k == k) = true
        simp
    | .vfloat d =>
        show Dec.deq d d = true
        exact deq_refl d
    | .vstr s =>
        show (s == s) = true
        simp
    | .varr xs =>
        show deepEqualArr xs xs = true
        have hsz2 : szV (.varr xs) = 1 + szElems xs := rfl
        rw [hsz2] at hsz
        apply deepEqualArr_refl_of
        intro x hx
        exact ih (szElems xs) (by omega) x (szV_le_szElems x xs hx)
          ((wfKeys_varr_iff xs).mp hwf x hx)
    | .vobj kvs =>
        show (kvs.length == kvs.length && deepEqualObj kvs kvs) = true
        have hsz2 : szV (.vobj kvs) = 1 + szMembers kvs := rfl
        rw [hsz2] at hsz
        rw [Bool.and_eq_true]
        refine ⟨by simp, ?_⟩
        apply deepEqualObj_of
        intro kv hkv
        have hnd := ((wfKeys_vobj_iff kvs).mp hwf).1
        obtain ⟨k0, v0⟩ := kv
        rw [lookupKV_of_mem kvs k0 v0 hnd hkv]
        show deepEqualJSONish v0 v0 = true
        exact ih (szMembers kvs) (by omega) v0 (szV_le_szMembers (k0, v0) kvs hkv)
          (((wfKeys_vobj_iff kvs).mp hwf).2 (k0, v0) hkv)

theorem deepEqual_refl (v : GoVal) (h : wfKeys v = true) :
    deepEqualJSONish v v = true := deepEqual_refl_main (szV v) v le_rfl h

theorem deepEqualObj_rt_left (kvs ys : List (String × GoVal))
    (hIH : ∀ kv ∈ kvs, ∀ b, deepEqualJSONish (rtNum (sortAllKV kv.2)) b =
      deepEqualJSONish kv.2 b) :
    deepEqualObj (rtNumObj (sortKV (sortAllObj kvs))) ys = deepEqualObj kvs ys := by
  apply bool_eq_of_iff
  rw [deepEqualObj_iff, deepEqualObj_iff]
  constructor
  · intro h kv hm
    obtain ⟨k0, v0⟩ := kv
    have hmem : (k0, rtNum (sortAllKV v0)) ∈ rtNumObj (sortKV (sortAllObj kvs)) := by
      rw [rtNumObj_eq_map]
      apply List.mem_map.mpr
      refine ⟨(k0, sortAllKV v0), ?_, rfl⟩
      apply (sortKV_perm _).mem_iff.mpr
      rw [sortAllObj_eq_map]
      exact List.mem_map.mpr ⟨(k0, v0), hm, rfl⟩
    have h3 : deepEqualJSONish (rtNum (sortAllKV v0))
        ((lookupKV ys k0).getD .vnil) = true := h _ hmem
    rw [hIH (k0, v0) hm] at h3
    exact h3
  · intro h kv hm
    rw [rtNumObj_eq_map] at hm
    rcases List.mem_map.mp hm with ⟨kv1, hkv1, heq1⟩
    have hkv2 : kv1 ∈ sortAllObj kvs := (sortKV_perm _).mem_iff.mp hkv1
    rw [sortAllObj_eq_map] at hkv2
    rcases List.mem_map.mp hkv2 with ⟨kv0, hkv0, heq0⟩
    obtain ⟨k0, v0⟩ := kv0
    rw [← heq1, ← heq0]
    show deepEqualJSONish (rtNum (sortAllKV v0)) ((lookupKV ys k0).getD .vnil) = true
    rw [hIH (k0, v0) hkv0]
    exact h (k0, v0) hkv0

theorem deepEqualArr_rt_left (xs : List GoVal)
    (hIH : ∀ x ∈ xs, ∀ b, deepEqualJSONish (rtNum (sortAllKV x)) b =
      deepEqualJSONish x b) :
    ∀ ys, deepEqualArr (rtNumArr (sortAllArr xs)) ys = deepEqualArr xs ys := by
  induction xs with
  | nil =>
      intro ys
      rfl
  | cons x t ih =>
      intro ys
      have hstep : rtNumArr (sortAllArr (x :: t)) =
          rtNum (sortAllKV x) :: rtNumArr (sortAllArr t) := rfl
      rw [hstep]
      cases ys with
      | nil => rfl
      | cons y ty =>
          rw [deepEqualArr, deepEqualArr]
          rw [hIH x (List.mem_cons_self _ _) y,
            ih (fun z hz b => hIH z (List.mem_cons_of_mem _ hz) b) ty]

theorem deepEqual_rt_left_main : ∀ n : Nat, ∀ a : GoVal, szV a ≤ n →
    wfKeys a = true →
    ∀ b : GoVal, deepEqualJSONish (rtNum (sortAllKV a)) b = deepEqualJSONish a b := by
  intro n
  induction n using Nat.strong_induction_on with
  | _ n ih =>
    intro a hsz hwf b
    match a with
    | .vnil => rfl
    | .vbool x => rfl
    | .vstr s => rfl
    | .vint m =>
        match b with
        | .vnil => rfl
        | .vfloat y =>
            show Dec.deq (Dec.norm ⟨m, 0⟩) y = Dec.deq ⟨m, 0⟩ y
            exact deq_norm_left _ _
        | .vint k2 =>
            show Dec.deq (Dec.norm ⟨m, 0⟩) ⟨k2, 0⟩ = (m == k2)
            rw [deq_norm_left, deq_int_int]
        | .vstr s =>
            show (fmtV (.vfloat (Dec.norm ⟨m, 0⟩)) == fmtV (.vstr s)) =
              (fmtV (.vint m) == fmtV (.vstr s))
            rw [fmtV_int_norm]
        | .vbool x =>
            show (fmtV (.vfloat (Dec.norm ⟨m, 0⟩)) == fmtV (.vbool x)) =
              (fmtV (.vint m) == fmtV (.vbool x))
            rw [fmtV_int_norm]
        | .varr ys =>
            show (fmtV (.vfloat (Dec.norm ⟨m, 0⟩)) == fmtV (.varr ys)) =
              (fmtV (.vint m) == fmtV (.varr ys))
            rw [fmtV_int_norm]
        | .vobj ys =>
            show (fmtV (.vfloat (Dec.norm ⟨m, 0⟩)) == fmtV (.vobj ys)) =
              (fmtV (.vint m) == fmtV (.vobj ys))
            rw [fmtV_int_norm]
    | .vfloat d =>
        match b with
        | .vnil => rfl
        | .vfloat y =>
            show Dec.deq (Dec.norm d) y = Dec.deq d y
            exact deq_norm_left _ _
        | .vint k2 =>
            show Dec.deq (Dec.norm d) ⟨k2, 0⟩ = Dec.deq d ⟨k2, 0⟩
            exact deq_norm_left _ _
        | .vstr s =>
            show (fmtV (.vfloat (Dec.norm d)) == fmtV (.vstr s)) =
              (fmtV (.vfloat d) == fmtV (.vstr s))
            rw [fmtV_float_norm]
        | .vbool x =>
            show (fmtV (.vfloat (Dec.norm d)) == fmtV (.vbool x)) =
              (fmtV (.vfloat d) == fmtV (.vbool x))
            rw [fmtV_float_norm]
        | .varr ys =>
            show (fmtV (.vfloat (Dec.norm d)) == fmtV (.varr ys)) =
              (fmtV (.vfloat d) == fmtV (.varr ys))
            rw [fmtV_float_norm]
        | .vobj ys =>
            show (fmtV (.vfloat (Dec.norm d)) == fmtV (.vobj ys)) =
              (fmtV (.vfloat d) == fmtV (.vobj ys))
            rw [fmtV_float_norm]
    | .varr xs =>
        have hsz2 : szV (.varr xs) = 1 + szElems xs := rfl
        rw [hsz2] at hsz
        have hIH : ∀ x ∈ xs, ∀ b2, deepEqualJSONish (rtNum (sortAllKV x)) b2 =
            deepEqualJSONish x b2 := by
          intro x hx b2
          exact ih (szElems xs) (by omega) x (szV_le_szElems x xs hx)
            ((wfKeys_varr_iff xs).mp hwf x hx) b2
        match b with
        | .vnil => rfl
        | .varr ys =>
            show deepEqualArr (rtNumArr (sortAllArr xs)) ys = deepEqualArr xs ys
            exact deepEqualArr_rt_left xs hIH ys
        | .vbool x => rfl
        | .vint k2 => rfl
        | .vfloat y => rfl
        | .vstr s => rfl
        | .vobj ys => rfl
    | .vobj kvs =>
        have hsz2 : szV (.vobj kvs) = 1 + szMembers kvs := rfl
        rw [hsz2] at hsz
        have hIH : ∀ kv ∈ kvs, ∀ b2, deepEqualJSONish (rtNum (sortAllKV kv.2)) b2 =
            deepEqualJSONish kv.2 b2 := by
          intro kv hkv b2
          exact ih (szMembers kvs) (by omega) kv.2 (szV_le_szMembers kv kvs hkv)
            (((wfKeys_vobj_iff kvs).mp hwf).2 kv hkv) b2
        match b with
        | .vnil => rfl
        | .vobj ys =>
            show ((rtNumObj (sortKV (sortAllObj kvs))).length == ys.length &&
              deepEqualObj (rtNumObj (sortKV (sortAllObj kvs))) ys) =
              (kvs.length == ys.length && deepEqualObj kvs ys)
            rw [rt_obj_length, deepEqualObj_rt_left kvs ys hIH]
        | .vbool x => rfl
        | .vint k2 => rfl
        | .vfloat y => rfl
        | .vstr s => rfl
        | .varr ys => rfl

theorem deepEqual_rt_left (a : GoVal) (hwf : wfKeys a = true) (b : GoVal) :
    deepEqualJSONish (rtNum (sortAllKV a)) b = deepEqualJSONish a b :=
  deepEqual_rt_left_main (szV a) a le_rfl hwf b

theorem mergeAttrs_eq_foldl (cfgAttrs attrs : List (String × GoVal)) :
    mergeAttrs cfgAttrs attrs = cfgAttrs.foldl mergeAttrStep (attrs, false) := rfl

theorem resFields_key (rc : ResourceConfig) :
    resObjKey (resFields rc) = keyOf rc := by
  rw [resObjKey, resFields_type, resFields_name]
  by_cases hmod : modulePathToString rc.modulePath = ""
  · have hl : lookupKV (resFields rc) "module" = none := by
      simp only [resFields]
      rw [if_pos hmod]
      rfl
    rw [hl]
    show resourceKey "" rc.type rc.name = keyOf rc
    rw [keyOf, hmod]
  · have hl : lookupKV (resFields rc) "module" =
        some (.vstr (modulePathToString rc.modulePath)) := by
      simp only [resFields]
      rw [if_neg hmod]
      rfl
    rw [hl]
    rfl

theorem resFields_managed (rc : ResourceConfig) :
    asStr (lookupKV (resFields rc) "mode") = "managed" := by
  rw [resFields_mode]
  rfl

theorem asStr_rt (v : GoVal) :
    asStr (some (rtNum (sortAllKV v))) = asStr (some v) := by
  match v with
  | .vnil => rfl
  | .vbool b => rfl
  | .vint n => rfl
  | .vfloat d => rfl
  | .vstr s => rfl
  | .varr xs => rfl
  | .vobj kvs => rfl

theorem asStr_lookup_rt (m : List (String × GoVal)) (q : String)
    (hnd : (m.map Prod.fst).Nodup) :
    asStr (lookupKV (rtNumObj (sortKV (sortAllObj m))) q) =
      asStr (lookupKV m q) := by
  cases hl : lookupKV m q with
  | none => rw [lookupKV_jsonRT_none m q hl]
  | some v => rw [lookupKV_jsonRT m q hnd v hl, asStr_rt]

theorem resObjKey_rt (m : List (String × GoVal))
    (hnd : (m.map Prod.fst).Nodup) :
    resObjKey (rtNumObj (sortKV (sortAllObj m))) = resObjKey m := by
  rw [resObjKey, resObjKey, asStr_lookup_rt m _ hnd, asStr_lookup_rt m _ hnd,
    asStr_lookup_rt m _ hnd]

theorem mode_rt (m : List (String × GoVal)) (hnd : (m.map Prod.fst).Nodup) :
    asStr (lookupKV (rtNumObj (sortKV (sortAllObj m))) "mode") =
      asStr (lookupKV m "mode") := asStr_lookup_rt m _ hnd

theorem rtArr_map (xs : List GoVal) :
    rtNumArr (sortAllArr xs) = xs.map (fun x => rtNum (sortAllKV x)) := by
  rw [rtNumArr_eq_map, sortAllArr_eq_map, List.map_map]
  rfl

theorem listGet_set_eq (l : List GoVal) (i : Nat) (x a : GoVal)
    (h : l.get? i = some x) : (l.set i a).get? i = some a := by
  induction l generalizing i with
  | nil => exact absurd h (by simp)
  | cons y t ih =>
      cases i with
      | zero => rfl
      | succ j =>
          rw [List.get?_cons_succ] at h
          rw [List.set_cons_succ, List.get?_cons_succ]
          exact ih j h

theorem listGet_set_ne (l : List GoVal) (i j : Nat) (a : GoVal)
    (h : i ≠ j) : (l.set i a).get? j = l.get? j := by
  rw [List.get?_set]
  simp [h]

theorem buildResIndex_rt (R : List GoVal)
    (hwf : ∀ x ∈ R, wfKeys x = true) :
    buildResIndex (R.map (fun x => rtNum (sortAllKV x))) = buildResIndex R := by
  induction R using List.reverseRecOn with
  | nil => rfl
  | append_singleton R x ih =>
      rw [List.map_append]
      have ihr := ih (fun y hy => hwf y (List.mem_append.mpr (Or.inl hy)))
      have hwx : wfKeys x = true := hwf x (List.mem_append.mpr (Or.inr (by simp)))
      cases x with
      | vnil =>
          rw [show ([GoVal.vnil].map (fun x => rtNum (sortAllKV x))) = [GoVal.vnil]
            from rfl]
          rw [buildResIndex_snoc_nil, buildResIndex_snoc_nil, ihr]
      | vbool b =>
          rw [show ([GoVal.vbool b].map (fun x => rtNum (sortAllKV x))) =
            [GoVal.vbool b] from rfl]
          rw [buildResIndex_snoc_bool, buildResIndex_snoc_bool, ihr]
      | vint n =>
          rw [show ([GoVal.vint n].map (fun x => rtNum (sortAllKV x))) =
            [GoVal.vfloat (Dec.norm ⟨n, 0⟩)] from rfl]
          rw [buildResIndex_snoc_float, buildResIndex_snoc_int, ihr]
      | vfloat d =>
          rw [show ([GoVal.vfloat d].map (fun x => rtNum (sortAllKV x))) =
            [GoVal.vfloat (Dec.norm d)] from rfl]
          rw [buildResIndex_snoc_float, buildResIndex_snoc_float, ihr]
      | vstr s =>
          rw [show ([GoVal.vstr s].map (fun x => rtNum (sortAllKV x))) =
            [GoVal.vstr s] from rfl]
          rw [buildResIndex_snoc_str, buildResIndex_snoc_str, ihr]
      | varr xs =>
          rw [show ([GoVal.varr xs].map (fun x => rtNum (sortAllKV x))) =
            [GoVal.varr (rtNumArr (sortAllArr xs))] from rfl]
          rw [buildResIndex_snoc_arr, buildResIndex_snoc_arr, ihr]
      | vobj m =>
          rw [show ([GoVal.vobj m].map (fun x => rtNum (sortAllKV x))) =
            [GoVal.vobj (rtNumObj (sortKV (sortAllObj m)))] from rfl]
          rw [buildResIndex_snoc_obj, buildResIndex_snoc_obj, ihr]
          have hnd : (m.map Prod.fst).Nodup := ((wfKeys_vobj_iff m).mp hwx).1
          rw [mode_rt m hnd, resObjKey_rt m hnd, List.length_map]

theorem buildResIndex_set (R : List GoVal) (j : Nat)
    (m m2 : List (String × GoVal))
    (hget : R.get? j = some (.vobj m))
    (hkey : resObjKey m2 = resObjKey m)
    (hmode : asStr (lookupKV m2 "mode") = asStr (lookupKV m "mode")) :
    buildResIndex (R.set j (.vobj m2)) = buildResIndex R := by
  induction R using List.reverseRecOn generalizing j with
  | nil => exact absurd hget (by simp)
  | append_singleton R x ih =>
      by_cases hj : j < R.length
      · rw [List.get?_append hj] at hget
        rw [List.set_append_left _ _ hj]
        cases x with
        | vnil => rw [buildResIndex_snoc_nil, buildResIndex_snoc_nil, ih j hget]
        | vbool b => rw [buildResIndex_snoc_bool, buildResIndex_snoc_bool, ih j hget]
        | vint n => rw [buildResIndex_snoc_int, buildResIndex_snoc_int, ih j hget]
        | vfloat d => rw [buildResIndex_snoc_float, buildResIndex_snoc_float, ih j hget]
        | vstr s => rw [buildResIndex_snoc_str, buildResIndex_snoc_str, ih j hget]
        | varr xs => rw [buildResIndex_snoc_arr, buildResIndex_snoc_arr, ih j hget]
        | vobj mm =>
            rw [buildResIndex_snoc_obj, buildResIndex_snoc_obj, ih j hget]
            rw [(List.length_set R j (.vobj m2) : (R.set j (.vobj m2)).length = R.length)]
      · have hjlen : j < (R ++ [x]).length := by
          rcases Nat.lt_or_ge j (R ++ [x]).length with h1 | h1
          · exact h1
          · rw [List.get?_eq_none.mpr h1] at hget
            exact absurd hget (by simp)
        have hje : j = R.length := by
          rw [List.length_append] at hjlen
          simp at hjlen
          omega
        subst hje
        rw [List.get?_concat_length] at hget
        injection hget with hget2
        cases x with
        | vnil => exact absurd hget2 (by intro hc; injection hc)
        | vbool b => exact absurd hget2 (by intro hc; injection hc)
        | vint n => exact absurd hget2 (by intro hc; injection hc)
        | vfloat d => exact absurd hget2 (by intro hc; injection hc)
        | vstr s => exact absurd hget2 (by intro hc; injection hc)
        | varr xs => exact absurd hget2 (by intro hc; injection hc)
        | vobj mm =>
            injection hget2 with hget3
            subst hget3
            have hset : (R ++ [GoVal.vobj mm]).set R.length (.vobj m2) =
                R ++ [GoVal.vobj m2] := by
              rw [List.set_append_right _ _ (by omega)]
              simp
            rw [hset, buildResIndex_snoc_obj, buildResIndex_snoc_obj, hkey, hmode]

theorem resObjKey_setKV (m : List (String × GoVal)) (q : String) (v : GoVal)
    (h1 : q ≠ "module") (h2 : q ≠ "type") (h3 : q ≠ "name") :
    resObjKey (setKV m q v) = resObjKey m := by
  rw [resObjKey, resObjKey, lookupKV_setKV_ne _ _ _ _ h1,
    lookupKV_setKV_ne _ _ _ _ h2, lookupKV_setKV_ne _ _ _ _ h3]

theorem mode_setKV (m : List (String × GoVal)) (q : String) (v : GoVal)
    (h : q ≠ "mode") :
    asStr (lookupKV (setKV m q v) "mode") = asStr (lookupKV m "mode") := by
  rw [lookupKV_setKV_ne _ _ _ _ h]

theorem mergeOne_none_eq (st : MergeState) (rc : ResourceConfig)
    (h : lookupIdx st.index
      (resourceKey (modulePathToString rc.modulePath) rc.type rc.name) = none) :
    mergeOne st rc = ⟨st.resources ++ [resOf rc],
      (keyOf rc, st.resources.length) :: st.index, true⟩ := by
  simp only [mergeOne]
  rw [h]
  rfl

theorem mergeOne_found_eq (st : MergeState) (rc : ResourceConfig) (i : Nat)
    (m : List (String × GoVal))
    (hj : lookupIdx st.index
        (resourceKey (modulePathToString rc.modulePath) rc.type rc.name) = some i)
    (hget : st.resources.get? i = some (.vobj m)) :
    mergeOne st rc =
      { resources := st.resources.set i (.vobj (setKV (provFill m rc.type)
          "instances" (.varr (instStep rc.attrs
            (asArr (lookupKV (provFill m rc.type) "instances"))).1))),
        index := st.index,
        changed := st.changed || (instStep rc.attrs
          (asArr (lookupKV (provFill m rc.type) "instances"))).2 } := by
  simp only [mergeOne]
  rw [hj]
  dsimp only []
  rw [hget]
  rfl

theorem mergeAttrStep_lookup_ne (acc : List (String × GoVal) × Bool)
    (kv : String × GoVal) (q : String) (h : kv.1 ≠ q) :
    lookupKV (mergeAttrStep acc kv).1 q = lookupKV acc.1 q := by
  simp only [mergeAttrStep]
  cases hl : lookupKV acc.1 kv.1 with
  | none =>
      show lookupKV (setKV acc.1 kv.1 (sanitizeValue kv.2)) q = lookupKV acc.1 q
      exact lookupKV_setKV_ne _ _ _ _ h
  | some ov =>
      show lookupKV (if deepEqualJSONish ov (sanitizeValue kv.2) then acc
        else (setKV acc.1 kv.1 (sanitizeValue kv.2), true)).1 q = lookupKV acc.1 q
      by_cases hd : deepEqualJSONish ov (sanitizeValue kv.2) = true
      · rw [if_pos hd]
      · rw [if_neg hd]
        exact lookupKV_setKV_ne _ _ _ _ h

theorem mergeAttrStep_self (acc : List (String × GoVal) × Bool)
    (kv : String × GoVal) (hwf : wfKeys kv.2 = true) :
    ∃ s, lookupKV (mergeAttrStep acc kv).1 kv.1 = some s ∧
      deepEqualJSONish s (sanitizeValue kv.2) = true := by
  simp only [mergeAttrStep]
  cases hl : lookupKV acc.1 kv.1 with
  | none =>
      refine ⟨sanitizeValue kv.2, ?_, deepEqual_refl _ (sanitizeValue_wf _ hwf)⟩
      show lookupKV (setKV acc.1 kv.1 (sanitizeValue kv.2)) kv.1 = _
      exact lookupKV_setKV_eq _ _ _
  | some ov =>
      by_cases hd : deepEqualJSONish ov (sanitizeValue kv.2) = true
      · refine ⟨ov, ?_, hd⟩
        show lookupKV (if deepEqualJSONish ov (sanitizeValue kv.2) then acc
          else (setKV acc.1 kv.1 (sanitizeValue kv.2), true)).1 kv.1 = some ov
        rw [if_pos hd]
        exact hl
      · refine ⟨sanitizeValue kv.2, ?_, deepEqual_refl _ (sanitizeValue_wf _ hwf)⟩
        show lookupKV (if deepEqualJSONish ov (sanitizeValue kv.2) then acc
          else (setKV acc.1 kv.1 (sanitizeValue kv.2), true)).1 kv.1 = _
        rw [if_neg hd]
        exact lookupKV_setKV_eq _ _ _

theorem mergeAttrs_fold_preserve : ∀ (l : List (String × GoVal))
    (acc : List (String × GoVal) × Bool) (q : String), q ∉ l.map Prod.fst →
    lookupKV (l.foldl mergeAttrStep acc).1 q = lookupKV acc.1 q := by
  intro l
  induction l with
  | nil =>
      intro acc q _
      rfl
  | cons kv t ih =>
      intro acc q hq
      rw [List.foldl_cons]
      simp only [List.map_cons, List.mem_cons, not_or] at hq
      rw [ih _ q hq.2]
      exact mergeAttrStep_lookup_ne acc kv q (fun he => hq.1 he.symm)

theorem mergeAttrs_fold_post : ∀ (l : List (String × GoVal))
    (acc : List (String × GoVal) × Bool), (l.map Prod.fst).Nodup →
    (∀ kv ∈ l, wfKeys kv.2 = true) →
    ∀ kv ∈ l, ∃ s, lookupKV (l.foldl mergeAttrStep acc).1 kv.1 = some s ∧
      deepEqualJSONish s (sanitizeValue kv.2) = true := by
  intro l
  induction l with
  | nil =>
      intro acc _ _ kv hm
      exact absurd hm (by simp)
  | cons kv0 t ih =>
      intro acc hnd hwf kv hm
      rw [List.foldl_cons]
      simp only [List.map_cons, List.nodup_cons] at hnd
      rcases List.mem_cons.mp hm with rfl | hm2
      · obtain ⟨s, hs1, hs2⟩ := mergeAttrStep_self acc kv
          (hwf kv (List.mem_cons_self _ _))
        refine ⟨s, ?_, hs2⟩
        rw [mergeAttrs_fold_preserve t _ kv.1 hnd.1]
        exact hs1
      · exact ih (mergeAttrStep acc kv0) hnd.2
          (fun y hy => hwf y (List.mem_cons_of_mem _ hy)) kv hm2

theorem mergeAttrs_post (cfgAttrs A : List (String × GoVal))
    (hnd : (cfgAttrs.map Prod.fst).Nodup)
    (hwf : ∀ kv ∈ cfgAttrs, wfKeys kv.2 = true) :
    attrsSat cfgAttrs (mergeAttrs cfgAttrs A).1 := by
  intro kv hm
  rw [mergeAttrs_eq_foldl]
  exact mergeAttrs_fold_post cfgAttrs (A, false) hnd hwf kv hm

theorem mergeInstance_vobj_eq (a : List (String × GoVal))
    (im : List (String × GoVal)) :
    mergeInstance a (.vobj im) =
      (.vobj (setKV im "attributes"
        (.vobj (mergeAttrs a (asObj (lookupKV im "attributes"))).1)),
       (mergeAttrs a (asObj (lookupKV im "attributes"))).2) := rfl

theorem instSat_newInstance (rc : ResourceConfig)
    (hnd : (rc.attrs.map Prod.fst).Nodup)
    (hwf : ∀ kv ∈ rc.attrs, wfKeys kv.2 = true) :
    instSat rc.attrs (newInstance rc.attrs) := by
  refine ⟨sanitizeMapKVs rc.attrs, rfl, ?_⟩
  intro kv hm
  refine ⟨sanitizeValue kv.2, ?_, deepEqual_refl _ (sanitizeValue_wf _ (hwf kv hm))⟩
  rw [sanitizeMapKVs, lookupKV_map_values,
    lookupKV_of_mem rc.attrs kv.1 kv.2 hnd hm]
  rfl

theorem instSat_mergeInstance (rc : ResourceConfig) (i : GoVal)
    (hnd : (rc.attrs.map Prod.fst).Nodup)
    (hwf : ∀ kv ∈ rc.attrs, wfKeys kv.2 = true) :
    instSat rc.attrs (mergeInstance rc.attrs i).1 := by
  match i with
  | .vobj im =>
      rw [mergeInstance_vobj_eq]
      exact ⟨(mergeAttrs rc.attrs (asObj (lookupKV im "attributes"))).1,
        lookupKV_setKV_eq _ _ _, mergeAttrs_post _ _ hnd hwf⟩
  | .vnil => exact trivial
  | .vbool b => exact trivial
  | .vint n => exact trivial
  | .vfloat d => exact trivial
  | .vstr s => exact trivial
  | .varr xs => exact trivial

theorem instStep_sat (rc : ResourceConfig) (instRaw : List GoVal)
    (hnd : (rc.attrs.map Prod.fst).Nodup)
    (hwf : ∀ kv ∈ rc.attrs, wfKeys kv.2 = true) :
    (instStep rc.attrs instRaw).1 ≠ [] ∧
    ∀ i ∈ (instStep rc.attrs instRaw).1, instSat rc.attrs i := by
  rw [instStep]
  by_cases hlen : instRaw.length = 0
  · rw [if_pos hlen]
    refine ⟨by simp, ?_⟩
    intro i hi
    rcases List.mem_singleton.mp hi with rfl
    exact instSat_newInstance rc hnd hwf
  · rw [if_neg hlen]
    constructor
    · show ((instRaw.map (mergeInstance rc.attrs)).map (fun p => p.1)) ≠ []
      intro hc
      have hlc := congrArg List.length hc
      simp at hlc
      subst hlc
      exact hlen rfl
    · intro i hi
      rcases List.mem_map.mp hi with ⟨p, hp, rfl⟩
      rcases List.mem_map.mp hp with ⟨i0, hi0, rfl⟩
      exact instSat_mergeInstance rc i0 hnd hwf

theorem resSat_merged (rc : ResourceConfig) (m : List (String × GoVal))
    (hnd : (rc.attrs.map Prod.fst).Nodup)
    (hwf : ∀ kv ∈ rc.attrs, wfKeys kv.2 = true) :
    resSat rc.attrs (setKV (provFill m rc.type) "instances"
      (.varr (instStep rc.attrs
        (asArr (lookupKV (provFill m rc.type) "instances"))).1)) := by
  obtain ⟨hne, hsat⟩ := instStep_sat rc
    (asArr (lookupKV (provFill m rc.type) "instances")) hnd hwf
  refine ⟨?_, (instStep rc.attrs
    (asArr (lookupKV (provFill m rc.type) "instances"))).1,
    lookupKV_setKV_eq _ _ _, hne, hsat⟩
  rw [lookupKV_setKV_ne _ _ _ _ (by decide), provFill]
  by_cases hpn : (lookupKV m "provider").isNone = true
  · rw [if_pos hpn]
    exact ⟨_, lookupKV_setKV_eq _ _ _⟩
  · rw [if_neg hpn]
    cases hl : lookupKV m "provider" with
    | none =>
        rw [hl] at hpn
        exact absurd rfl hpn
    | some pv => exact ⟨pv, rfl⟩

theorem resSat_new (rc : ResourceConfig)
    (hnd : (rc.attrs.map Prod.fst).Nodup)
    (hwf : ∀ kv ∈ rc.attrs, wfKeys kv.2 = true) :
    resSat rc.attrs (resFields rc) := by
  refine ⟨⟨_, resFields_provider rc⟩, [newInstance rc.attrs],
    resFields_instances rc, by simp, ?_⟩
  intro i hi
  rcases List.mem_singleton.mp hi with rfl
  exact instSat_newInstance rc hnd hwf

theorem provFill_key (m : List (String × GoVal)) (ty : String) :
    resObjKey (provFill m ty) = resObjKey m := by
  rw [provFill]
  split
  · rw [resObjKey_setKV _ _ _ (by decide) (by decide) (by decide)]
  · rfl

theorem provFill_mode (m : List (String × GoVal)) (ty : String) :
    asStr (lookupKV (provFill m ty) "mode") = asStr (lookupKV m "mode") := by
  rw [provFill]
  split
  · rw [mode_setKV _ _ _ (by decide)]
  · rfl

theorem index_pos_ne (R : List GoVal) (k1 k2 : String) (i j : Nat)
    (h1 : (k1, i) ∈ buildResIndex R) (h2 : (k2, j) ∈ buildResIndex R)
    (hne : k1 ≠ k2) : i ≠ j := by
  intro he
  subst he
  obtain ⟨m1, hg1, hk1, hmo1⟩ := buildResIndex_sound R k1 i h1
  obtain ⟨m2, hg2, hk2, hmo2⟩ := buildResIndex_sound R k2 i h2
  rw [hg1] at hg2
  injection hg2 with hg3
  injection hg3 with hg4
  exact hne (by rw [← hk1, ← hk2, hg4])

theorem mergeFold_sat : ∀ (cfgs : List ResourceConfig) (st : MergeState),
    st.index = buildResIndex st.resources →
    (∀ r ∈ st.resources, wfKeys r = true) →
    (cfgs.map keyOf).Nodup →
    (∀ rc ∈ cfgs, wfKeys (.vobj rc.attrs) = true) →
    (cfgs.foldl mergeOne st).index =
      buildResIndex (cfgs.foldl mergeOne st).resources ∧
    (∀ rc0 : ResourceConfig, keyOf rc0 ∉ cfgs.map keyOf →
      stSat st rc0 → stSat (cfgs.foldl mergeOne st) rc0) ∧
    ∀ rc ∈ cfgs, stSat (cfgs.foldl mergeOne st) rc := by
  intro cfgs
  induction cfgs with
  | nil =>
      intro st hinv hwfres _ _
      exact ⟨hinv, fun _ _ h => h, fun rc hm => absurd hm (by simp)⟩
  | cons rc t ih =>
      intro st hinv hwfres hnd hwfc
      rw [List.foldl_cons]
      simp only [List.map_cons, List.nodup_cons] at hnd
      have hrcwf := hwfc rc (List.mem_cons_self _ _)
      have hndA : (rc.attrs.map Prod.fst).Nodup := ((wfKeys_vobj_iff _).mp hrcwf).1
      have hwfA : ∀ kv ∈ rc.attrs, wfKeys kv.2 = true :=
        ((wfKeys_vobj_iff _).mp hrcwf).2
      cases hlk : lookupIdx st.index
        (resourceKey (modulePathToString rc.modulePath) rc.type rc.name) with
      | none =>
          have heq := mergeOne_none_eq st rc hlk
          have hinv1 : ((keyOf rc, st.resources.length) :: st.index) =
              buildResIndex (st.resources ++ [resOf rc]) := by
            rw [resOf_eq, buildResIndex_snoc_obj, resFields_managed,
              if_pos rfl, resFields_key, ← hinv]
          have hwfres1 : ∀ r ∈ st.resources ++ [resOf rc], wfKeys r = true := by
            intro r hr
            rcases List.mem_append.mp hr with h1 | h1
            · exact hwfres r h1
            · rcases List.mem_singleton.mp h1 with rfl
              exact newResource_wf _ _ _ _ hrcwf
          have hsat1 : stSat ⟨st.resources ++ [resOf rc],
              (keyOf rc, st.resources.length) :: st.index, true⟩ rc := by
            refine ⟨st.resources.length, resFields rc, ?_, ?_,
              resSat_new rc hndA hwfA⟩
            · show (if keyOf rc = keyOf rc then some st.resources.length
                else lookupIdx st.index (keyOf rc)) = some st.resources.length
              rw [if_pos rfl]
            · show (st.resources ++ [resOf rc]).get? st.resources.length =
                some (.vobj (resFields rc))
              rw [resOf_eq]
              exact List.get?_concat_length _ _
          have hpres1 : ∀ rc0 : ResourceConfig, keyOf rc0 ≠ keyOf rc →
              stSat st rc0 →
              stSat ⟨st.resources ++ [resOf rc],
                (keyOf rc, st.resources.length) :: st.index, true⟩ rc0 := by
            rintro rc0 hne ⟨j, m, hj, hg, hres⟩
            refine ⟨j, m, ?_, ?_, hres⟩
            · show (if keyOf rc = keyOf rc0 then some st.resources.length
                else lookupIdx st.index (keyOf rc0)) = some j
              rw [if_neg (fun he => hne he.symm)]
              exact hj
            · have hjlen : j < st.resources.length := by
                by_contra hge
                rw [List.get?_eq_none.mpr (by omega)] at hg
                exact absurd hg (by simp)
              rw [List.get?_append hjlen]
              exact hg
          rw [heq]
          obtain ⟨hi2, hp2, hs2⟩ := ih ⟨st.resources ++ [resOf rc],
            (keyOf rc, st.resources.length) :: st.index, true⟩ hinv1 hwfres1
            hnd.2 (fun rc2 hm2 => hwfc rc2 (List.mem_cons_of_mem _ hm2))
          refine ⟨hi2, ?_, ?_⟩
          · intro rc0 hnm hsat0
            simp only [List.map_cons, List.mem_cons, not_or] at hnm
            exact hp2 rc0 hnm.2 (hpres1 rc0 hnm.1 hsat0)
          · intro rc2 hm2
            rcases List.mem_cons.mp hm2 with rfl | hm3
            · exact hp2 rc2 hnd.1 hsat1
            · exact hs2 rc2 hm3
      | some i =>
          have hmem : (keyOf rc, i) ∈ buildResIndex st.resources := by
            rw [← hinv]
            exact lookupIdx_mem_of _ _ _ hlk
          obtain ⟨m, hget, hkeym, hmodem⟩ := buildResIndex_sound _ _ _ hmem
          have heq := mergeOne_found_eq st rc i m hlk hget
          have hkey2 : resObjKey (setKV (provFill m rc.type) "instances"
              (.varr (instStep rc.attrs
                (asArr (lookupKV (provFill m rc.type) "instances"))).1)) =
              resObjKey m := by
            rw [resObjKey_setKV _ _ _ (by decide) (by decide) (by decide),
              provFill_key]
          have hmode2 : asStr (lookupKV (setKV (provFill m rc.type) "instances"
              (.varr (instStep rc.attrs
                (asArr (lookupKV (provFill m rc.type) "instances"))).1)) "mode") =
              asStr (lookupKV m "mode") := by
            rw [mode_setKV _ _ _ (by decide), provFill_mode]
          have hinv1 : st.index = buildResIndex (st.resources.set i
              (.vobj (setKV (provFill m rc.type) "instances"
                (.varr (instStep rc.attrs
                  (asArr (lookupKV (provFill m rc.type) "instances"))).1)))) := by
            rw [buildResIndex_set st.resources i m _ hget hkey2 hmode2, ← hinv]
          have hwfres1 := mergeOne_wf st rc hwfres hrcwf
          rw [heq] at hwfres1
          have hsat1 : stSat ⟨st.resources.set i
              (.vobj (setKV (provFill m rc.type) "instances"
                (.varr (instStep rc.attrs
                  (asArr (lookupKV (provFill m rc.type) "instances"))).1))),
              st.index, st.changed || (instStep rc.attrs
                (asArr (lookupKV (provFill m rc.type) "instances"))).2⟩ rc := by
            refine ⟨i, _, hlk, listGet_set_eq _ _ _ _ hget,
              resSat_merged rc m hndA hwfA⟩
          have hpres1 : ∀ rc0 : ResourceConfig, keyOf rc0 ≠ keyOf rc →
              stSat st rc0 →
              stSat ⟨st.resources.set i
                (.vobj (setKV (provFill m rc.type) "instances"
                  (.varr (instStep rc.attrs
                    (asArr (lookupKV (provFill m rc.type) "instances"))).1))),
                st.index, st.changed || (instStep rc.attrs
                  (asArr (lookupKV (provFill m rc.type) "instances"))).2⟩ rc0 := by
            rintro rc0 hne ⟨j, m0, hj, hg, hres⟩
            have hjmem : (keyOf rc0, j) ∈ buildResIndex st.resources := by
              rw [← hinv]
              exact lookupIdx_mem_of _ _ _ hj
            have hij : i ≠ j := index_pos_ne st.resources (keyOf rc) (keyOf rc0)
              i j hmem hjmem (fun he => hne he.symm)
            refine ⟨j, m0, hj, ?_, hres⟩
            rw [listGet_set_ne _ _ _ _ hij]
            exact hg
          rw [heq]
          obtain ⟨hi2, hp2, hs2⟩ := ih ⟨st.resources.set i
            (.vobj (setKV (provFill m rc.type) "instances"
              (.varr (instStep rc.attrs
                (asArr (lookupKV (provFill m rc.type) "instances"))).1))),
            st.index, st.changed || (instStep rc.attrs
              (asArr (lookupKV (provFill m rc.type) "instances"))).2⟩ hinv1
            hwfres1 hnd.2 (fun rc2 hm2 => hwfc rc2 (List.mem_cons_of_mem _ hm2))
          refine ⟨hi2, ?_, ?_⟩
          · intro rc0 hnm hsat0
            simp only [List.map_cons, List.mem_cons, not_or] at hnm
            exact hp2 rc0 hnm.2 (hpres1 rc0 hnm.1 hsat0)
          · intro rc2 hm2
            rcases List.mem_cons.mp hm2 with rfl | hm3
            · exact hp2 rc2 hnd.1 hsat1
            · exact hs2 rc2 hm3

theorem any_snd_false (l : List GoVal) :
    (l.map (fun i => ((i, false) : GoVal × Bool))).any (fun p => p.2) = false := by
  induction l with
  | nil => rfl
  | cons x t ih =>
      rw [List.map_cons, List.any_cons, ih]
      rfl

theorem mergeInstance_rt2 (rc : ResourceConfig) (im am : List (String × GoVal))
    (hwf_im : wfKeys (.vobj im) = true)
    (hatt : lookupKV im "attributes" = some (.vobj am))
    (hsat : attrsSat rc.attrs am) :
    mergeInstance rc.attrs (.vobj (rtNumObj (sortKV (sortAllObj im)))) =
      (.vobj (rtNumObj (sortKV (sortAllObj im))), false) := by
  have hnd_im : (im.map Prod.fst).Nodup := ((wfKeys_vobj_iff _).mp hwf_im).1
  have hatt2 : lookupKV (rtNumObj (sortKV (sortAllObj im))) "attributes" =
      some (.vobj (rtNumObj (sortKV (sortAllObj am)))) :=
    lookupKV_jsonRT im "attributes" hnd_im _ hatt
  have hwf_am : wfKeys (.vobj am) = true :=
    lookupKV_wf im "attributes" _ hwf_im hatt
  have hnd_am : (am.map Prod.fst).Nodup := ((wfKeys_vobj_iff _).mp hwf_am).1
  have hma : mergeAttrs rc.attrs (rtNumObj (sortKV (sortAllObj am))) =
      (rtNumObj (sortKV (sortAllObj am)), false) := by
    apply mergeAttrs_id
    intro kv hm
    obtain ⟨s, hls, hds⟩ := hsat kv hm
    refine ⟨rtNum (sortAllKV s), lookupKV_jsonRT am kv.1 hnd_am s hls, ?_⟩
    rw [deepEqual_rt_left s (lookupKV_wf am kv.1 s hwf_am hls)]
    exact hds
  rw [mergeInstance_vobj_eq, hatt2]
  have hasO : asObj (some (.vobj (rtNumObj (sortKV (sortAllObj am))))) =
      rtNumObj (sortKV (sortAllObj am)) := rfl
  rw [hasO, hma]
  rw [show ((rtNumObj (sortKV (sortAllObj am)), false) :
      List (String × GoVal) × Bool).1 = rtNumObj (sortKV (sortAllObj am)) from rfl]
  rw [setKV_self _ _ _ hatt2]

theorem mergeInstance_rt_nonobj (a : List (String × GoVal)) (i : GoVal)
    (h : ∀ im, i ≠ .vobj im) :
    mergeInstance a (rtNum (sortAllKV i)) = (rtNum (sortAllKV i), false) := by
  match i with
  | .vnil => rfl
  | .vbool b => rfl
  | .vint n => rfl
  | .vfloat d => rfl
  | .vstr s => rfl
  | .varr xs => rfl
  | .vobj im => exact absurd rfl (h im)

theorem mergeOne_noop (st : MergeState) (rc : ResourceConfig) (j : Nat)
    (m : List (String × GoVal)) (pv : GoVal) (insts : List GoVal)
    (hj : lookupIdx st.index
        (resourceKey (modulePathToString rc.modulePath) rc.type rc.name) = some j)
    (hget : st.resources.get? j = some (.vobj m))
    (hprov : lookupKV m "provider" = some pv)
    (hinst : lookupKV m "instances" = some (.varr insts))
    (hne : insts ≠ [])
    (hsteps : ∀ i ∈ insts, mergeInstance rc.attrs i = (i, false)) :
    mergeOne st rc = st := by
  rw [mergeOne_found_eq st rc j m hj hget]
  have hpf : provFill m rc.type = m := by
    rw [provFill, hprov]
    rfl
  rw [hpf, hinst]
  have hasA : asArr (some (.varr insts)) = insts := rfl
  rw [hasA]
  have hmap : insts.map (mergeInstance rc.attrs) =
      insts.map (fun i => (i, false)) := List.map_congr_left hsteps
  have hfst : (insts.map (fun i => ((i, false) : GoVal × Bool))).map
      (fun p => p.1) = insts := by
    rw [List.map_map]
    have hc : ((fun p : GoVal × Bool => p.1) ∘ fun i => (i, false)) = id := rfl
    rw [hc, List.map_id]
  have hany : (insts.map (fun i => ((i, false) : GoVal × Bool))).any
      (fun p => p.2) = false := any_snd_false insts
  have hstep : instStep rc.attrs insts = (insts, false) := by
    rw [instStep, if_neg (fun hc => hne (List.length_eq_zero.mp hc)), hmap,
      hfst, hany]
  rw [hstep]
  rw [show ((insts, false) : List GoVal × Bool).1 = insts from rfl,
    show ((insts, false) : List GoVal × Bool).2 = false from rfl]
  rw [setKV_self _ _ _ hinst, listSet_self _ _ _ hget, Bool.or_false]

theorem ensureOutputs_out (st : List (String × GoVal)) :
    ∃ w, lookupKV (ensureOutputs st) "outputs" = some w ∧
      isNilVal (some w) = false := by
  rw [ensureOutputs]
  by_cases hn : isNilVal (lookupKV st "outputs") = true
  · rw [if_pos hn]
    exact ⟨.vobj [], lookupKV_setKV_eq _ _ _, rfl⟩
  · rw [if_neg hn]
    cases hl : lookupKV st "outputs" with
    | none =>
        rw [hl] at hn
        exact absurd rfl hn
    | some w =>
        refine ⟨w, rfl, ?_⟩
        rw [hl] at hn
        cases hb : isNilVal (some w) with
        | false => rfl
        | true => exact absurd hb hn

theorem isNil_rt (v : GoVal) (h : isNilVal (some v) = false) :
    isNilVal (some (rtNum (sortAllKV v))) = false := by
  match v with
  | .vnil => simp [isNilVal] at h
  | .vbool b => rfl
  | .vint n => rfl
  | .vfloat d => rfl
  | .vstr s => rfl
  | .varr xs => rfl
  | .vobj kvs => rfl

theorem mergeOne_rt_noop (R1 : List GoVal) (rc : ResourceConfig)
    (hwfR : ∀ r ∈ R1, wfKeys r = true)
    (j : Nat) (m : List (String × GoVal))
    (hj : lookupIdx (buildResIndex R1) (keyOf rc) = some j)
    (hg : R1.get? j = some (.vobj m))
    (hres : resSat rc.attrs m) :
    mergeOne ⟨R1.map (fun x => rtNum (sortAllKV x)),
      buildResIndex (R1.map (fun x => rtNum (sortAllKV x))), false⟩ rc =
    ⟨R1.map (fun x => rtNum (sortAllKV x)),
      buildResIndex (R1.map (fun x => rtNum (sortAllKV x))), false⟩ := by
  obtain ⟨⟨pv, hpv⟩, insts, hins, hne, hallsat⟩ := hres
  have hwfm : wfKeys (.vobj m) = true := hwfR _ (List.get?_mem hg)
  have hndm : (m.map Prod.fst).Nodup := ((wfKeys_vobj_iff _).mp hwfm).1
  have hbri : buildResIndex (R1.map (fun x => rtNum (sortAllKV x))) =
      buildResIndex R1 := buildResIndex_rt R1 hwfR
  have hj2 : lookupIdx (⟨R1.map (fun x => rtNum (sortAllKV x)),
      buildResIndex (R1.map (fun x => rtNum (sortAllKV x))), false⟩ :
      MergeState).index
      (resourceKey (modulePathToString rc.modulePath) rc.type rc.name) =
      some j := by
    show lookupIdx (buildResIndex (R1.map (fun x => rtNum (sortAllKV x))))
      (resourceKey (modulePathToString rc.modulePath) rc.type rc.name) = some j
    rw [hbri]
    exact hj
  have hg2 : (R1.map (fun x => rtNum (sortAllKV x))).get? j =
      some (.vobj (rtNumObj (sortKV (sortAllObj m)))) := by
    rw [List.get?_map, hg]
    rfl
  have hpv2 : lookupKV (rtNumObj (sortKV (sortAllObj m))) "provider" =
      some (rtNum (sortAllKV pv)) := lookupKV_jsonRT m _ hndm _ hpv
  have hins2 : lookupKV (rtNumObj (sortKV (sortAllObj m))) "instances" =
      some (.varr (insts.map (fun x => rtNum (sortAllKV x)))) := by
    have h0 := lookupKV_jsonRT m _ hndm _ hins
    rw [show rtNum (sortAllKV (.varr insts)) =
      .varr (rtNumArr (sortAllArr insts)) from rfl, rtArr_map] at h0
    exact h0
  have hwfinsts : ∀ i ∈ insts, wfKeys i = true := by
    have hwv : wfKeys (.varr insts) = true := lookupKV_wf m _ _ hwfm hins
    exact (wfKeys_varr_iff insts).mp hwv
  have hne2 : insts.map (fun x => rtNum (sortAllKV x)) ≠ [] := by
    intro hc
    exact hne (List.map_eq_nil.mp hc)
  have hsteps : ∀ i2 ∈ insts.map (fun x => rtNum (sortAllKV x)),
      mergeInstance rc.attrs i2 = (i2, false) := by
    intro i2 hi2
    rcases List.mem_map.mp hi2 with ⟨i0, hi0, rfl⟩
    match i0, hallsat i0 hi0 with
    | .vobj im, hs =>
        obtain ⟨am, hatt, hsam⟩ := hs
        exact mergeInstance_rt2 rc im am (hwfinsts _ hi0) hatt hsam
    | .vnil, _ => rfl
    | .vbool b, _ => rfl
    | .vint n, _ => rfl
    | .vfloat d, _ => rfl
    | .vstr s, _ => rfl
    | .varr xs, _ => rfl
  exact mergeOne_noop _ rc j (rtNumObj (sortKV (sortAllObj m)))
    (rtNum (sortAllKV pv)) (insts.map (fun x => rtNum (sortAllKV x)))
    hj2 hg2 hpv2 hins2 hne2 hsteps

theorem mergeAll_rt_noop (cfgs : List ResourceConfig) (R1 : List GoVal)
    (hwfR : ∀ r ∈ R1, wfKeys r = true)
    (hsat : ∀ rc ∈ cfgs, stSat ⟨R1, buildResIndex R1, false⟩ rc) :
    mergeAll cfgs (R1.map (fun x => rtNum (sortAllKV x))) =
      (R1.map (fun x => rtNum (sortAllKV x)), false) := by
  have hfix := foldl_mergeOne_fix cfgs
    ⟨R1.map (fun x => rtNum (sortAllKV x)),
      buildResIndex (R1.map (fun x => rtNum (sortAllKV x))), false⟩
    (by
      intro rc hm
      obtain ⟨j, m, hj, hg, hres⟩ := hsat rc hm
      exact mergeOne_rt_noop R1 rc hwfR j m hj hg hres)
  have hmain : mergeAll cfgs (R1.map (fun x => rtNum (sortAllKV x))) =
      ((cfgs.foldl mergeOne ⟨R1.map (fun x => rtNum (sortAllKV x)),
        buildResIndex (R1.map (fun x => rtNum (sortAllKV x))), false⟩).resources,
       (cfgs.foldl mergeOne ⟨R1.map (fun x => rtNum (sortAllKV x)),
        buildResIndex (R1.map (fun x => rtNum (sortAllKV x))), false⟩).changed) :=
    rfl
  rw [hmain, hfix]

/-- Claim C4 (amended): when the configured resources carry pairwise
distinct `(module, type, name)` keys and well-formed (duplicate-free)
attribute maps, as Go maps guarantee, a second identical run of the
literal patcher over the bytes the first run left behind - starting from
any readable prior state - is a no-op: it detects no attribute
difference, performs no write, returns the first run's bytes unchanged,
and leaves `serial` untouched.  (With duplicate resource keys the
original claim fails; see the counterexample.) -/
theorem c4_literals_second_noop (cfgs : List ResourceConfig)
    (hnd : (cfgs.map keyOf).Nodup)
    (hwf : ∀ rc ∈ cfgs, wfKeys (.vobj rc.attrs) = true)
    (b0 b1 : String) (flag : Bool)
    (h : patchLiterals cfgs b0 = some (b1, flag)) :
    patchLiterals cfgs b1 = some (b1, false) := by
  simp only [patchLiterals] at h
  split at h
  · rename_i st0 hparse0
    split at h
    · rename_i hch
      injection h with h2
      injection h2 with h3 h4
      rw [← h3]
      have hwf0 : wfKeys (.vobj st0) = true := jsonParse_wf b0 _ hparse0
      have hST1wf : wfKeys (.vobj (ensureOutputs st0)) = true := ensureOutputs_wf _ hwf0
      have hRES0wf : ∀ r ∈ (asArr (lookupKV (ensureOutputs st0) "resources")), wfKeys r = true := asArr_wf _ _ hST1wf
      obtain ⟨hfin_idx, hfin_pres, hfin_sat⟩ := mergeFold_sat cfgs
        ⟨(asArr (lookupKV (ensureOutputs st0) "resources")), buildResIndex (asArr (lookupKV (ensureOutputs st0) "resources")), false⟩ rfl hRES0wf hnd hwf
      have hR1wf : ∀ r ∈ (mergeAll cfgs (asArr (lookupKV (ensureOutputs st0) "resources"))).1, wfKeys r = true :=
        mergeAll_wf cfgs (asArr (lookupKV (ensureOutputs st0) "resources")) hRES0wf hwf
      have hST2wf : wfKeys (.vobj (setKV (ensureOutputs st0) "resources" (.varr ((mergeAll cfgs (asArr (lookupKV (ensureOutputs st0) "resources"))).1)))) = true :=
        wfKeys_setKV_obj _ _ _ hST1wf (by rw [wfKeys_varr_iff]; exact hR1wf)
      have hL1wf : wfKeys (.vobj (bumpSerialVersion (setKV (ensureOutputs st0) "resources" (.varr ((mergeAll cfgs (asArr (lookupKV (ensureOutputs st0) "resources"))).1))))) = true := bump_wf _ hST2wf
      have hnd1 : (((bumpSerialVersion (setKV (ensureOutputs st0) "resources" (.varr ((mergeAll cfgs (asArr (lookupKV (ensureOutputs st0) "resources"))).1))))).map Prod.fst).Nodup := ((wfKeys_vobj_iff _).mp hL1wf).1
      have hparse1 : jsonParse (marshal (.vobj (bumpSerialVersion (setKV (ensureOutputs st0) "resources" (.varr ((mergeAll cfgs (asArr (lookupKV (ensureOutputs st0) "resources"))).1)))))) =
          some (.vobj (rtNumObj (sortKV (sortAllObj (bumpSerialVersion (setKV (ensureOutputs st0) "resources" (.varr ((mergeAll cfgs (asArr (lookupKV (ensureOutputs st0) "resources"))).1)))))))) := jsonParse_marshal _ hL1wf
      obtain ⟨w, hw, hwnil⟩ := ensureOutputs_out st0
      have houtL : lookupKV (bumpSerialVersion (setKV (ensureOutputs st0) "resources" (.varr ((mergeAll cfgs (asArr (lookupKV (ensureOutputs st0) "resources"))).1)))) "outputs" = some w := by
        rw [bump_lookup_other _ _ (by decide) (by decide),
          lookupKV_setKV_ne _ _ _ _ (by decide)]
        exact hw
      have hresL : lookupKV (bumpSerialVersion (setKV (ensureOutputs st0) "resources" (.varr ((mergeAll cfgs (asArr (lookupKV (ensureOutputs st0) "resources"))).1)))) "resources" = some (.varr ((mergeAll cfgs (asArr (lookupKV (ensureOutputs st0) "resources"))).1)) := by
        rw [bump_lookup_other _ _ (by decide) (by decide)]
        exact lookupKV_setKV_eq _ _ _
      have hout2 : lookupKV (rtNumObj (sortKV (sortAllObj (bumpSerialVersion (setKV (ensureOutputs st0) "resources" (.varr ((mergeAll cfgs (asArr (lookupKV (ensureOutputs st0) "resources"))).1))))))) "outputs" = some (rtNum (sortAllKV w)) :=
        lookupKV_jsonRT _ _ hnd1 _ houtL
      have hres2 : lookupKV (rtNumObj (sortKV (sortAllObj (bumpSerialVersion (setKV (ensureOutputs st0) "resources" (.varr ((mergeAll cfgs (asArr (lookupKV (ensureOutputs st0) "resources"))).1))))))) "resources" =
          some (.varr (((mergeAll cfgs (asArr (lookupKV (ensureOutputs st0) "resources"))).1).map (fun x => rtNum (sortAllKV x)))) := by
        have h0 := lookupKV_jsonRT _ _ hnd1 _ hresL
        rw [show rtNum (sortAllKV (.varr ((mergeAll cfgs (asArr (lookupKV (ensureOutputs st0) "resources"))).1))) =
          .varr (rtNumArr (sortAllArr ((mergeAll cfgs (asArr (lookupKV (ensureOutputs st0) "resources"))).1))) from rfl, rtArr_map] at h0
        exact h0
      have hens2 : ensureOutputs (rtNumObj (sortKV (sortAllObj (bumpSerialVersion (setKV (ensureOutputs st0) "resources" (.varr ((mergeAll cfgs (asArr (lookupKV (ensureOutputs st0) "resources"))).1))))))) = (rtNumObj (sortKV (sortAllObj (bumpSerialVersion (setKV (ensureOutputs st0) "resources" (.varr ((mergeAll cfgs (asArr (lookupKV (ensureOutputs st0) "resources"))).1))))))) := by
        rw [ensureOutputs, hout2]
        rw [if_neg (by
          rw [isNil_rt w hwnil]
          intro hc
          exact Bool.noConfusion hc)]
      have hsat2 : ∀ rc ∈ cfgs, stSat ⟨(mergeAll cfgs (asArr (lookupKV (ensureOutputs st0) "resources"))).1, buildResIndex ((mergeAll cfgs (asArr (lookupKV (ensureOutputs st0) "resources"))).1), false⟩ rc := by
        intro rc hm
        obtain ⟨j, m, hj, hg, hres⟩ := hfin_sat rc hm
        rw [hfin_idx] at hj
        exact ⟨j, m, hj, hg, hres⟩
      have hmerge2 := mergeAll_rt_noop cfgs ((mergeAll cfgs (asArr (lookupKV (ensureOutputs st0) "resources"))).1) hR1wf hsat2
      simp only [patchLiterals]
      rw [hparse1]
      dsimp only []
      rw [hens2, hres2]
      have hasA : asArr (some (.varr (((mergeAll cfgs (asArr (lookupKV (ensureOutputs st0) "resources"))).1).map (fun x => rtNum (sortAllKV x))))) =
          ((mergeAll cfgs (asArr (lookupKV (ensureOutputs st0) "resources"))).1).map (fun x => rtNum (sortAllKV x)) := rfl
      rw [hasA, hmerge2]
      rfl
    · rename_i hch
      injection h with h2
      injection h2 with h3 h4
      rw [← h3]
      simp only [patchLiterals]
      rw [hparse0]
      dsimp only []
      rw [if_neg hch]
  · exact absurd h (by simp)

/-- The C4 no-op second run exercised concretely: one `null_resource`
configuration patched into a fresh state; the second identical run
returns the same bytes with no write. -/
theorem c4_witness :
    patchLiterals [c3Cfg]
      (((patchLiterals [c3Cfg] (marshal (.vobj (initialState "L")))).getD
        ("", false)).1) =
    some ((((patchLiterals [c3Cfg] (marshal (.vobj (initialState "L")))).getD
        ("", false)).1), false) :=
  c4_literals_second_noop [c3Cfg] (by simp)
    (by
      intro rc hm
      rw [List.mem_singleton] at hm
      subst hm
      rfl)
    (marshal (.vobj (initialState "L"))) _ true (by rfl)

end Terraflow
